import Mathlib

/-!
# Verification of the CPM scheduling engine (`main.py`, class `Ordonnancement`)

This file gives a shallow embedding of the core of the scheduling program:

* `construireGraphe` — graph construction from the task table (`construire_graphe`),
  with the two Python failure modes (`KeyError` on a dangling predecessor and
  `IndexError` on an out-of-range index) made explicit through `Except`;
* `runK` — the in-degree-elimination (Kahn) loop shared by `detecter_circuit`,
  `calculer_rangs` and `calculer_calendriers`, parameterised by the relaxation
  performed on each processed edge;
* `detecterCircuit` — Kahn count check plus the recursive DFS fallback, with
  Python truthiness (`True` / `False` / a list) modelled by `DfsRes`;
* `verifierProprietes`, `calculerRangs`, `calculerCalendriers`,
  `trouverCheminsCritiques` — direct translations of the remaining methods.

Python's `float('inf')` sentinel used by the latest-date pass is modelled by
`LateVal`.  Machine integers of the source are Python big-ints, so plain `Int`
is the faithful translation.
-/

/-- A task table entry: `(id, (duration, predecessors))`, mirroring the Python
dict `{num: (durée, [prédécesseurs])}` in insertion order. -/
abbrev TaskTable := List (Nat × (Int × List Nat))

namespace Ordo

/-- Keys of the task table (the Python dict keys, in insertion order). -/
def keys (t : TaskTable) : List Nat := t.map (·.1)

/-- Python `self.tasks[p]` as a partial lookup (dict access). -/
def tfind (t : TaskTable) (p : Nat) : Option (Int × List Nat) :=
  (t.find? (fun e => e.1 == p)).map (·.2)

/-- The adjacency matrix `self.matrix`: entry `w i j` is `some x` when the arc
`i → j` exists with value `x`, and `none` for the Python sentinel `None`. -/
structure Graph where
  size : Nat
  w : Nat → Nat → Option Int

/-- Matrix update `m[i][j] = x`. -/
def mupd (m : Nat → Nat → Option Int) (i j : Nat) (x : Option Int) :
    Nat → Nat → Option Int :=
  fun a b => if a = i ∧ b = j then x else m a b

/-- Python `self.matrix[i][j] is not None` as a Bool. -/
def isEdge (G : Graph) (i j : Nat) : Bool := (G.w i j).isSome

/-- `self.matrix[i][j] if self.matrix[i][j] is not None else 0`. -/
def wval (G : Graph) (i j : Nat) : Int := (G.w i j).getD 0

/-- The two exceptions graph construction can raise: `KeyError` from
`self.tasks[pred]` (a dangling predecessor — the spec's `MalformedInput`), and
`IndexError` from indexing the matrix out of range. -/
inductive BuildErr where
  | malformedInput
  | indexError
deriving DecidableEq, Repr

/-- Phase 1 of `construire_graphe`: arcs `α → task` (weight 0) for every task
without predecessors.  `self.matrix[self.alpha][task] = 0` raises `IndexError`
when `task ≥ size`. -/
def phaseA (size : Nat) (t : TaskTable)
    (m : Nat → Nat → Option Int) : Except BuildErr (Nat → Nat → Option Int) :=
  t.foldlM (fun m e =>
    if e.2.2 = [] then
      if e.1 < size then .ok (mupd m 0 e.1 (some 0)) else .error .indexError
    else .ok m) m

/-- Phase 2 of `construire_graphe`: arcs `pred → task` weighted by the
predecessor's duration.  `self.tasks[pred]` is evaluated first (`KeyError` on a
dangling predecessor), then the matrix cell is addressed (`IndexError` out of
range). -/
def predStep (t : TaskTable) (size tid : Nat)
    (m : Nat → Nat → Option Int) (p : Nat) : Except BuildErr (Nat → Nat → Option Int) :=
  match tfind t p with
  | none => .error .malformedInput
  | some pd =>
    if p < size ∧ tid < size then .ok (mupd m p tid (some pd.1))
    else .error .indexError

/-- The fold of phase 2 over an arbitrary suffix of the task list. -/
def phaseBGo (size : Nat) (t : TaskTable) (l : TaskTable)
    (m : Nat → Nat → Option Int) : Except BuildErr (Nat → Nat → Option Int) :=
  l.foldlM (fun m e => e.2.2.foldlM (predStep t size e.1) m) m

def phaseB (size : Nat) (t : TaskTable)
    (m : Nat → Nat → Option Int) : Except BuildErr (Nat → Nat → Option Int) :=
  phaseBGo size t t m

/-- Phase 3 of `construire_graphe`: arcs `i → ω` from every task without a
successor in the current matrix, weighted by the task's own duration. -/
def phaseC (size omega : Nat) (t : TaskTable)
    (m : Nat → Nat → Option Int) : Nat → Nat → Option Int :=
  (List.range size).foldl (fun m i =>
    if i ≠ omega ∧ (∀ j ∈ List.range size, m i j = none) then
      match tfind t i with
      | some d => mupd m i omega (some d.1)
      | none => m
    else m) m

/-- `construire_graphe`: builds the `(n+2) × (n+2)` matrix (α = 0,
ω = n+1) or raises. -/
def construireGraphe (t : TaskTable) : Except BuildErr Graph :=
  match phaseA (t.length + 2) t (fun _ _ => none) with
  | .error e => .error e
  | .ok m1 =>
    match phaseB (t.length + 2) t m1 with
    | .error e => .error e
    | .ok m2 => .ok ⟨t.length + 2, phaseC (t.length + 2) (t.length + 1) t m2⟩

/-- The graph actually built for a table (junk when construction raised). -/
def builtG (t : TaskTable) : Graph :=
  match construireGraphe t with
  | .ok g => g
  | .error _ => ⟨0, fun _ _ => none⟩

/-- The omega vertex `n+1 = size - 1` of a built graph. -/
def omegaOf (G : Graph) : Nat := G.size - 1

/-- Python's `adj[i]`: out-neighbours of `i` in increasing order, as collected
by the row scan `for j in range(size)`. -/
def adjL (G : Graph) (u : Nat) : List Nat :=
  (List.range G.size).filter (fun v => isEdge G u v)

/-- Python's `in_degree[v]` as computed by the double scan. -/
def inDegI (G : Graph) (v : Nat) : Int :=
  ((List.range G.size).filter (fun u => isEdge G u v)).length

/-- The reversed graph used by the backward calendar pass. -/
def rev (G : Graph) : Graph := ⟨G.size, fun i j => G.w j i⟩

/-- State of the in-degree elimination loop: the FIFO `queue`, the mutable
`in_degree` array, the relaxed value array, and the order in which vertices
were removed (`topo_order`). -/
structure KSt (β : Type) where
  queue : List Nat
  deg : Nat → Int
  val : Nat → β
  order : List Nat

/-- One-point update of a value array. -/
def updF {β : Type} (f : Nat → β) (v : Nat) (x : β) : Nat → β :=
  fun a => if a = v then x else f a

/-- Processing of one out-edge `u → v` of a removed vertex: relax the value at
`v`, decrement `in_degree[v]`, enqueue `v` when it reaches 0. -/
def edgeStep {β : Type} (relax : (Nat → β) → Nat → Nat → Nat → β)
    (u : Nat) (s : KSt β) (v : Nat) : KSt β :=
  let val' := relax s.val u v
  let d := s.deg v - 1
  { queue := if d = 0 then s.queue ++ [v] else s.queue
    deg := updF s.deg v d
    val := val'
    order := s.order }

/-- Removal of one entry point `u`: record it, then process all its out-edges
in adjacency order. -/
def popStep {β : Type} (G : Graph) (relax : (Nat → β) → Nat → Nat → Nat → β)
    (s : KSt β) (u : Nat) : KSt β :=
  (adjL G u).foldl (edgeStep relax u) { s with order := s.order ++ [u] }

/-- One iteration of the `while queue:` loop; the identity once the queue is
empty (the loop has exited). -/
def loopStep {β : Type} (G : Graph) (relax : (Nat → β) → Nat → Nat → Nat → β)
    (s : KSt β) : KSt β :=
  match s.queue with
  | [] => s
  | u :: q => popStep G relax { s with queue := q } u

/-- The `while queue:` loop, with fuel.  `G.size` units of fuel always empty
the queue (`runK_queue_empty` below), after which iterating is the identity,
so this computes exactly what the Python loop computes. -/
def runK {β : Type} (G : Graph) (relax : (Nat → β) → Nat → Nat → Nat → β) :
    Nat → KSt β → KSt β
  | 0, s => s
  | fuel + 1, s => runK G relax fuel (loopStep G relax s)

/-- The initial loop state: in-degrees computed by the double scan, queue of
in-degree-0 vertices, initial values `v0`. -/
def initSt {β : Type} (G : Graph) (v0 : Nat → β) : KSt β :=
  { queue := (List.range G.size).filter (fun v => inDegI G v = 0)
    deg := fun v => inDegI G v
    val := v0
    order := [] }

/-- The full elimination run with sufficient fuel. -/
def kahn {β : Type} (G : Graph) (relax : (Nat → β) → Nat → Nat → Nat → β)
    (v0 : Nat → β) : KSt β :=
  runK G relax G.size (initSt G v0)

/-! ## The DFS circuit extractor of `detecter_circuit` -/

/-- Mutable state of the recursive `dfs`: `visited`, `on_stack`, and the shared
`path` list. -/
structure DfsSt where
  visited : Nat → Bool
  onStack : Nat → Bool
  path : List Nat

/-- A Python value returned by `dfs`: `True`, `False`, or a list. -/
inductive DfsRes where
  | rtrue
  | rfalse
  | rlist (l : List Nat)
deriving DecidableEq, Repr

/-- Python truthiness of a `dfs` result (`if dfs(neighbor):`). -/
def DfsRes.truthy : DfsRes → Bool
  | .rtrue => true
  | .rfalse => false
  | .rlist l => !l.isEmpty

/-- The `for neighbor in adj[node]:` loop body of `dfs`, including the final
`on_stack[node] = False; path.pop(); return False`.  The recursive call is
passed in as `dfs` so that `dfsGo` below is structurally recursive on fuel. -/
def dfsLoop (dfs : Nat → DfsSt → DfsRes × DfsSt) (node : Nat) :
    List Nat → DfsSt → DfsRes × DfsSt
  | [], s =>
    (.rfalse, { s with onStack := updF s.onStack node false, path := s.path.dropLast })
  | nb :: rest, s =>
    if s.visited nb = false then
      match dfs nb s with
      | (r, s') => if r.truthy then (.rtrue, s') else dfsLoop dfs node rest s'
    else if s.onStack nb then
      (.rlist (s.path.drop (s.path.indexOf nb) ++ [nb]), s)
    else dfsLoop dfs node rest s

/-- The recursive `dfs(node)` of `detecter_circuit`, fuelled (the Python
recursion is bounded by the number of unvisited vertices).  Marks the node
visited and on-stack, appends it to the path, then scans its neighbours. -/
def dfsGo (G : Graph) : Nat → Nat → DfsSt → DfsRes × DfsSt
  | 0, _, s => (.rfalse, s)
  | fuel + 1, node, s =>
    let s1 : DfsSt :=
      { visited := updF s.visited node true
        onStack := updF s.onStack node true
        path := s.path ++ [node] }
    dfsLoop (dfsGo G fuel) node (adjL G node) s1

/-- The `for node in range(size): if not visited[node]: ...` driver; returns
the first truthy `dfs` result, and `rlist []` (the `return []` fallback) when
every root returns falsy. -/
def dfsRoots (G : Graph) : List Nat → DfsSt → DfsRes
  | [], _ => .rlist []
  | node :: rest, s =>
    if s.visited node = false then
      match dfsGo G (G.size + 1) node s with
      | (.rfalse, s') => dfsRoots G rest s'
      | (r, _) => r
    else dfsRoots G rest s

/-- The value returned by `detecter_circuit`: Python `None` (no circuit), or
the truthy/empty `circuit` value from the DFS. -/
inductive CircuitRes where
  | none
  | pytrue
  | pylist (l : List Nat)
deriving DecidableEq, Repr

/-- `detecter_circuit`: Kahn elimination; if every vertex was removed return
`None`, otherwise run the DFS over all roots. -/
def detecterCircuit (G : Graph) : CircuitRes :=
  let s := kahn G (fun val _ _ => val) (fun _ => ())
  if s.order.length = G.size then .none
  else
    match dfsRoots G (List.range G.size)
      ⟨fun _ => false, fun _ => false, []⟩ with
    | .rtrue => .pytrue
    | .rfalse => .pylist []   -- unreachable: the driver never returns rfalse
    | .rlist l => .pylist l

/-- Python truthiness of the `circuit` value inside `verifier_proprietes`. -/
def CircuitRes.truthy : CircuitRes → Bool
  | .none => false
  | .pytrue => true
  | .pylist l => !l.isEmpty

/-- `verifier_proprietes`: `False` on an unbuilt (empty) matrix, else no
negative arc and no circuit. -/
def verifierProprietes (G : Graph) : Bool :=
  if G.size = 0 then false
  else
    !(decide (∃ i ∈ List.range G.size, ∃ j ∈ List.range G.size,
      ∃ x, G.w i j = some x ∧ x < 0)) && !(detecterCircuit G).truthy

/-- The rank relaxation: `if ranks[v] < ranks[u] + 1: ranks[v] = ranks[u] + 1`. -/
def relaxRank (val : Nat → Int) (u v : Nat) : Nat → Int :=
  if val v < val u + 1 then updF val v (val u + 1) else val

/-- `calculer_rangs`: rank array after the elimination run. -/
def rangArray (G : Graph) : Nat → Int :=
  (kahn G relaxRank (fun _ => 0)).val

/-- `calculer_rangs` as the Python list it returns. -/
def calculerRangs (G : Graph) : List Int :=
  (List.range G.size).map (rangArray G)

/-- The earliest-date relaxation:
`if early[v] < early[u] + w: early[v] = early[u] + w`. -/
def relaxEarly (G : Graph) (val : Nat → Int) (u v : Nat) : Nat → Int :=
  if val v < val u + wval G u v then updF val v (val u + wval G u v) else val

/-- The earliest-date array of `calculer_calendriers`. -/
def earlyArray (G : Graph) : Nat → Int :=
  (kahn G (relaxEarly G) (fun _ => 0)).val

/-- Total project duration `early[omega]`. -/
def totalDuration (G : Graph) : Int := earlyArray G (omegaOf G)

/-- A latest date: either the `float('inf')` sentinel or a finite value. -/
inductive LateVal where
  | inf
  | fin (z : Int)
deriving DecidableEq, Repr

/-- `late[u] - w` with the infinity sentinel. -/
def LateVal.sub : LateVal → Int → LateVal
  | .inf, _ => .inf
  | .fin z, x => .fin (z - x)

/-- Strict comparison `a < b` on latest dates (`inf` is the top element), so
that Python's `late[v] > late[u] - w` is `(late[u] - w).lt (late[v])`. -/
def LateVal.lt : LateVal → LateVal → Bool
  | .inf, _ => false
  | .fin _, .inf => true
  | .fin a, .fin b => a < b

/-- The latest-date relaxation, performed on the reversed graph `R = rev G`:
`if late[v] > late[u] - w(v, u): late[v] = late[u] - w(v, u)`. -/
def relaxLate (R : Graph) (val : Nat → LateVal) (u v : Nat) : Nat → LateVal :=
  if ((val u).sub (wval R u v)).lt (val v) then updF val v ((val u).sub (wval R u v))
  else val

/-- The latest-date array: backward elimination over the reversed graph,
anchored at `late[omega] = totalDuration`. -/
def lateArray (G : Graph) : Nat → LateVal :=
  (kahn (rev G) (relaxLate (rev G))
    (updF (fun _ => .inf) (omegaOf G) (.fin (totalDuration G)))).val

/-- Per-vertex margin `late[i] - early[i]`. -/
def marginArray (G : Graph) (i : Nat) : LateVal :=
  (lateArray G i).sub (earlyArray G i)

/-- `calculer_calendriers`: the three Python lists `(early, late, margins)`. -/
def calculerCalendriers (G : Graph) :
    List Int × List LateVal × List LateVal :=
  ((List.range G.size).map (earlyArray G),
   (List.range G.size).map (lateArray G),
   (List.range G.size).map (marginArray G))

/-! ## `trouver_chemins_critiques` -/

/-- A critical arc: `late[j] - early[i] - w(i,j) == 0` (false on the `inf`
sentinel, as in Python where `inf - x != 0`). -/
def critEdge (G : Graph) (early : Nat → Int) (late : Nat → LateVal)
    (i j : Nat) : Bool :=
  isEdge G i j &&
    match late j with
    | .inf => false
    | .fin z => z - early i - wval G i j = 0

/-- Adjacency over critical arcs only (built in the same row-major order). -/
def critAdj (G : Graph) (early : Nat → Int) (late : Nat → LateVal)
    (i : Nat) : List Nat :=
  (List.range G.size).filter (fun j => critEdge G early late i j)

/-- The `for neighbor in adj[node]:` loop of the path-enumeration `dfs`, with
the recursive call passed in as `rec`. -/
def cpFold (rec : Nat → List Nat → List (List Nat) → List (List Nat))
    (path : List Nat) : List Nat → List (List Nat) → List (List Nat)
  | [], ps => ps
  | nb :: rest, ps => cpFold rec path rest (rec nb path ps)

/-- The path-enumeration `dfs(node, path, paths)` of
`trouver_chemins_critiques`, fuelled (the Python recursion is unbounded, but
on the acyclic graphs it is meant for its depth is at most the vertex
count). -/
def cpDfs (G : Graph) (early : Nat → Int) (late : Nat → LateVal) (omega : Nat) :
    Nat → Nat → List Nat → List (List Nat) → List (List Nat)
  | 0, _, _, paths => paths
  | fuel + 1, node, path, paths =>
    let path' := path ++ [node]
    if node = omega then paths ++ [path']
    else cpFold (cpDfs G early late omega fuel) path' (critAdj G early late node) paths

/-- `trouver_chemins_critiques`: all α→ω paths in the zero-slack subgraph. -/
def trouverCheminsCritiques (G : Graph) (early : Nat → Int)
    (late : Nat → LateVal) : List (List Nat) :=
  cpDfs G early late (omegaOf G) (G.size + 1) 0 [] []

/-- Option 7 of the menu: the full pipeline on one task table (graph, ranks,
calendars, critical paths). -/
def pipeline (t : TaskTable) :
    Option (List Int × (List Int × List LateVal × List LateVal) × List (List Nat)) :=
  match construireGraphe t with
  | .error _ => none
  | .ok G =>
    let cal := calculerCalendriers G
    some (calculerRangs G, cal, trouverCheminsCritiques G (earlyArray G) (lateArray G))

end Ordo

/-! ## Concrete scenarios from the specification -/

namespace Ordo

/-- The nominal example scenario: tasks `{1:(3,[]), 2:(2,[]), 3:(4,[1,2]), 4:(1,[3])}`. -/
def exTasks : TaskTable := [(1,(3,[])), (2,(2,[])), (3,(4,[1,2])), (4,(1,[3]))]

/-- The cycle scenario: tasks `{1:(1,[2]), 2:(1,[1])}`. -/
def cycTasks : TaskTable := [(1,(1,[2])), (2,(1,[1]))]

/-- The malformed-input scenario: task `1` lists the undefined predecessor `9`. -/
def badTasks : TaskTable := [(1,(1,[9]))]

/-- The arc list of a graph in the row-major order `afficher_graphe` prints. -/
def edgesOf (G : Graph) : List (Nat × Nat × Int) :=
  (List.range G.size).flatMap (fun i => (List.range G.size).filterMap
    (fun j => (G.w i j).map (fun x => (i, j, x))))

end Ordo

namespace Claims

open Ordo

/-- C1 (code_bug evidence): on the cyclic task table `{1:(1,[2]), 2:(1,[1])}`
the graph builds, Kahn elimination leaves vertices 1 and 2, and
`detecter_circuit` returns the bare Python boolean `True` rather than an
ordered vertex sequence: the recursive DFS found the circuit `[1, 2, 1]` but
its caller discards it via `return True`, so no vertex sequence containing 1
and 2 is ever reported. -/
theorem c1_detecter_circuit_returns_bool :
    (construireGraphe cycTasks).isOk = true ∧
    detecterCircuit (builtG cycTasks) = .pytrue := by decide

/-- C2 (counterexample): on the nominal scenario the latest-date array
computed by `calculer_calendriers` is not `[0,1,2,3,7,8]` as the claim
states. -/
theorem c2_latest_differs :
    (calculerCalendriers (builtG exTasks)).2.1 ≠
      [.fin 0, .fin 1, .fin 2, .fin 3, .fin 7, .fin 8] := by decide

/-- C2 (amended): the pipeline on `{1:(3,[]), 2:(2,[]), 3:(4,[1,2]),
4:(1,[3])}` produces exactly the six claimed arcs, earliest `[0,0,0,3,7,8]`,
latest `[0,0,1,3,7,8]` (not `[0,1,2,3,7,8]`), total duration 8 and the single
critical path `0→1→3→4→5`. -/
theorem c2_pipeline_values :
    (construireGraphe exTasks).isOk = true ∧
    edgesOf (builtG exTasks) = [(0,1,0),(0,2,0),(1,3,3),(2,3,2),(3,4,4),(4,5,1)] ∧
    (calculerCalendriers (builtG exTasks)).1 = [0,0,0,3,7,8] ∧
    (calculerCalendriers (builtG exTasks)).2.1 =
      [.fin 0, .fin 0, .fin 1, .fin 3, .fin 7, .fin 8] ∧
    totalDuration (builtG exTasks) = 8 ∧
    trouverCheminsCritiques (builtG exTasks) (earlyArray (builtG exTasks))
      (lateArray (builtG exTasks)) = [[0,1,3,4,5]] := by decide

/-- C8 (counterexample): on the cyclic graph of `{1:(1,[2]), 2:(1,[1])}` —
which fails validation — `calculer_rangs` and `calculer_calendriers` do not
fail: they return ordinary partially-computed arrays (both cycle vertices keep
rank 0 and infinite latest dates). -/
theorem c8_no_failure_on_cycle :
    detecterCircuit (builtG cycTasks) ≠ .none ∧
    calculerRangs (builtG cycTasks) = [0, 0, 0, 0] ∧
    calculerCalendriers (builtG cycTasks) =
      ([0, 0, 0, 0], [.inf, .inf, .inf, .fin 0], [.inf, .inf, .inf, .fin 0]) := by
  decide

/-- C8 (amended): rank and calendar computation never fail on a built graph,
validated or not: they always return full-length arrays, computed by partial
topological relaxation (on the cyclic scenario the cycle vertices keep their
initial rank 0 and the infinite latest-date sentinel). -/
theorem c8_returns_partial_results :
    (∀ G : Graph, (calculerRangs G).length = G.size ∧
      (calculerCalendriers G).1.length = G.size ∧
      (calculerCalendriers G).2.1.length = G.size ∧
      (calculerCalendriers G).2.2.length = G.size) ∧
    calculerRangs (builtG cycTasks) = [0, 0, 0, 0] ∧
    (calculerCalendriers (builtG cycTasks)).2.1 = [.inf, .inf, .inf, .fin 0] := by
  refine ⟨fun G => ⟨?_, ?_, ?_, ?_⟩, by decide, by decide⟩ <;>
    simp [calculerRangs, calculerCalendriers]

/-- C9: the full pipeline is a pure function of the task table — two runs on
the same table return identical rank arrays, identical
earliest/latest/margin arrays, and the same list of critical paths. -/
theorem c9_pipeline_deterministic (t : TaskTable)
    (r₁ r₂ : Option (List Int × (List Int × List LateVal × List LateVal) × List (List Nat)))
    (h₁ : r₁ = pipeline t) (h₂ : r₂ = pipeline t) : r₁ = r₂ := by
  rw [h₁, h₂]

/-- C9 witness: the two runs on the nominal scenario coincide. -/
theorem c9_pipeline_deterministic_witness :
    pipeline exTasks = pipeline exTasks :=
  c9_pipeline_deterministic exTasks _ _ rfl rfl

end Claims

/-! ## Graph construction failure on dangling predecessors -/

namespace Ordo

theorem tfind_eq_none {t : TaskTable} {p : Nat} (h : p ∉ keys t) :
    tfind t p = none := by
  have hf : t.find? (fun e => e.1 == p) = none := by
    rw [List.find?_eq_none]
    intro e he hbe
    exact h (List.mem_map.mpr ⟨e, he, by simpa using hbe⟩)
  simp [tfind, hf]

theorem mem_keys_of_tfind {t : TaskTable} {p : Nat} {x : Int × List Nat}
    (h : tfind t p = some x) : p ∈ keys t := by
  unfold tfind at h
  cases hf : t.find? (fun e => e.1 == p) with
  | none => rw [hf] at h; simp at h
  | some e =>
    have he : e ∈ t := List.mem_of_find?_eq_some hf
    have hbe := List.find?_some hf
    exact List.mem_map.mpr ⟨e, he, by simpa using hbe⟩

theorem phaseA_ok (size : Nat) :
    ∀ (l : TaskTable) (m : Nat → Nat → Option Int), (∀ e ∈ l, e.1 < size) →
      ∃ m', phaseA size l m = .ok m'
  | [], m, _ => ⟨m, rfl⟩
  | e :: l, m, h => by
    have htail : ∀ e' ∈ l, e'.1 < size := fun e' he' => h e' (List.mem_cons_of_mem _ he')
    show ∃ m', ((if e.2.2 = [] then
        if e.1 < size then Except.ok (mupd m 0 e.1 (some 0)) else .error .indexError
      else .ok m) >>= fun m' => phaseA size l m') = .ok _
    by_cases hp : e.2.2 = []
    · rw [if_pos hp, if_pos (h e (List.mem_cons_self e l))]
      exact phaseA_ok size l _ htail
    · rw [if_neg hp]
      exact phaseA_ok size l m htail

theorem predRun_error (t : TaskTable) (size tid : Nat)
    (hk : ∀ p x, tfind t p = some x → p < size) (htid : tid < size) :
    ∀ (preds : List Nat) (m : Nat → Nat → Option Int),
      (∃ p ∈ preds, tfind t p = none) →
      preds.foldlM (predStep t size tid) m = .error .malformedInput
  | [], _, h => by simp at h
  | p :: rest, m, h => by
    rw [List.foldlM_cons]
    cases hp : tfind t p with
    | none =>
      have hstep : predStep t size tid m p = .error .malformedInput := by
        simp [predStep, hp]
      rw [hstep]
      rfl
    | some pd =>
      have hstep : predStep t size tid m p = .ok (mupd m p tid (some pd.1)) := by
        simp [predStep, hp, hk p pd hp, htid]
      rw [hstep]
      show rest.foldlM (predStep t size tid) _ = _
      refine predRun_error t size tid hk htid rest _ ?_
      obtain ⟨q, hq, hqn⟩ := h
      rcases List.mem_cons.mp hq with rfl | hq'
      · rw [hp] at hqn; exact absurd hqn (by simp)
      · exact ⟨q, hq', hqn⟩

theorem predRun_ok (t : TaskTable) (size tid : Nat)
    (hk : ∀ p x, tfind t p = some x → p < size) (htid : tid < size) :
    ∀ (preds : List Nat) (m : Nat → Nat → Option Int),
      (∀ p ∈ preds, tfind t p ≠ none) →
      ∃ m', preds.foldlM (predStep t size tid) m = .ok m'
  | [], m, _ => ⟨m, rfl⟩
  | p :: rest, m, h => by
    rw [List.foldlM_cons]
    cases hp : tfind t p with
    | none => exact absurd hp (h p (List.mem_cons_self p rest))
    | some pd =>
      have hstep : predStep t size tid m p = .ok (mupd m p tid (some pd.1)) := by
        simp [predStep, hp, hk p pd hp, htid]
      rw [hstep]
      exact predRun_ok t size tid hk htid rest _
        (fun q hq => h q (List.mem_cons_of_mem _ hq))

theorem phaseBGo_error (size : Nat) (t : TaskTable)
    (hk : ∀ p x, tfind t p = some x → p < size) :
    ∀ (l : TaskTable) (m : Nat → Nat → Option Int), (∀ e ∈ l, e.1 < size) →
      (∃ e ∈ l, ∃ p ∈ e.2.2, tfind t p = none) →
      phaseBGo size t l m = .error .malformedInput
  | [], _, _, h => by simp at h
  | e :: l, m, hl, h => by
    have htid : e.1 < size := hl e (List.mem_cons_self e l)
    show (e.2.2.foldlM (predStep t size e.1) m >>= fun m' => phaseBGo size t l m') = _
    by_cases he : ∃ p ∈ e.2.2, tfind t p = none
    · rw [predRun_error t size e.1 hk htid e.2.2 m he]
      rfl
    · obtain ⟨m', hm'⟩ := predRun_ok t size e.1 hk htid e.2.2 m
        (fun p hp hn => he ⟨p, hp, hn⟩)
      rw [hm']
      refine phaseBGo_error size t hk l m'
        (fun e' he' => hl e' (List.mem_cons_of_mem _ he')) ?_
      obtain ⟨f, hf, hfp⟩ := h
      rcases List.mem_cons.mp hf with rfl | hf'
      · exact absurd hfp he
      · exact ⟨f, hf', hfp⟩

end Ordo

namespace Claims

open Ordo

/-- C4: for every task table whose task ids are in the vertex range `0..n+1`
(the spec's task ids are `1..n`), if some task lists a predecessor id that is
not a key of the task collection, then `construire_graphe` fails at build time
with the dangling-predecessor error (Python's `KeyError` from
`self.tasks[pred]`, the spec's `MalformedInput`) — it never silently drops the
reference. -/
theorem c4_dangling_predecessor_fails (t : TaskTable)
    (hids : ∀ id ∈ keys t, id < t.length + 2)
    (hd : ∃ e ∈ t, ∃ p ∈ e.2.2, p ∉ keys t) :
    construireGraphe t = .error .malformedInput := by
  have hl : ∀ e ∈ t, e.1 < t.length + 2 := fun e he =>
    hids e.1 (List.mem_map.mpr ⟨e, he, rfl⟩)
  obtain ⟨m1, hA⟩ := phaseA_ok (t.length + 2) t (fun _ _ => none) hl
  have hB : phaseB (t.length + 2) t m1 = .error .malformedInput := by
    refine phaseBGo_error (t.length + 2) t
      (fun p x hx => hids p (mem_keys_of_tfind hx)) t m1 hl ?_
    obtain ⟨e, he, p, hp, hpk⟩ := hd
    exact ⟨e, he, p, hp, tfind_eq_none hpk⟩
  unfold construireGraphe
  rw [hA]
  show (match phaseB (t.length + 2) t m1 with
    | Except.error e => Except.error e
    | Except.ok m2 =>
      Except.ok (Graph.mk (t.length + 2) (phaseC (t.length + 2) (t.length + 1) t m2))) =
    Except.error BuildErr.malformedInput
  rw [hB]

/-- C4 witness: the malformed scenario — task 1 lists the undefined
predecessor 9 — indeed fails with the dangling-predecessor error. -/
theorem c4_dangling_predecessor_fails_witness :
    construireGraphe badTasks = .error .malformedInput :=
  c4_dangling_predecessor_fails badTasks (by decide) (by decide)

end Claims

/-! ## Walks, cycles, acyclicity -/

namespace Ordo

/-- The edge relation of the matrix. -/
def edgeP (G : Graph) (u v : Nat) : Prop := isEdge G u v = true

instance (G : Graph) (u v : Nat) : Decidable (edgeP G u v) :=
  inferInstanceAs (Decidable (isEdge G u v = true))

/-- Edges stay inside the vertex range `0..size-1`.  Every matrix produced by
`construire_graphe` satisfies this (`built_edge_lt` below). -/
def EdgesBounded (G : Graph) : Prop :=
  ∀ u v, edgeP G u v → u < G.size ∧ v < G.size

/-- A walk along `r` from `a` to `b`, recorded as its full vertex list. -/
def WalkFrom (r : Nat → Nat → Prop) (a b : Nat) (l : List Nat) : Prop :=
  l.head? = some a ∧ l.getLast? = some b ∧ l.Chain' r

/-- A circuit: a walk of at least one arc that ends where it began. -/
def HasCycle (r : Nat → Nat → Prop) : Prop :=
  ∃ v l, WalkFrom r v v l ∧ 2 ≤ l.length

/-- The graph has no circuit. -/
def AcyclicG (G : Graph) : Prop := ¬ HasCycle (edgeP G)

/-- Reachability along `r`. -/
def Reach (r : Nat → Nat → Prop) (a b : Nat) : Prop := ∃ l, WalkFrom r a b l

/-- Total weight of a walk (sum of the traversed matrix entries). -/
def walkW (G : Graph) : List Nat → Int
  | [] => 0
  | [_] => 0
  | u :: v :: l => wval G u v + walkW G (v :: l)

theorem walkFrom_singleton {r : Nat → Nat → Prop} (a : Nat) :
    WalkFrom r a a [a] := ⟨rfl, rfl, List.chain'_singleton a⟩

theorem walkFrom_pair {r : Nat → Nat → Prop} {a b : Nat} (h : r a b) :
    WalkFrom r a b [a, b] := ⟨rfl, rfl, List.chain'_pair.mpr h⟩

theorem WalkFrom.ne_nil {r : Nat → Nat → Prop} {a b : Nat} {l : List Nat}
    (h : WalkFrom r a b l) : l ≠ [] := by
  intro hl; rw [hl] at h; exact Option.noConfusion h.1

theorem walkFrom_cons {r : Nat → Nat → Prop} {a b c : Nat} {l : List Nat}
    (hab : r a b) (h : WalkFrom r b c l) : WalkFrom r a c (a :: l) := by
  obtain ⟨h1, h2, h3⟩ := h
  match l, h1 with
  | x :: l', h1 =>
    have hx : x = b := by simpa using h1
    subst hx
    exact ⟨rfl, by rw [List.getLast?_cons_cons]; exact h2,
      List.chain'_cons.mpr ⟨hab, h3⟩⟩

theorem walkFrom_snoc {r : Nat → Nat → Prop} {a b c : Nat} {l : List Nat}
    (h : WalkFrom r a b l) (hbc : r b c) : WalkFrom r a c (l ++ [c]) := by
  obtain ⟨h1, h2, h3⟩ := h
  have hnil : l ≠ [] := by
    intro hl; rw [hl] at h1; exact Option.noConfusion h1
  refine ⟨?_, ?_, ?_⟩
  · rw [List.head?_append_of_ne_nil _ hnil]; exact h1
  · rw [List.getLast?_append_cons]; rfl
  · refine (List.chain'_append).mpr ⟨h3, List.chain'_singleton c, ?_⟩
    intro x hx y hy
    have hxb : x = b := by rw [h2] at hx; simpa using hx.symm
    have hyc : y = c := by simpa using hy.symm
    subst hxb; subst hyc
    exact hbc

theorem walkFrom_first_edge {r : Nat → Nat → Prop} {a b : Nat} {l : List Nat}
    (h : WalkFrom r a b l) (hne : a ≠ b) : ∃ c, r a c := by
  obtain ⟨h1, h2, h3⟩ := h
  match l with
  | [] => exact Option.noConfusion h1
  | [x] =>
    cases h1; cases h2
    exact absurd rfl hne
  | x :: y :: l =>
    cases h1
    exact ⟨y, (List.chain'_cons.mp h3).1⟩

/-- A chained list with a duplicated vertex yields a circuit. -/
theorem cycle_of_chain_dup {r : Nat → Nat → Prop} :
    ∀ l : List Nat, l.Chain' r → ¬ l.Nodup → HasCycle r
  | [], _, hnd => absurd List.nodup_nil hnd
  | a :: l, hc, hnd => by
    by_cases ha : a ∈ l
    · obtain ⟨s, t, rfl⟩ := List.append_of_mem ha
      refine ⟨a, a :: s ++ [a], ⟨rfl, ?_, ?_⟩, by simp⟩
      · show ((a :: s) ++ [a]).getLast? = some a
        rw [List.getLast?_append_cons]; rfl
      · refine hc.prefix ⟨t, ?_⟩
        simp
    · refine cycle_of_chain_dup l hc.tail (fun hl => hnd (List.nodup_cons.mpr ⟨ha, hl⟩))

/-- In a chained list whose final vertex is below `size`, every vertex is
below `size` (all the others carry an out-arc). -/
theorem chain_mem_lt {G : Graph} (hG : EdgesBounded G) :
    ∀ l : List Nat, l.Chain' (edgeP G) →
      (∀ x ∈ l.getLast?, x < G.size) → ∀ x ∈ l, x < G.size
  | [], _, _, x, hx => absurd hx (List.not_mem_nil x)
  | [a], _, hlast, x, hx => by
    rcases List.mem_singleton.mp hx with rfl
    exact hlast _ rfl
  | a :: b :: l, hc, hlast, x, hx => by
    rcases List.mem_cons.mp hx with rfl | hx'
    · exact (hG x b (List.chain'_cons.mp hc).1).1
    · exact chain_mem_lt hG (b :: l) (List.chain'_cons.mp hc).2
        (by simpa using hlast) x hx'

/-- In a bounded acyclic graph, a walk ending below `size` has at most
`size` vertices. -/
theorem walk_len_le_size {G : Graph} (hG : EdgesBounded G) (hac : AcyclicG G)
    {a b : Nat} {l : List Nat} (hb : b < G.size) (hw : WalkFrom (edgeP G) a b l) :
    l.length ≤ G.size := by
  have hmem : ∀ x ∈ l, x < G.size := by
    refine chain_mem_lt hG l hw.2.2 ?_
    intro x hx
    rw [hw.2.1] at hx; cases hx; exact hb
  have hnd : l.Nodup := by
    by_contra hnd
    exact hac (cycle_of_chain_dup l hw.2.2 hnd)
  calc l.length = l.toFinset.card := (List.toFinset_card_of_nodup hnd).symm
    _ ≤ (Finset.range G.size).card := Finset.card_le_card (fun x hx =>
        Finset.mem_range.mpr (hmem x (List.mem_toFinset.mp hx)))
    _ = G.size := Finset.card_range G.size

theorem edgeP_rev {G : Graph} {u v : Nat} : edgeP (rev G) u v ↔ edgeP G v u :=
  Iff.rfl

/-- The reversal of a circuit is a circuit of the reversed graph. -/
theorem acyclic_rev {G : Graph} (h : AcyclicG G) : AcyclicG (rev G) := by
  rintro ⟨v, l, ⟨h1, h2, h3⟩, hlen⟩
  refine h ⟨v, l.reverse, ⟨?_, ?_, ?_⟩, by simpa using hlen⟩
  · rw [List.head?_reverse]; exact h2
  · rw [List.getLast?_reverse]; exact h1
  · rw [List.chain'_reverse]
    exact h3.imp (fun a b hab => hab)

end Ordo

/-! ## Structural invariants of the in-degree elimination loop -/

namespace Ordo

section KahnStruct

variable {β : Type} {G : Graph} {relax : (Nat → β) → Nat → Nat → Nat → β}

theorem edgeLoop_order (u : Nat) :
    ∀ (L : List Nat) (s : KSt β), (L.foldl (edgeStep relax u) s).order = s.order
  | [], _ => rfl
  | v :: L, s => by
    rw [List.foldl_cons, edgeLoop_order u L]
    rfl

theorem edgeLoop_val (u : Nat) :
    ∀ (L : List Nat) (s : KSt β),
      (L.foldl (edgeStep relax u) s).val = L.foldl (fun val v => relax val u v) s.val
  | [], _ => rfl
  | v :: L, s => by
    rw [List.foldl_cons, edgeLoop_val u L, List.foldl_cons]
    rfl

theorem edgeStep_deg (u v x : Nat) (s : KSt β) :
    (edgeStep relax u s v).deg x = if x = v then s.deg v - 1 else s.deg x := by
  simp [edgeStep, updF]

theorem edgeLoop_deg (u : Nat) :
    ∀ (L : List Nat) (s : KSt β), L.Nodup → ∀ x,
      (L.foldl (edgeStep relax u) s).deg x =
        if x ∈ L then s.deg x - 1 else s.deg x
  | [], s, _, x => by simp
  | v :: L, s, hnd, x => by
    obtain ⟨hv, hndL⟩ := List.nodup_cons.mp hnd
    rw [List.foldl_cons, edgeLoop_deg u L _ hndL x]
    by_cases hxv : x = v
    · subst hxv
      rw [if_neg hv, edgeStep_deg, if_pos rfl, if_pos (List.mem_cons_self x L)]
    · simp only [edgeStep_deg, if_neg hxv]
      by_cases hxL : x ∈ L
      · rw [if_pos hxL, if_pos (List.mem_cons_of_mem v hxL)]
      · rw [if_neg hxL, if_neg (by simp [List.mem_cons, hxv, hxL])]

theorem edgeLoop_queue (u : Nat) :
    ∀ (L : List Nat) (s : KSt β), L.Nodup →
      (L.foldl (edgeStep relax u) s).queue =
        s.queue ++ L.filter (fun v => decide (s.deg v = 1))
  | [], s, _ => by simp
  | v :: L, s, hnd => by
    obtain ⟨hv, hndL⟩ := List.nodup_cons.mp hnd
    rw [List.foldl_cons, edgeLoop_queue u L _ hndL]
    have hdeg : ∀ x ∈ L, (edgeStep relax u s v).deg x = s.deg x := by
      intro x hx
      have hxv : x ≠ v := fun h => hv (h ▸ hx)
      simp [edgeStep, updF, hxv]
    rw [List.filter_congr (fun x hx => by rw [hdeg x hx])]
    show (if s.deg v - 1 = 0 then s.queue ++ [v] else s.queue) ++ _ = _
    by_cases hv1 : s.deg v = 1
    · rw [if_pos (by rw [hv1]; ring), List.filter_cons_of_pos (by simpa using hv1),
        List.append_assoc]
      rfl
    · rw [if_neg (by omega), List.filter_cons_of_neg (by simpa using hv1)]

theorem popStep_order (s : KSt β) (u : Nat) :
    (popStep G relax s u).order = s.order ++ [u] := by
  rw [popStep, edgeLoop_order]

theorem popStep_val (s : KSt β) (u : Nat) :
    (popStep G relax s u).val = (adjL G u).foldl (fun val v => relax val u v) s.val := by
  rw [popStep, edgeLoop_val]

theorem adjL_nodup (G : Graph) (u : Nat) : (adjL G u).Nodup :=
  (List.nodup_range G.size).filter _

theorem mem_adjL {G : Graph} {u v : Nat} (hG : EdgesBounded G) :
    v ∈ adjL G u ↔ edgeP G u v := by
  constructor
  · intro h
    exact (List.mem_filter.mp h).2
  · intro h
    exact List.mem_filter.mpr ⟨List.mem_range.mpr (hG u v h).2, h⟩

theorem popStep_deg (s : KSt β) (u x : Nat) :
    (popStep G relax s u).deg x =
      if x ∈ adjL G u then s.deg x - 1 else s.deg x := by
  rw [popStep, edgeLoop_deg u _ _ (adjL_nodup G u)]

theorem popStep_queue (s : KSt β) (u : Nat) :
    (popStep G relax s u).queue =
      s.queue ++ (adjL G u).filter (fun v => decide (s.deg v = 1)) := by
  rw [popStep, edgeLoop_queue u _ _ (adjL_nodup G u)]

/-- Number of already-removed in-neighbours of `v`. -/
def processedIn (G : Graph) (ord : List Nat) (v : Nat) : Int :=
  ((ord.filter (fun u => isEdge G u v)).length : Int)

/-- The structural invariant of the elimination loop. -/
structure KInv (G : Graph) {β : Type} (s : KSt β) : Prop where
  nodup : (s.order ++ s.queue).Nodup
  bounded : ∀ v ∈ s.order ++ s.queue, v < G.size
  degEq : ∀ v, s.deg v = inDegI G v - processedIn G s.order v
  zeroIff : ∀ v < G.size, (s.deg v = 0 ↔ v ∈ s.order ++ s.queue)
  closed : ∀ (i : Nat) (h : i < s.order.length), ∀ u,
    edgeP G u (s.order.get ⟨i, h⟩) → u ∈ s.order.take i

theorem processedIn_le {G : Graph} {ord : List Nat} (hnd : ord.Nodup)
    (hb : ∀ u ∈ ord, u < G.size) (v : Nat) :
    processedIn G ord v ≤ inDegI G v := by
  unfold processedIn inDegI
  have hsub : List.Subperm (ord.filter (fun u => isEdge G u v))
      ((List.range G.size).filter (fun u => isEdge G u v)) := by
    refine List.subperm_of_subset (hnd.filter _) ?_
    intro x hx
    obtain ⟨hx1, hx2⟩ := List.mem_filter.mp hx
    exact List.mem_filter.mpr ⟨List.mem_range.mpr (hb x hx1), hx2⟩
  exact_mod_cast hsub.length_le

theorem KInv.deg_nonneg {s : KSt β} (h : KInv G s) (v : Nat) : 0 ≤ s.deg v := by
  rw [h.degEq]
  have := processedIn_le ((List.nodup_append.mp h.nodup).1)
    (fun u hu => h.bounded u (List.mem_append_left _ hu)) (G := G) v
  omega

theorem KInv.preds_in_order {s : KSt β} (hG : EdgesBounded G) (h : KInv G s)
    {v : Nat} (hv : s.deg v = 0) : ∀ x, edgeP G x v → x ∈ s.order := by
  intro x hx
  have hord : s.order.Nodup := (List.nodup_append.mp h.nodup).1
  have hb : ∀ u ∈ s.order, u < G.size :=
    fun u hu => h.bounded u (List.mem_append_left _ hu)
  have heq : processedIn G s.order v = inDegI G v := by
    have := h.degEq v; omega
  -- equal counts force the removed in-neighbours to be all in-neighbours
  have hfin : ((List.range G.size).filter (fun u => isEdge G u v)).toFinset =
      (s.order.filter (fun u => isEdge G u v)).toFinset := by
    refine (Finset.eq_of_subset_of_card_le ?_ ?_).symm
    · intro y hy
      obtain ⟨hy1, hy2⟩ := List.mem_filter.mp (List.mem_toFinset.mp hy)
      exact List.mem_toFinset.mpr
        (List.mem_filter.mpr ⟨List.mem_range.mpr (hb y hy1), hy2⟩)
    · rw [List.toFinset_card_of_nodup ((List.nodup_range G.size).filter _),
        List.toFinset_card_of_nodup (hord.filter _)]
      unfold processedIn inDegI at heq
      exact_mod_cast heq.ge
  have hxr : x ∈ (List.range G.size).filter (fun u => isEdge G u v) :=
    List.mem_filter.mpr ⟨List.mem_range.mpr (hG x v hx).1, hx⟩
  have := List.mem_toFinset.mp (hfin ▸ List.mem_toFinset.mpr hxr)
  exact (List.mem_filter.mp this).1

end KahnStruct

end Ordo

namespace Ordo

section KahnRun

variable {β : Type} {G : Graph} {relax : (Nat → β) → Nat → Nat → Nat → β}

/-- Appending a vertex whose in-neighbours are already recorded preserves the
prefix-closure of the removal order. -/
theorem closed_append {ord : List Nat} {u : Nat} (P : Nat → Nat → Prop)
    (hclosed : ∀ i (h : i < ord.length), ∀ x, P x (ord.get ⟨i, h⟩) → x ∈ ord.take i)
    (hu : ∀ x, P x u → x ∈ ord) :
    ∀ i (h : i < (ord ++ [u]).length), ∀ x, P x ((ord ++ [u]).get ⟨i, h⟩) →
      x ∈ (ord ++ [u]).take i := by
  intro i h x hx
  by_cases hilt : i < ord.length
  · have hget : (ord ++ [u]).get ⟨i, h⟩ = ord.get ⟨i, hilt⟩ := List.get_append i hilt
    rw [hget] at hx
    rw [List.take_append_of_le_length (le_of_lt hilt)]
    exact hclosed i hilt x hx
  · have hlen : (ord ++ [u]).length = ord.length + 1 := by simp
    have hieq : i = ord.length := by omega
    subst hieq
    have hget : (ord ++ [u]).get ⟨ord.length, h⟩ = u := by
      simp [List.get_eq_getElem]
    rw [hget] at hx
    rw [List.take_left]
    exact hu x hx

/-- Preservation of the structural invariant by one loop iteration. -/
theorem stepInv (hG : EdgesBounded G) {s : KSt β} (hinv : KInv G s) {u : Nat}
    {q : List Nat} (hq : s.queue = u :: q) :
    KInv G (popStep G relax { s with queue := q } u) := by
  have hndall : (s.order ++ u :: q).Nodup := by rw [← hq]; exact hinv.nodup
  have hnord : s.order.Nodup := (List.nodup_append.mp hndall).1
  have huo : u ∉ s.order := fun h =>
    (List.disjoint_right.mp (List.nodup_append.mp hndall).2.2 (List.mem_cons_self u q)) h
  have huq : u ∉ q := by
    have := (List.nodup_append.mp hndall).2.1
    exact (List.nodup_cons.mp this).1
  have humem : u ∈ s.order ++ s.queue := by
    rw [hq]; exact List.mem_append_right _ (List.mem_cons_self u q)
  have husz : u < G.size := hinv.bounded u humem
  have hdegu : s.deg u = 0 := (hinv.zeroIff u husz).mpr humem
  have hpredu : ∀ x, edgeP G x u → x ∈ s.order := hinv.preds_in_order hG hdegu
  have hself : ¬ edgeP G u u := fun h => huo (hpredu u h)
  have htarg_ord : ∀ v ∈ adjL G u, v ∉ s.order := by
    intro v hv hvord
    obtain ⟨i, hget⟩ := List.mem_iff_get.mp hvord
    have := hinv.closed i.1 i.2 u (by rw [Fin.eta, hget]; exact (mem_adjL hG).mp hv)
    exact huo (List.take_subset _ _ this)
  have htarg_ne : ∀ v ∈ adjL G u, v ≠ u := by
    intro v hv hvu
    subst hvu
    exact hself ((mem_adjL hG).mp hv)
  have htarg_deg : ∀ v ∈ adjL G u, 1 ≤ s.deg v := by
    intro v hv
    have h0 := hinv.deg_nonneg v
    rcases eq_or_lt_of_le h0 with h0' | h0'
    · exfalso
      exact huo (hinv.preds_in_order hG h0'.symm u ((mem_adjL hG).mp hv))
    · omega
  have hqnot : ∀ v ∈ q, v ∉ adjL G u := by
    intro v hvq hva
    have hvm : v ∈ s.order ++ s.queue := by
      rw [hq]; exact List.mem_append_right _ (List.mem_cons_of_mem _ hvq)
    have hdv : s.deg v = 0 :=
      (hinv.zeroIff v (hinv.bounded v hvm)).mpr hvm
    exact huo (hinv.preds_in_order hG hdv u ((mem_adjL hG).mp hva))
  set newly := (adjL G u).filter (fun v => decide (s.deg v = 1)) with hnewly
  have hnew_sub : ∀ v ∈ newly, v ∈ adjL G u := fun v hv => (List.mem_filter.mp hv).1
  have hnew_deg : ∀ v ∈ newly, s.deg v = 1 := fun v hv => by
    have := (List.mem_filter.mp hv).2; simpa using this
  have hnew_nd : newly.Nodup := (adjL_nodup G u).filter _
  have hnew_fresh : ∀ v ∈ newly, v ∉ s.order ++ u :: q := by
    intro v hv hmem
    have hv1 := hnew_deg v hv
    have hvsz : v < G.size := by
      have := List.mem_range.mp (List.mem_filter.mp (hnew_sub v hv)).1
      exact this
    rcases List.mem_append.mp hmem with h | h
    · exact htarg_ord v (hnew_sub v hv) h
    · rcases List.mem_cons.mp h with rfl | h
      · exact htarg_ne v (hnew_sub v hv) rfl
      · have hvm : v ∈ s.order ++ s.queue := by
          rw [hq]; exact List.mem_append_right _ (List.mem_cons_of_mem _ h)
        have : s.deg v = 0 := (hinv.zeroIff v (hinv.bounded v hvm)).mpr hvm
        omega
  have hqueue : (popStep G relax { s with queue := q } u).queue = q ++ newly :=
    popStep_queue _ u
  have horder : (popStep G relax { s with queue := q } u).order = s.order ++ [u] :=
    popStep_order _ u
  have hdeg : ∀ x, (popStep G relax { s with queue := q } u).deg x =
      if x ∈ adjL G u then s.deg x - 1 else s.deg x :=
    fun x => popStep_deg _ u x
  constructor
  · -- nodup
    rw [horder, hqueue]
    have h1 : ((s.order ++ [u]) ++ q) = s.order ++ u :: q := by simp
    have h2 : ((s.order ++ [u]) ++ (q ++ newly)) = (s.order ++ u :: q) ++ newly := by
      simp
    rw [h2]
    refine List.Nodup.append hndall hnew_nd ?_
    intro x hx1 hx2
    exact hnew_fresh x hx2 hx1
  · -- bounded
    intro v hv
    rw [horder, hqueue] at hv
    rcases List.mem_append.mp hv with h | h
    · rcases List.mem_append.mp h with h | h
      · exact hinv.bounded v (List.mem_append_left _ h)
      · rcases List.mem_singleton.mp h with rfl
        exact husz
    · rcases List.mem_append.mp h with h | h
      · exact hinv.bounded v (by rw [hq]; exact List.mem_append_right _ (List.mem_cons_of_mem _ h))
      · exact List.mem_range.mp (List.mem_filter.mp (hnew_sub v h)).1
  · -- degEq
    intro v
    rw [hdeg, horder]
    have hsplit : processedIn G (s.order ++ [u]) v =
        processedIn G s.order v + (if edgeP G u v then 1 else 0) := by
      unfold processedIn
      rw [List.filter_append]
      simp only [List.length_append]
      push_cast
      congr 1
      by_cases he : edgeP G u v
      · have he' : isEdge G u v = true := he
        simp [he', if_pos he]
      · have he' : isEdge G u v = false := by
          simpa [edgeP] using he
        simp [he', if_neg he]
    rw [hsplit]
    by_cases hv : v ∈ adjL G u
    · rw [if_pos hv, hinv.degEq v, if_pos ((mem_adjL hG).mp hv)]
      ring
    · rw [if_neg hv, hinv.degEq v]
      by_cases he : edgeP G u v
      · exact absurd ((mem_adjL hG).mpr he) hv
      · rw [if_neg he]
        ring
  · -- zeroIff
    intro v hvsz
    rw [hdeg, horder, hqueue]
    by_cases hv : v ∈ adjL G u
    · rw [if_pos hv]
      constructor
      · intro h0
        have : s.deg v = 1 := by omega
        refine List.mem_append_right _ (List.mem_append_right _ ?_)
        exact List.mem_filter.mpr ⟨hv, by simpa using this⟩
      · intro hmem
        rcases List.mem_append.mp hmem with h | h
        · rcases List.mem_append.mp h with h | h
          · exact absurd h (htarg_ord v hv)
          · rcases List.mem_singleton.mp h with rfl
            exact absurd rfl (htarg_ne v hv)
        · rcases List.mem_append.mp h with h | h
          · exact absurd hv (hqnot v h)
          · have := hnew_deg v h
            omega
    · rw [if_neg hv]
      constructor
      · intro h0
        have hvm := (hinv.zeroIff v hvsz).mp h0
        rw [hq] at hvm
        rcases List.mem_append.mp hvm with h | h
        · exact List.mem_append_left _ (List.mem_append_left _ h)
        · rcases List.mem_cons.mp h with rfl | h
          · exact List.mem_append_left _ (List.mem_append_right _ (List.mem_singleton.mpr rfl))
          · exact List.mem_append_right _ (List.mem_append_left _ h)
      · intro hmem
        refine (hinv.zeroIff v hvsz).mpr ?_
        rw [hq]
        rcases List.mem_append.mp hmem with h | h
        · rcases List.mem_append.mp h with h | h
          · exact List.mem_append_left _ h
          · rcases List.mem_singleton.mp h with rfl
            exact List.mem_append_right _ (List.mem_cons_self v q)
        · rcases List.mem_append.mp h with h | h
          · exact List.mem_append_right _ (List.mem_cons_of_mem _ h)
          · exact absurd (hnew_sub v h) hv
  · -- closed
    rw [horder]
    exact closed_append (edgeP G) hinv.closed hpredu

end KahnRun

end Ordo

namespace Ordo

section KahnFinal

variable {β : Type} {G : Graph} {relax : (Nat → β) → Nat → Nat → Nat → β}

theorem loopStep_inv (hG : EdgesBounded G) {s : KSt β} (hinv : KInv G s) :
    KInv G (loopStep G relax s) := by
  unfold loopStep
  cases hq : s.queue with
  | nil => exact hinv
  | cons u q => exact stepInv hG hinv hq

theorem runK_inv (hG : EdgesBounded G) :
    ∀ (fuel : Nat) (s : KSt β), KInv G s → KInv G (runK G relax fuel s)
  | 0, _, h => h
  | fuel + 1, s, h => runK_inv hG fuel _ (loopStep_inv hG h)

theorem runK_of_empty : ∀ (fuel : Nat) (s : KSt β), s.queue = [] →
    runK G relax fuel s = s
  | 0, _, _ => rfl
  | fuel + 1, s, h => by
    rw [runK]
    have : loopStep G relax s = s := by
      unfold loopStep
      rw [h]
    rw [this]
    exact runK_of_empty fuel s h

/-- The loop measure: queue length plus number of vertices that can still be
enqueued. -/
def measureK (G : Graph) (s : KSt β) : Nat :=
  s.queue.length + ((List.range G.size).filter (fun v => !decide (s.deg v = 0))).length

theorem step_measure_lt (hG : EdgesBounded G) {s : KSt β} (hinv : KInv G s)
    {u : Nat} {q : List Nat} (hq : s.queue = u :: q) :
    measureK G (popStep G relax { s with queue := q } u) < measureK G s := by
  -- facts reused from the invariant
  have hndall : (s.order ++ u :: q).Nodup := by rw [← hq]; exact hinv.nodup
  have huo : u ∉ s.order := fun h =>
    (List.disjoint_right.mp (List.nodup_append.mp hndall).2.2 (List.mem_cons_self u q)) h
  set newly := (adjL G u).filter (fun v => decide (s.deg v = 1)) with hnewly
  have hnew_deg : ∀ v ∈ newly, s.deg v = 1 := fun v hv => by
    have := (List.mem_filter.mp hv).2; simpa using this
  have hnew_nd : newly.Nodup := (adjL_nodup G u).filter _
  have htarg_deg : ∀ v ∈ adjL G u, 1 ≤ s.deg v := by
    intro v hv
    have h0 := hinv.deg_nonneg v
    rcases eq_or_lt_of_le h0 with h0' | h0'
    · exfalso
      exact huo (hinv.preds_in_order hG h0'.symm u ((mem_adjL hG).mp hv))
    · omega
  have hqueue : (popStep G relax { s with queue := q } u).queue = q ++ newly :=
    popStep_queue _ u
  have hdeg : ∀ x, (popStep G relax { s with queue := q } u).deg x =
      if x ∈ adjL G u then s.deg x - 1 else s.deg x :=
    fun x => popStep_deg _ u x
  -- pending vertices afterwards, plus the newly enqueued ones, inject into
  -- the pending vertices before
  have hsub : List.Subperm
      (((List.range G.size).filter
          (fun v => !decide ((popStep G relax { s with queue := q } u).deg v = 0))) ++ newly)
      ((List.range G.size).filter (fun v => !decide (s.deg v = 0))) := by
    refine List.subperm_of_subset ?_ ?_
    · refine List.Nodup.append ((List.nodup_range G.size).filter _) hnew_nd ?_
      intro x hx1 hx2
      have h1 := (List.mem_filter.mp hx1).2
      have hd := hdeg x
      rw [if_pos ((List.mem_filter.mp hx2).1)] at hd
      have := hnew_deg x hx2
      rw [hd, this] at h1
      simp at h1
    · intro x hx
      rcases List.mem_append.mp hx with h | h
      · have h1 := (List.mem_filter.mp h).1
        have h2 := (List.mem_filter.mp h).2
        refine List.mem_filter.mpr ⟨h1, ?_⟩
        have hd := hdeg x
        by_cases hxa : x ∈ adjL G u
        · rw [if_pos hxa] at hd
          have := htarg_deg x hxa
          simp only [Bool.not_eq_true', decide_eq_false_iff_not] at h2 ⊢
          omega
        · rw [if_neg hxa] at hd
          rw [← hd]
          exact h2
      · have hxa := (List.mem_filter.mp h).1
        refine List.mem_filter.mpr ⟨(List.mem_filter.mp hxa).1, ?_⟩
        have := hnew_deg x h
        simp [this]
  have hlen := hsub.length_le
  rw [List.length_append] at hlen
  unfold measureK
  rw [hqueue, List.length_append]
  have hqlen : s.queue.length = q.length + 1 := by rw [hq]; rfl
  omega

theorem measureK_le_size {s : KSt β} (hinv : KInv G s) : measureK G s ≤ G.size := by
  unfold measureK
  -- queue members all have degree 0, are below size, and are distinct;
  -- they inject into the complement of the pending set
  have hq : List.Subperm (s.queue ++
      ((List.range G.size).filter (fun v => !decide (s.deg v = 0)))) (List.range G.size) := by
    refine List.subperm_of_subset ?_ ?_
    · refine List.Nodup.append ((List.nodup_append.mp hinv.nodup).2.1)
        ((List.nodup_range G.size).filter _) ?_
      intro x hx1 hx2
      have h2 := (List.mem_filter.mp hx2).2
      have h0 : s.deg x = 0 :=
        (hinv.zeroIff x (hinv.bounded x (List.mem_append_right _ hx1))).mpr
          (List.mem_append_right _ hx1)
      simp [h0] at h2
    · intro x hx
      rcases List.mem_append.mp hx with h | h
      · exact List.mem_range.mpr (hinv.bounded x (List.mem_append_right _ h))
      · exact (List.mem_filter.mp h).1
  have := hq.length_le
  rw [List.length_append, List.length_range] at this
  omega

theorem runK_queue_empty (hG : EdgesBounded G) :
    ∀ (fuel : Nat) (s : KSt β), KInv G s → measureK G s ≤ fuel →
      (runK G relax fuel s).queue = []
  | 0, s, _, hm => by
    have : s.queue.length = 0 := by
      unfold measureK at hm
      omega
    exact List.length_eq_zero.mp this
  | fuel + 1, s, hinv, hm => by
    cases hq : s.queue with
    | nil => rw [runK_of_empty _ s hq]; exact hq
    | cons u q =>
      rw [runK]
      have hstep : loopStep G relax s = popStep G relax { s with queue := q } u := by
        unfold loopStep
        rw [hq]
      rw [hstep]
      refine runK_queue_empty hG fuel _ (stepInv hG hinv hq) ?_
      have := @step_measure_lt β G relax hG s hinv u q hq
      omega

/-- The initial state satisfies the invariant. -/
theorem initSt_inv (v0 : Nat → β) : KInv G (initSt G v0) := by
  constructor
  · exact ((List.nodup_range G.size).filter _)
  · intro v hv
    rcases List.mem_append.mp hv with h | h
    · exact absurd h (List.not_mem_nil v)
    · exact List.mem_range.mp (List.mem_filter.mp h).1
  · intro v
    show inDegI G v = inDegI G v - processedIn G [] v
    unfold processedIn
    simp
  · intro v hv
    show inDegI G v = 0 ↔ _
    constructor
    · intro h0
      exact List.mem_append_right _
        (List.mem_filter.mpr ⟨List.mem_range.mpr hv, by simpa using h0⟩)
    · intro hmem
      rcases List.mem_append.mp hmem with h | h
      · exact absurd h (List.not_mem_nil v)
      · have := (List.mem_filter.mp h).2
        simpa using this
  · intro i hi
    exact absurd hi (by simp [initSt])

/-- The final state of the full elimination run. -/
theorem kahn_inv (hG : EdgesBounded G) (v0 : Nat → β) :
    KInv G (kahn G relax v0) :=
  runK_inv hG G.size _ (initSt_inv v0)

theorem kahn_queue_empty (hG : EdgesBounded G) (v0 : Nat → β) :
    (kahn G relax v0).queue = [] :=
  runK_queue_empty hG G.size _ (initSt_inv v0) (measureK_le_size (initSt_inv v0))

end KahnFinal

end Ordo

namespace Ordo

section KahnComplete

variable {β : Type} {G : Graph} {relax : (Nat → β) → Nat → Nat → Nat → β}

theorem exists_get_of_mem_take {l : List Nat} {i : Nat} {x : Nat}
    (h : x ∈ l.take i) :
    ∃ j, ∃ (hj : j < l.length), j < i ∧ l.get ⟨j, hj⟩ = x := by
  obtain ⟨⟨j, hj⟩, hget⟩ := List.mem_iff_get.mp h
  rw [List.length_take] at hj
  refine ⟨j, lt_of_lt_of_le hj (min_le_right _ _), lt_of_lt_of_le hj (min_le_left _ _), ?_⟩
  rw [← hget, List.get_eq_getElem, List.get_eq_getElem, List.getElem_take]

theorem mem_of_getLast? : ∀ {l : List Nat} {b : Nat}, l.getLast? = some b → b ∈ l := by
  intro l b h
  obtain ⟨hne, rfl⟩ := List.mem_getLast?_eq_getLast h
  exact List.getLast_mem hne

/-- In a circuit every vertex has a predecessor on the circuit. -/
theorem cycle_pred {r : Nat → Nat → Prop} {v : Nat} {l : List Nat}
    (hw : WalkFrom r v v l) (hlen : 2 ≤ l.length) :
    ∀ y ∈ l, ∃ x ∈ l, r x y := by
  have htail : ∀ (l' : List Nat), l'.Chain' r → ∀ y ∈ l'.tail, ∃ x ∈ l', r x y := by
    intro l'
    induction l' with
    | nil => intro _ y hy; exact absurd hy (List.not_mem_nil y)
    | cons a t ih =>
      intro hc y hy
      match t, hy with
      | b :: t', hy =>
        rcases List.mem_cons.mp hy with rfl | hy'
        · exact ⟨a, List.mem_cons_self a _, (List.chain'_cons.mp hc).1⟩
        · obtain ⟨x, hx, hxy⟩ := ih (List.chain'_cons.mp hc).2 y hy'
          exact ⟨x, List.mem_cons_of_mem a hx, hxy⟩
  intro y hy
  match l, hw.1, hy with
  | a :: t, h1, hy =>
    have hav : a = v := by simpa using h1
    subst hav
    rcases List.mem_cons.mp hy with rfl | hy'
    · -- the head equals the last vertex, which lies in the tail
      have hvl : y ∈ (y :: t).tail := by
        show y ∈ t
        have h2 := hw.2.1
        match t, hlen, h2 with
        | b :: t', _, h2 =>
          have : (b :: t').getLast? = some y := by
            rw [← h2, List.getLast?_cons_cons]
          exact mem_of_getLast? this
      exact htail _ hw.2.2 y hvl
    · exact htail _ hw.2.2 y (by simpa using hy')

/-- The head of a circuit carries an out-arc, hence lies below `size`. -/
theorem cycle_head_lt {G : Graph} (hG : EdgesBounded G) {v : Nat} {l : List Nat}
    (hw : WalkFrom (edgeP G) v v l) (hlen : 2 ≤ l.length) : v < G.size := by
  match l, hw.1, hlen with
  | a :: b :: t, h1, _ =>
    have hav : a = v := by simpa using h1
    subst hav
    exact (hG a b (List.chain'_cons.mp hw.2.2).1).1

/-- When the queue has drained, a vertex never removed has an unremoved
in-neighbour. -/
theorem final_escape (hG : EdgesBounded G) {s : KSt β} (hinv : KInv G s)
    (hqe : s.queue = []) {v : Nat} (hv : v < G.size) (hvo : v ∉ s.order) :
    ∃ x, edgeP G x v ∧ x ∉ s.order ∧ x < G.size := by
  have hdv : s.deg v ≠ 0 := by
    intro h0
    have hm := (hinv.zeroIff v hv).mp h0
    rw [hqe, List.append_nil] at hm
    exact hvo hm
  have hgt : processedIn G s.order v < inDegI G v := by
    have h1 := hinv.degEq v
    have h2 := hinv.deg_nonneg v
    have h3 := processedIn_le ((List.nodup_append.mp hinv.nodup).1)
      (fun u hu => hinv.bounded u (List.mem_append_left _ hu)) (G := G) v
    omega
  by_contra hno
  push_neg at hno
  have hsub : List.Subperm ((List.range G.size).filter (fun u => isEdge G u v))
      (s.order.filter (fun u => isEdge G u v)) := by
    refine List.subperm_of_subset ((List.nodup_range _).filter _) ?_
    intro x hx
    obtain ⟨hx1, hx2⟩ := List.mem_filter.mp hx
    have hxo : x ∈ s.order := by
      by_contra hxo
      exact absurd (List.mem_range.mp hx1) (not_lt.mpr (hno x hx2 hxo))
    exact List.mem_filter.mpr ⟨hxo, hx2⟩
  have := hsub.length_le
  unfold processedIn inDegI at hgt
  omega

/-- Kahn completeness: on an acyclic bounded graph the elimination removes
every vertex. -/
theorem final_complete (hG : EdgesBounded G) (hac : AcyclicG G) {s : KSt β}
    (hinv : KInv G s) (hqe : s.queue = []) : ∀ v < G.size, v ∈ s.order := by
  have key : ∀ n (v : Nat), v < G.size →
      (∀ a (l : List Nat), WalkFrom (edgeP G) a v l → l.length ≤ n) →
      v ∈ s.order := by
    intro n
    induction n with
    | zero =>
      intro v hv hb
      by_contra hvo
      have := hb v [v] (walkFrom_singleton v)
      simp at this
    | succ n ih =>
      intro v hv hb
      by_contra hvo
      obtain ⟨x, hxe, hxo, hxs⟩ := final_escape hG hinv hqe hv hvo
      refine hxo (ih x hxs ?_)
      intro a l hw
      have := hb a (l ++ [v]) (walkFrom_snoc hw hxe)
      rw [List.length_append, List.length_singleton] at this
      omega
  intro v hv
  exact key G.size v hv (fun a l hw => walk_len_le_size hG hac hv hw)

/-- Converse: if the removal order is prefix-closed and covers every vertex,
the graph is acyclic. -/
theorem acyclic_of_all_removed (hG : EdgesBounded G) {s : KSt β}
    (hinv : KInv G s) (hall : ∀ v < G.size, v ∈ s.order) : AcyclicG G := by
  rintro ⟨v, l, hw, hlen⟩
  have hvsz : v < G.size := cycle_head_lt hG hw hlen
  have hmem : ∀ y ∈ l, y < G.size := by
    refine chain_mem_lt hG l hw.2.2 ?_
    intro x hx
    rw [hw.2.1] at hx
    cases hx
    exact hvsz
  have hpred := cycle_pred hw hlen
  have hmain : ∀ i, ∀ (h : i < s.order.length), s.order.get ⟨i, h⟩ ∉ l := by
    intro i
    induction i using Nat.strong_induction_on with
    | _ i ih =>
      intro h hyl
      obtain ⟨x, hxl, hxe⟩ := hpred _ hyl
      have hxtake := hinv.closed i h x hxe
      obtain ⟨j, hjlen, hji, hjget⟩ := exists_get_of_mem_take hxtake
      exact ih j hji hjlen (hjget ▸ hxl)
  have hvl : v ∈ l := by
    match l, hw.1 with
    | a :: t, h1 =>
      have : a = v := by simpa using h1
      subst this
      exact List.mem_cons_self a t
  obtain ⟨⟨i, hi⟩, hget⟩ := List.mem_iff_get.mp (hall v hvsz)
  exact hmain i hi (hget ▸ hvl)

/-- Acyclicity is equivalent to the removal order having full length. -/
theorem kahn_order_length (hG : EdgesBounded G) (v0 : Nat → β) :
    (kahn G relax v0).order.length = G.size ↔ AcyclicG G := by
  have hinv := @kahn_inv β G relax hG v0
  have hqe := @kahn_queue_empty β G relax hG v0
  have hnd : (kahn G relax v0).order.Nodup := (List.nodup_append.mp hinv.nodup).1
  have hbd : ∀ v ∈ (kahn G relax v0).order, v < G.size :=
    fun v hv => hinv.bounded v (List.mem_append_left _ hv)
  constructor
  · intro hlen
    refine acyclic_of_all_removed hG hinv ?_
    intro v hv
    -- a duplicate-free list of `size` elements inside `range size` is all of it
    have hfin : (kahn G relax v0).order.toFinset = Finset.range G.size := by
      refine Finset.eq_of_subset_of_card_le ?_ ?_
      · intro y hy
        exact Finset.mem_range.mpr (hbd y (List.mem_toFinset.mp hy))
      · rw [List.toFinset_card_of_nodup hnd, hlen]
        exact (Finset.card_range G.size).le
    have : v ∈ (kahn G relax v0).order.toFinset := by
      rw [hfin]
      exact Finset.mem_range.mpr hv
    exact List.mem_toFinset.mp this
  · intro hac
    have hall := final_complete hG hac hinv hqe
    have hfin : (kahn G relax v0).order.toFinset = Finset.range G.size := by
      refine Finset.eq_of_subset_of_card_le ?_ ?_
      · intro y hy
        exact Finset.mem_range.mpr (hbd y (List.mem_toFinset.mp hy))
      · refine Finset.card_le_card ?_
        intro y hy
        exact List.mem_toFinset.mpr (hall y (Finset.mem_range.mp hy))
    have := congrArg Finset.card hfin
    rw [List.toFinset_card_of_nodup hnd, Finset.card_range] at this
    exact this

/-- On an acyclic graph every vertex appears in the final removal order. -/
theorem kahn_complete (hG : EdgesBounded G) (hac : AcyclicG G) (v0 : Nat → β) :
    ∀ v < G.size, v ∈ (kahn G relax v0).order :=
  final_complete hG hac (kahn_inv hG v0) (kahn_queue_empty hG v0)

end KahnComplete

end Ordo

namespace Ordo

section KahnValues

variable {β : Type} {G : Graph} {relax : (Nat → β) → Nat → Nat → Nat → β}

/-- Values off the relaxation target are untouched. -/
def OffTarget (relax : (Nat → β) → Nat → Nat → Nat → β) : Prop :=
  ∀ (val : Nat → β) (u v x : Nat), x ≠ v → relax val u v x = val x

theorem relaxLoop_off (Hoff : OffTarget relax) (u0 : Nat) :
    ∀ (L : List Nat) (val : Nat → β) (x : Nat), x ∉ L →
      (L.foldl (fun val v => relax val u0 v) val) x = val x
  | [], _, _, _ => rfl
  | y :: L, val, x, hx => by
    rw [List.foldl_cons,
      relaxLoop_off Hoff u0 L _ x (fun h => hx (List.mem_cons_of_mem _ h))]
    exact Hoff val u0 y x (fun h => hx (h ▸ List.mem_cons_self y L))

/-- Generic edge post-condition propagation through one adjacency scan: the
already-established pairs `D` survive, and the scanned edges of `u0` are
established. -/
theorem relaxLoop_post (post : (Nat → β) → Nat → Nat → Prop)
    (Hestab : ∀ (val : Nat → β) (u v : Nat), u ≠ v → post (relax val u v) u v)
    (Hstable : ∀ (val : Nat → β) (x y u v : Nat), y ≠ u → post val u v →
      post (relax val x y) u v)
    (u0 : Nat) :
    ∀ (L : List Nat) (val : Nat → β) (D : Nat → Nat → Prop),
      (∀ y ∈ L, ∀ u v, D u v → y ≠ u) →
      (∀ y ∈ L, y ≠ u0) →
      (∀ u v, D u v → post val u v) →
      ∀ u v, (D u v ∨ (u = u0 ∧ v ∈ L)) →
        post (L.foldl (fun val v => relax val u0 v) val) u v
  | [], _, _, _, _, hD, u, v, hcase => by
    rcases hcase with h | ⟨_, h⟩
    · exact hD u v h
    · exact absurd h (List.not_mem_nil v)
  | y :: L, val, D, hsrc, hne0, hD, u, v, hcase => by
    rw [List.foldl_cons]
    have hy0 : y ≠ u0 := hne0 y (List.mem_cons_self y L)
    refine relaxLoop_post post Hestab Hstable u0 L (relax val u0 y)
      (fun u v => D u v ∨ (u = u0 ∧ v = y)) ?_ ?_ ?_ u v ?_
    · intro z hz u v hcase'
      rcases hcase' with h | ⟨rfl, rfl⟩
      · exact hsrc z (List.mem_cons_of_mem _ hz) u v h
      · exact hne0 z (List.mem_cons_of_mem _ hz)
    · intro z hz
      exact hne0 z (List.mem_cons_of_mem _ hz)
    · intro u v hcase'
      rcases hcase' with h | ⟨hu, hv⟩
      · exact Hstable val u0 y u v (hsrc y (List.mem_cons_self y L) u v h) (hD u v h)
      · subst hu
        subst hv
        exact Hestab _ _ _ (fun h => hy0 h.symm)
    · rcases hcase with h | ⟨rfl, hv⟩
      · exact Or.inl (Or.inl h)
      · rcases List.mem_cons.mp hv with rfl | hv'
        · exact Or.inl (Or.inr ⟨rfl, rfl⟩)
        · exact Or.inr ⟨rfl, hv'⟩

/-- Generic justification invariant through one adjacency scan: every value is
either still the initial one or justified by an already-removed in-neighbour. -/
theorem relaxLoop_ach (just : (Nat → β) → Nat → Nat → β)
    (Hoff : OffTarget relax)
    (HachE : ∀ (val : Nat → β) (u v : Nat), u ≠ v →
      (relax val u v) v = val v ∨ (relax val u v) v = just val u v)
    (Hjust : ∀ (val val' : Nat → β) (u v : Nat), val u = val' u →
      just val u v = just val' u v)
    (u0 : Nat) (v0 : Nat → β) (ordP : Nat → Prop) :
    ∀ (L : List Nat) (val : Nat → β),
      (∀ y ∈ L, ¬ ordP y) →
      ordP u0 →
      (∀ y ∈ L, edgeP G u0 y) →
      (∀ v, val v = v0 v ∨ ∃ u, ordP u ∧ edgeP G u v ∧ val v = just val u v) →
      ∀ v, (L.foldl (fun val v => relax val u0 v) val) v = v0 v ∨
        ∃ u, ordP u ∧ edgeP G u v ∧
          (L.foldl (fun val v => relax val u0 v) val) v =
            just (L.foldl (fun val v => relax val u0 v) val) u v
  | [], _, _, _, _, hA, v => hA v
  | y :: L, val, hLord, hord0, hLe, hA, v => by
    rw [List.foldl_cons]
    have hy0 : y ≠ u0 := fun h => hLord y (List.mem_cons_self y L) (h ▸ hord0)
    refine relaxLoop_ach just Hoff HachE Hjust u0 v0 ordP L (relax val u0 y)
      (fun z hz => hLord z (List.mem_cons_of_mem _ hz)) hord0
      (fun z hz => hLe z (List.mem_cons_of_mem _ hz)) ?_ v
    intro x
    by_cases hxy : x = y
    · subst hxy
      rcases HachE val u0 x (fun h => hy0 h.symm) with h | h
      · rw [h]
        rcases hA x with h' | ⟨u, hu1, hu2, hu3⟩
        · exact Or.inl h'
        · refine Or.inr ⟨u, hu1, hu2, ?_⟩
          rw [hu3]
          refine Hjust val _ u x ?_
          exact (Hoff val u0 x u (fun h => hLord x (List.mem_cons_self x L) (h ▸ hu1))).symm
      · refine Or.inr ⟨u0, hord0, hLe x (List.mem_cons_self x L), ?_⟩
        rw [h]
        refine Hjust val _ u0 x ?_
        exact (Hoff val u0 x u0 hy0.symm).symm
    · rw [Hoff val u0 y x hxy]
      rcases hA x with h' | ⟨u, hu1, hu2, hu3⟩
      · exact Or.inl h'
      · refine Or.inr ⟨u, hu1, hu2, ?_⟩
        rw [hu3]
        refine Hjust val _ u x ?_
        exact (Hoff val u0 y u (fun h => hLord y (List.mem_cons_self y L) (h ▸ hu1))).symm

/-- Per-state edge post-condition. -/
def PostAll (post : (Nat → β) → Nat → Nat → Prop) (G : Graph) (s : KSt β) : Prop :=
  ∀ u ∈ s.order, ∀ v, edgeP G u v → post s.val u v

/-- Per-state justification invariant. -/
def AchAll (just : (Nat → β) → Nat → Nat → β) (G : Graph) (v0 : Nat → β)
    (s : KSt β) : Prop :=
  ∀ v, s.val v = v0 v ∨ ∃ u, u ∈ s.order ∧ edgeP G u v ∧ s.val v = just s.val u v

theorem loopStep_values (hG : EdgesBounded G)
    (post : (Nat → β) → Nat → Nat → Prop)
    (just : (Nat → β) → Nat → Nat → β) (v0 : Nat → β)
    (Hoff : OffTarget relax)
    (Hestab : ∀ (val : Nat → β) (u v : Nat), u ≠ v → post (relax val u v) u v)
    (Hstable : ∀ (val : Nat → β) (x y u v : Nat), y ≠ u → post val u v →
      post (relax val x y) u v)
    (HachE : ∀ (val : Nat → β) (u v : Nat), u ≠ v →
      (relax val u v) v = val v ∨ (relax val u v) v = just val u v)
    (Hjust : ∀ (val val' : Nat → β) (u v : Nat), val u = val' u →
      just val u v = just val' u v)
    {s : KSt β} (hinv : KInv G s)
    (hpost : PostAll post G s) (hach : AchAll just G v0 s) :
    PostAll post G (loopStep G relax s) ∧ AchAll just G v0 (loopStep G relax s) := by
  unfold loopStep
  cases hq : s.queue with
  | nil => exact ⟨hpost, hach⟩
  | cons u0 q =>
    -- structural facts about the removed vertex
    have hndall : (s.order ++ u0 :: q).Nodup := by rw [← hq]; exact hinv.nodup
    have huo : u0 ∉ s.order := fun h =>
      (List.disjoint_right.mp (List.nodup_append.mp hndall).2.2
        (List.mem_cons_self u0 q)) h
    have htarg_ord : ∀ v ∈ adjL G u0, v ∉ s.order := by
      intro v hv hvord
      obtain ⟨i, hget⟩ := List.mem_iff_get.mp hvord
      have := hinv.closed i.1 i.2 u0 (by rw [Fin.eta, hget]; exact (mem_adjL hG).mp hv)
      exact huo (List.take_subset _ _ this)
    have humem : u0 ∈ s.order ++ s.queue := by
      rw [hq]; exact List.mem_append_right _ (List.mem_cons_self u0 q)
    have hdegu : s.deg u0 = 0 :=
      (hinv.zeroIff u0 (hinv.bounded u0 humem)).mpr humem
    have hself : ¬ edgeP G u0 u0 :=
      fun h => huo (hinv.preds_in_order hG hdegu u0 h)
    have htarg_ne : ∀ v ∈ adjL G u0, v ≠ u0 := by
      intro v hv hvu
      subst hvu
      exact hself ((mem_adjL hG).mp hv)
    have horder : (popStep G relax { s with queue := q } u0).order = s.order ++ [u0] :=
      popStep_order _ u0
    have hval : (popStep G relax { s with queue := q } u0).val =
        (adjL G u0).foldl (fun val v => relax val u0 v) s.val :=
      popStep_val _ u0
    constructor
    · -- post-condition
      intro u hu v hv
      rw [horder] at hu
      rw [hval]
      refine relaxLoop_post post Hestab Hstable u0 (adjL G u0) s.val
        (fun u v => u ∈ s.order ∧ edgeP G u v) ?_ htarg_ne
        (fun u v h => hpost u h.1 v h.2) u v ?_
      · intro y hy u v hD hyu
        exact htarg_ord y hy (hyu ▸ hD.1)
      · rcases List.mem_append.mp hu with h | h
        · exact Or.inl ⟨h, hv⟩
        · rcases List.mem_singleton.mp h with rfl
          exact Or.inr ⟨rfl, (mem_adjL hG).mpr hv⟩
    · -- justification invariant
      intro v
      rw [hval, horder]
      refine relaxLoop_ach (G := G) just Hoff HachE Hjust u0 v0
        (fun x => x ∈ s.order ++ [u0]) (adjL G u0) s.val ?_ ?_ ?_ ?_ v
      · intro y hy hmem
        rcases List.mem_append.mp hmem with h | h
        · exact htarg_ord y hy h
        · rcases List.mem_singleton.mp h with rfl
          exact htarg_ne y hy rfl
      · exact List.mem_append_right _ (List.mem_singleton.mpr rfl)
      · intro y hy
        exact (mem_adjL hG).mp hy
      · intro x
        rcases hach x with h | ⟨u, hu1, hu2, hu3⟩
        · exact Or.inl h
        · exact Or.inr ⟨u, List.mem_append_left _ hu1, hu2, hu3⟩

theorem runK_values (hG : EdgesBounded G)
    (post : (Nat → β) → Nat → Nat → Prop)
    (just : (Nat → β) → Nat → Nat → β) (v0 : Nat → β)
    (Hoff : OffTarget relax)
    (Hestab : ∀ (val : Nat → β) (u v : Nat), u ≠ v → post (relax val u v) u v)
    (Hstable : ∀ (val : Nat → β) (x y u v : Nat), y ≠ u → post val u v →
      post (relax val x y) u v)
    (HachE : ∀ (val : Nat → β) (u v : Nat), u ≠ v →
      (relax val u v) v = val v ∨ (relax val u v) v = just val u v)
    (Hjust : ∀ (val val' : Nat → β) (u v : Nat), val u = val' u →
      just val u v = just val' u v) :
    ∀ (fuel : Nat) (s : KSt β), KInv G s → PostAll post G s → AchAll just G v0 s →
      PostAll post G (runK G relax fuel s) ∧ AchAll just G v0 (runK G relax fuel s)
  | 0, _, _, hpost, hach => ⟨hpost, hach⟩
  | fuel + 1, s, hinv, hpost, hach => by
    obtain ⟨h1, h2⟩ := loopStep_values hG post just v0 Hoff Hestab Hstable HachE Hjust
      hinv hpost hach
    exact runK_values hG post just v0 Hoff Hestab Hstable HachE Hjust fuel _
      (loopStep_inv hG hinv) h1 h2

/-- Final post-condition and justification invariant of the elimination run. -/
theorem kahn_values (hG : EdgesBounded G)
    (post : (Nat → β) → Nat → Nat → Prop)
    (just : (Nat → β) → Nat → Nat → β) (v0 : Nat → β)
    (Hoff : OffTarget relax)
    (Hestab : ∀ (val : Nat → β) (u v : Nat), u ≠ v → post (relax val u v) u v)
    (Hstable : ∀ (val : Nat → β) (x y u v : Nat), y ≠ u → post val u v →
      post (relax val x y) u v)
    (HachE : ∀ (val : Nat → β) (u v : Nat), u ≠ v →
      (relax val u v) v = val v ∨ (relax val u v) v = just val u v)
    (Hjust : ∀ (val val' : Nat → β) (u v : Nat), val u = val' u →
      just val u v = just val' u v) :
    PostAll post G (kahn G relax v0) ∧ AchAll just G v0 (kahn G relax v0) := by
  refine runK_values hG post just v0 Hoff Hestab Hstable HachE Hjust G.size _
    (initSt_inv v0) ?_ ?_
  · intro u hu
    exact absurd hu (List.not_mem_nil u)
  · intro v
    exact Or.inl rfl

/-- A property of the whole value array preserved by each relaxation survives
the run. -/
theorem kahn_val_pred (P : (Nat → β) → Prop)
    (HP : ∀ (val : Nat → β) (u v : Nat), P val → P (relax val u v)) (v0 : Nat → β)
    (h0 : P v0) : P (kahn G relax v0).val := by
  have hloop : ∀ (L : List Nat) (u0 : Nat) (val : Nat → β), P val →
      P (L.foldl (fun val v => relax val u0 v) val) := by
    intro L
    induction L with
    | nil => intro _ _ h; exact h
    | cons y L ih =>
      intro u0 val h
      rw [List.foldl_cons]
      exact ih u0 _ (HP val u0 y h)
  have hrun : ∀ (fuel : Nat) (s : KSt β), P s.val → P (runK G relax fuel s).val := by
    intro fuel
    induction fuel with
    | zero => intro _ h; exact h
    | succ fuel ih =>
      intro s h
      refine ih _ ?_
      unfold loopStep
      cases s.queue with
      | nil => exact h
      | cons u0 q =>
        rw [popStep_val]
        exact hloop _ u0 _ h
  exact hrun G.size _ h0

end KahnValues

end Ordo

/-! ## Instantiations: ranks, earliest dates, latest dates -/

namespace Ordo

section RankEarly

variable {G : Graph}

theorem relaxRank_off : OffTarget relaxRank := by
  intro val u v x hx
  unfold relaxRank
  split
  · simp [updF, hx]
  · rfl

theorem relaxRank_mono (val : Nat → Int) (u v x : Nat) :
    val x ≤ relaxRank val u v x := by
  unfold relaxRank
  split
  · unfold updF
    split
    · rename_i h1 h2
      subst h2
      omega
    · exact le_refl _
  · exact le_refl _

theorem rank_hestab : ∀ (val : Nat → Int) (u v : Nat), u ≠ v →
    relaxRank val u v u + 1 ≤ relaxRank val u v v := by
  intro val u v huv
  unfold relaxRank
  by_cases hlt : val v < val u + 1
  · rw [if_pos hlt]
    show updF val v (val u + 1) u + 1 ≤ updF val v (val u + 1) v
    simp [updF, huv]
  · rw [if_neg hlt]
    omega

theorem rank_hstable : ∀ (val : Nat → Int) (x y u v : Nat), y ≠ u →
    val u + 1 ≤ val v → relaxRank val x y u + 1 ≤ relaxRank val x y v := by
  intro val x y u v hyu hpost
  have h1 : relaxRank val x y u = val u := relaxRank_off val x y u (Ne.symm hyu)
  have h2 : val v ≤ relaxRank val x y v := relaxRank_mono val x y v
  omega

theorem rank_hachE : ∀ (val : Nat → Int) (u v : Nat), u ≠ v →
    relaxRank val u v v = val v ∨ relaxRank val u v v = val u + 1 := by
  intro val u v _
  unfold relaxRank
  by_cases hlt : val v < val u + 1
  · rw [if_pos hlt]
    exact Or.inr (by simp [updF])
  · rw [if_neg hlt]
    exact Or.inl rfl

theorem rank_post_all (hG : EdgesBounded G) (hac : AcyclicG G) :
    ∀ u v, u < G.size → edgeP G u v → rangArray G u + 1 ≤ rangArray G v := by
  have h := (@kahn_values Int G relaxRank hG
    (fun val u v => val u + 1 ≤ val v) (fun val u v => val u + 1) (fun _ => 0)
    relaxRank_off rank_hestab rank_hstable rank_hachE
    (fun val val' u v h => by simp only []; rw [h])).1
  intro u v hu he
  exact h u (kahn_complete hG hac _ u hu) v he

theorem rank_ach_all (hG : EdgesBounded G) :
    ∀ v, rangArray G v = 0 ∨
      ∃ u, u < G.size ∧ edgeP G u v ∧ rangArray G v = rangArray G u + 1 := by
  have h := (@kahn_values Int G relaxRank hG
    (fun val u v => val u + 1 ≤ val v) (fun val u v => val u + 1) (fun _ => 0)
    relaxRank_off rank_hestab rank_hstable rank_hachE
    (fun val val' u v h => by simp only []; rw [h])).2
  have hinv := @kahn_inv Int G relaxRank hG (fun _ => (0 : Int))
  intro v
  rcases h v with h' | ⟨u, hu1, hu2, hu3⟩
  · exact Or.inl h'
  · exact Or.inr ⟨u, hinv.bounded u (List.mem_append_left _ hu1), hu2, hu3⟩

theorem rank_nonneg : ∀ v, 0 ≤ rangArray G v := by
  have := @kahn_val_pred Int G relaxRank
    (fun val => ∀ x, 0 ≤ val x) ?_ (fun _ => 0) ?_
  · exact this
  · intro val u v hval x
    exact le_trans (hval x) (relaxRank_mono val u v x)
  · intro x
    exact le_refl 0

end RankEarly

end Ordo

namespace Ordo

section EarlyInst

variable {G : Graph}

theorem relaxEarly_off : OffTarget (relaxEarly G) := by
  intro val u v x hx
  unfold relaxEarly
  split
  · simp [updF, hx]
  · rfl

theorem relaxEarly_mono (val : Nat → Int) (u v x : Nat) :
    val x ≤ relaxEarly G val u v x := by
  unfold relaxEarly
  split
  · unfold updF
    split
    · rename_i h1 h2
      subst h2
      omega
    · exact le_refl _
  · exact le_refl _

theorem early_hestab : ∀ (val : Nat → Int) (u v : Nat), u ≠ v →
    relaxEarly G val u v u + wval G u v ≤ relaxEarly G val u v v := by
  intro val u v huv
  unfold relaxEarly
  by_cases hlt : val v < val u + wval G u v
  · rw [if_pos hlt]
    show updF val v (val u + wval G u v) u + wval G u v ≤ updF val v (val u + wval G u v) v
    simp [updF, huv]
  · rw [if_neg hlt]
    omega

theorem early_hstable : ∀ (val : Nat → Int) (x y u v : Nat), y ≠ u →
    val u + wval G u v ≤ val v →
    relaxEarly G val x y u + wval G u v ≤ relaxEarly G val x y v := by
  intro val x y u v hyu hpost
  have h1 : relaxEarly G val x y u = val u := relaxEarly_off val x y u (Ne.symm hyu)
  have h2 : val v ≤ relaxEarly G val x y v := relaxEarly_mono val x y v
  omega

theorem early_hachE : ∀ (val : Nat → Int) (u v : Nat), u ≠ v →
    relaxEarly G val u v v = val v ∨ relaxEarly G val u v v = val u + wval G u v := by
  intro val u v _
  unfold relaxEarly
  by_cases hlt : val v < val u + wval G u v
  · rw [if_pos hlt]
    exact Or.inr (by simp [updF])
  · rw [if_neg hlt]
    exact Or.inl rfl

theorem early_post_all (hG : EdgesBounded G) (hac : AcyclicG G) :
    ∀ u v, u < G.size → edgeP G u v →
      earlyArray G u + wval G u v ≤ earlyArray G v := by
  have h := (@kahn_values Int G (relaxEarly G) hG
    (fun val u v => val u + wval G u v ≤ val v)
    (fun val u v => val u + wval G u v) (fun _ => 0)
    relaxEarly_off early_hestab early_hstable early_hachE
    (fun val val' u v h => by simp only []; rw [h])).1
  intro u v hu he
  exact h u (kahn_complete hG hac _ u hu) v he

theorem early_ach_all (hG : EdgesBounded G) :
    ∀ v, earlyArray G v = 0 ∨
      ∃ u, u < G.size ∧ edgeP G u v ∧
        earlyArray G v = earlyArray G u + wval G u v := by
  have h := (@kahn_values Int G (relaxEarly G) hG
    (fun val u v => val u + wval G u v ≤ val v)
    (fun val u v => val u + wval G u v) (fun _ => 0)
    relaxEarly_off early_hestab early_hstable early_hachE
    (fun val val' u v h => by simp only []; rw [h])).2
  have hinv := @kahn_inv Int G (relaxEarly G) hG (fun _ => (0 : Int))
  intro v
  rcases h v with h' | ⟨u, hu1, hu2, hu3⟩
  · exact Or.inl h'
  · exact Or.inr ⟨u, hinv.bounded u (List.mem_append_left _ hu1), hu2, hu3⟩

theorem early_nonneg : ∀ v, 0 ≤ earlyArray G v := by
  have := @kahn_val_pred Int G (relaxEarly G)
    (fun val => ∀ x, 0 ≤ val x) ?_ (fun _ => 0) ?_
  · exact this
  · intro val u v hval x
    exact le_trans (hval x) (relaxEarly_mono val u v x)
  · intro x
    exact le_refl 0

end EarlyInst

section LateInst

variable {R : Graph}

theorem lateLt_irrefl (a : LateVal) : a.lt a = false := by
  cases a with
  | inf => rfl
  | fin z => simp [LateVal.lt]

theorem lateLt_trans {a b c : LateVal} (h1 : a.lt b = true) (h2 : b.lt c = true) :
    a.lt c = true := by
  cases a <;> cases b <;> cases c <;> simp [LateVal.lt] at h1 h2 ⊢ <;> omega

theorem relaxLate_off : OffTarget (relaxLate R) := by
  intro val u v x hx
  unfold relaxLate
  split
  · simp [updF, hx]
  · rfl

theorem late_hestab : ∀ (val : Nat → LateVal) (u v : Nat), u ≠ v →
    ((relaxLate R val u v u).sub (wval R u v)).lt (relaxLate R val u v v) = false := by
  intro val u v huv
  have h1 : relaxLate R val u v u = val u := relaxLate_off val u v u huv
  rw [h1]
  unfold relaxLate
  by_cases hf : ((val u).sub (wval R u v)).lt (val v) = true
  · rw [if_pos hf]
    have e2 : updF val v ((val u).sub (wval R u v)) v = (val u).sub (wval R u v) := by
      simp [updF]
    rw [e2]
    exact lateLt_irrefl _
  · rw [if_neg hf]
    simpa using hf

theorem late_hstable : ∀ (val : Nat → LateVal) (x y u v : Nat), y ≠ u →
    ((val u).sub (wval R u v)).lt (val v) = false →
    ((relaxLate R val x y u).sub (wval R u v)).lt (relaxLate R val x y v) = false := by
  intro val x y u v hyu hpost
  have h1 : relaxLate R val x y u = val u := relaxLate_off val x y u (Ne.symm hyu)
  rw [h1]
  by_cases hvy : v = y
  · subst hvy
    unfold relaxLate
    by_cases hf : ((val x).sub (wval R x v)).lt (val v) = true
    · rw [if_pos hf]
      have e2 : updF val v ((val x).sub (wval R x v)) v = (val x).sub (wval R x v) := by
        simp [updF]
      rw [e2]
      by_contra hcon
      rw [Bool.not_eq_false] at hcon
      have := lateLt_trans hcon hf
      rw [this] at hpost
      exact Bool.noConfusion hpost
    · rw [if_neg hf]
      exact hpost
  · rw [relaxLate_off val x y v (fun h => hvy h)]
    exact hpost

theorem late_hachE : ∀ (val : Nat → LateVal) (u v : Nat), u ≠ v →
    relaxLate R val u v v = val v ∨
      relaxLate R val u v v = (val u).sub (wval R u v) := by
  intro val u v _
  unfold relaxLate
  by_cases hf : ((val u).sub (wval R u v)).lt (val v) = true
  · rw [if_pos hf]
    exact Or.inr (by simp [updF])
  · rw [if_neg hf]
    exact Or.inl rfl

theorem late_post_all (hG : EdgesBounded R) (hac : AcyclicG R) (v0 : Nat → LateVal) :
    ∀ u v, u < R.size → edgeP R u v →
      (((kahn R (relaxLate R) v0).val u).sub (wval R u v)).lt
        ((kahn R (relaxLate R) v0).val v) = false := by
  have h := (@kahn_values LateVal R (relaxLate R) hG
    (fun val u v => ((val u).sub (wval R u v)).lt (val v) = false)
    (fun val u v => (val u).sub (wval R u v)) v0
    relaxLate_off late_hestab late_hstable late_hachE
    (fun val val' u v h => by simp only []; rw [h])).1
  intro u v hu he
  exact h u (kahn_complete hG hac _ u hu) v he

theorem late_ach_all (hG : EdgesBounded R) (v0 : Nat → LateVal) :
    ∀ v, (kahn R (relaxLate R) v0).val v = v0 v ∨
      ∃ u, u < R.size ∧ edgeP R u v ∧
        (kahn R (relaxLate R) v0).val v =
          ((kahn R (relaxLate R) v0).val u).sub (wval R u v) := by
  have h := (@kahn_values LateVal R (relaxLate R) hG
    (fun val u v => ((val u).sub (wval R u v)).lt (val v) = false)
    (fun val u v => (val u).sub (wval R u v)) v0
    relaxLate_off late_hestab late_hstable late_hachE
    (fun val val' u v h => by simp only []; rw [h])).2
  have hinv := @kahn_inv LateVal R (relaxLate R) hG v0
  intro v
  rcases h v with h' | ⟨u, hu1, hu2, hu3⟩
  · exact Or.inl h'
  · exact Or.inr ⟨u, hinv.bounded u (List.mem_append_left _ hu1), hu2, hu3⟩

end LateInst

end Ordo

/-! ## Characterisation of the built matrix -/

namespace Ordo

theorem except_bind_ok {ε α β' : Type} {x : Except ε α} {f : α → Except ε β'} {b : β'}
    (h : (x >>= f) = .ok b) : ∃ a, x = .ok a ∧ f a = .ok b := by
  cases x with
  | error e =>
    have h' : Except.error (α := β') e = Except.ok b := h
    exact absurd h' (fun hc => Except.noConfusion hc)
  | ok a => exact ⟨a, rfl, h⟩

theorem predStep_ok_inv {t : TaskTable} {size tid : Nat}
    {m : Nat → Nat → Option Int} {p : Nat} {m1 : Nat → Nat → Option Int}
    (h : predStep t size tid m p = .ok m1) :
    ∃ pd, tfind t p = some pd ∧ p < size ∧ tid < size ∧
      m1 = mupd m p tid (some pd.1) := by
  revert h
  unfold predStep
  match hf : tfind t p with
  | none =>
    intro h
    exact absurd h (fun hc => Except.noConfusion hc)
  | some pd =>
    intro h
    have h' : (if p < size ∧ tid < size then
        Except.ok (mupd m p tid (some pd.1))
      else Except.error BuildErr.indexError) = Except.ok m1 := h
    by_cases hlt : p < size ∧ tid < size
    · rw [if_pos hlt] at h'
      exact ⟨pd, rfl, hlt.1, hlt.2, (Except.ok.inj h').symm⟩
    · rw [if_neg hlt] at h'
      exact absurd h' (fun hc => Except.noConfusion hc)

theorem phaseA_ok_conditions (size : Nat) :
    ∀ (l : TaskTable) (m m' : Nat → Nat → Option Int), phaseA size l m = .ok m' →
      ∀ e ∈ l, e.2.2 = [] → e.1 < size
  | [], _, _, _, e, he, _ => absurd he (List.not_mem_nil e)
  | e0 :: l, m, m', h, e, he, hp => by
    rw [show phaseA size (e0 :: l) m =
      ((if e0.2.2 = [] then
          if e0.1 < size then Except.ok (mupd m 0 e0.1 (some 0))
          else .error .indexError
        else .ok m) >>= fun m1 => phaseA size l m1) from rfl] at h
    obtain ⟨m1, hm1, hrest⟩ := except_bind_ok h
    rcases List.mem_cons.mp he with rfl | he'
    · by_cases hs : e.1 < size
      · exact hs
      · rw [if_pos hp, if_neg hs] at hm1
        exact absurd hm1 (fun hc => Except.noConfusion hc)
    · exact phaseA_ok_conditions size l _ _ hrest e he' hp

theorem predRun_ok_conditions (t : TaskTable) (size tid : Nat) :
    ∀ (preds : List Nat) (m m' : Nat → Nat → Option Int),
      preds.foldlM (predStep t size tid) m = .ok m' →
      ∀ p ∈ preds, tfind t p ≠ none ∧ p < size ∧ tid < size
  | [], _, _, _, p, hp => absurd hp (List.not_mem_nil p)
  | p0 :: preds, m, m', h, p, hp => by
    rw [List.foldlM_cons] at h
    obtain ⟨m1, hm1, hrest⟩ := except_bind_ok h
    rcases List.mem_cons.mp hp with rfl | hp'
    · obtain ⟨pd, hpd, h1, h2, -⟩ := predStep_ok_inv hm1
      exact ⟨by simp [hpd], h1, h2⟩
    · exact predRun_ok_conditions t size tid preds _ _ hrest p hp'

theorem phaseBGo_ok_conditions (size : Nat) (t : TaskTable) :
    ∀ (l : TaskTable) (m m' : Nat → Nat → Option Int),
      phaseBGo size t l m = .ok m' →
      ∀ e ∈ l, ∀ p ∈ e.2.2, tfind t p ≠ none ∧ p < size ∧ e.1 < size
  | [], _, _, _, e, he, _, _ => absurd he (List.not_mem_nil e)
  | e0 :: l, m, m', h, e, he, p, hp => by
    rw [show phaseBGo size t (e0 :: l) m =
      (e0.2.2.foldlM (predStep t size e0.1) m >>= fun m1 => phaseBGo size t l m1)
      from rfl] at h
    obtain ⟨m1, hm1, hrest⟩ := except_bind_ok h
    rcases List.mem_cons.mp he with rfl | he'
    · exact predRun_ok_conditions t size e.1 e.2.2 m m1 hm1 p hp
    · exact phaseBGo_ok_conditions size t l _ _ hrest e he' p hp

/-- Value-level description of phase 1. -/
theorem phaseA_spec (size : Nat) :
    ∀ (l : TaskTable) (m m' : Nat → Nat → Option Int), phaseA size l m = .ok m' →
      ∀ u v, m' u v =
        if u = 0 ∧ (∃ e ∈ l, e.1 = v ∧ e.2.2 = []) then some 0 else m u v
  | [], m, m', h, u, v => by
    have hmm : Except.ok (ε := BuildErr) m = Except.ok m' := h
    injection hmm with hmm
    subst hmm
    simp
  | e0 :: l, m, m', h, u, v => by
    rw [show phaseA size (e0 :: l) m =
      ((if e0.2.2 = [] then
          if e0.1 < size then Except.ok (mupd m 0 e0.1 (some 0))
          else .error .indexError
        else .ok m) >>= fun m1 => phaseA size l m1) from rfl] at h
    obtain ⟨m1, hm1, hrest⟩ := except_bind_ok h
    have ih := phaseA_spec size l m1 m' hrest u v
    by_cases hp : e0.2.2 = []
    · by_cases hs : e0.1 < size
      · rw [if_pos hp, if_pos hs] at hm1
        have hm1' : m1 = mupd m 0 e0.1 (some 0) := (Except.ok.inj hm1).symm
        subst hm1'
        rw [ih]
        by_cases hc : u = 0 ∧ ∃ e ∈ l, e.1 = v ∧ e.2.2 = []
        · obtain ⟨h0, e, he, hev, hep⟩ := hc
          rw [if_pos ⟨h0, e, he, hev, hep⟩,
            if_pos ⟨h0, e, List.mem_cons_of_mem _ he, hev, hep⟩]
        · rw [if_neg hc]
          unfold mupd
          by_cases hu : u = 0
          · subst hu
            by_cases hv : v = e0.1
            · subst hv
              rw [if_pos ⟨rfl, rfl⟩, if_pos ⟨rfl, e0, List.mem_cons_self e0 l, rfl, hp⟩]
            · rw [if_neg (by simp [hv]), if_neg ?_]
              rintro ⟨-, e, he, hev, hep⟩
              rcases List.mem_cons.mp he with rfl | he'
              · exact hv hev.symm
              · exact hc ⟨rfl, e, he', hev, hep⟩
          · rw [if_neg (by simp [hu]), if_neg (by rintro ⟨h0, -⟩; exact hu h0)]
      · rw [if_pos hp, if_neg hs] at hm1
        exact absurd hm1 (fun hc => Except.noConfusion hc)
    · rw [if_neg hp] at hm1
      have hm1' : m1 = m := (Except.ok.inj hm1).symm
      subst hm1'
      rw [ih]
      congr 1
      apply propext
      constructor
      · rintro ⟨h0, e, he, hev, hep⟩
        exact ⟨h0, e, List.mem_cons_of_mem _ he, hev, hep⟩
      · rintro ⟨h0, e, he, hev, hep⟩
        rcases List.mem_cons.mp he with rfl | he'
        · exact absurd hep hp
        · exact ⟨h0, e, he', hev, hep⟩

end Ordo

namespace Ordo

/-- Value-level description of one predecessor scan of phase 2. -/
theorem predRun_spec (t : TaskTable) (size tid : Nat) :
    ∀ (preds : List Nat) (m m' : Nat → Nat → Option Int),
      preds.foldlM (predStep t size tid) m = .ok m' →
      ∀ u v, m' u v =
        if v = tid ∧ u ∈ preds then (tfind t u).map (·.1) else m u v
  | [], m, m', h, u, v => by
    have hmm : Except.ok (ε := BuildErr) m = Except.ok m' := h
    injection hmm with hmm
    subst hmm
    simp
  | p :: preds, m, m', h, u, v => by
    rw [List.foldlM_cons] at h
    obtain ⟨m1, hm1, hrest⟩ := except_bind_ok h
    obtain ⟨pd, hpd, hps, hts, hm1'⟩ := predStep_ok_inv hm1
    subst hm1'
    rw [predRun_spec t size tid preds _ m' hrest u v]
    by_cases hc : v = tid ∧ u ∈ preds
    · rw [if_pos hc, if_pos ⟨hc.1, List.mem_cons_of_mem _ hc.2⟩]
    · rw [if_neg hc]
      unfold mupd
      by_cases hup : u = p ∧ v = tid
      · obtain ⟨hup1, hup2⟩ := hup
        subst hup1
        rw [if_pos ⟨rfl, hup2⟩, if_pos ⟨hup2, List.mem_cons_self u preds⟩, hpd]
        rfl
      · rw [if_neg (by rintro ⟨h1, h2⟩; exact hup ⟨h1, h2⟩), if_neg ?_]
        rintro ⟨hv, hu⟩
        rcases List.mem_cons.mp hu with rfl | hu'
        · exact hup ⟨rfl, hv⟩
        · exact hc ⟨hv, hu'⟩

/-- Value-level description of phase 2. -/
theorem phaseBGo_spec (size : Nat) (t : TaskTable) :
    ∀ (l : TaskTable) (m m' : Nat → Nat → Option Int),
      phaseBGo size t l m = .ok m' →
      ∀ u v, m' u v =
        if (∃ e ∈ l, e.1 = v ∧ u ∈ e.2.2) then (tfind t u).map (·.1) else m u v
  | [], m, m', h, u, v => by
    have hmm : Except.ok (ε := BuildErr) m = Except.ok m' := h
    injection hmm with hmm
    subst hmm
    simp
  | e0 :: l, m, m', h, u, v => by
    rw [show phaseBGo size t (e0 :: l) m =
      (e0.2.2.foldlM (predStep t size e0.1) m >>= fun m1 => phaseBGo size t l m1)
      from rfl] at h
    obtain ⟨m1, hm1, hrest⟩ := except_bind_ok h
    rw [phaseBGo_spec size t l m1 m' hrest u v,
      predRun_spec t size e0.1 e0.2.2 m m1 hm1 u v]
    by_cases hc : ∃ e ∈ l, e.1 = v ∧ u ∈ e.2.2
    · obtain ⟨e, he, hev, hep⟩ := hc
      rw [if_pos ⟨e, he, hev, hep⟩, if_pos ⟨e, List.mem_cons_of_mem _ he, hev, hep⟩]
    · rw [if_neg hc]
      by_cases h0 : v = e0.1 ∧ u ∈ e0.2.2
      · rw [if_pos h0, if_pos ⟨e0, List.mem_cons_self e0 l, h0.1.symm, h0.2⟩]
      · rw [if_neg h0, if_neg ?_]
        rintro ⟨e, he, hev, hep⟩
        rcases List.mem_cons.mp he with rfl | he'
        · exact h0 ⟨hev.symm, hep⟩
        · exact hc ⟨e, he', hev, hep⟩

/-- Value-level description of phase 3, for a duplicate-free row list. -/
theorem phaseCGo_spec (size omega : Nat) (t : TaskTable) :
    ∀ (L : List Nat) (m : Nat → Nat → Option Int), L.Nodup →
      ∀ u v, (L.foldl (fun m i =>
          if i ≠ omega ∧ (∀ j ∈ List.range size, m i j = none) then
            match tfind t i with
            | some d => mupd m i omega (some d.1)
            | none => m
          else m) m) u v =
        if u ∈ L ∧ u ≠ omega ∧ (∀ j ∈ List.range size, m u j = none) ∧
            v = omega ∧ (tfind t u).isSome
        then (tfind t u).map (·.1) else m u v
  | [], m, _, u, v => by simp
  | i :: L, m, hnd, u, v => by
    obtain ⟨hiL, hndL⟩ := List.nodup_cons.mp hnd
    rw [List.foldl_cons]
    set m1 := (if i ≠ omega ∧ (∀ j ∈ List.range size, m i j = none) then
        match tfind t i with
        | some d => mupd m i omega (some d.1)
        | none => m
      else m) with hm1
    have hrow : ∀ x j, x ≠ i → m1 x j = m x j := by
      intro x j hx
      rw [hm1]
      split
      · cases htf : tfind t i with
        | some d => simp [mupd, hx]
        | none => rfl
      · rfl
    rw [phaseCGo_spec size omega t L m1 hndL u v]
    by_cases hui : u = i
    · subst hui
      rw [if_neg (by rintro ⟨huL, -⟩; exact hiL huL)]
      rw [hm1]
      by_cases hq : u ≠ omega ∧ (∀ j ∈ List.range size, m u j = none)
      · rw [if_pos hq]
        cases htf : tfind t u with
        | some d =>
          show mupd m u omega (some d.1) u v = _
          unfold mupd
          by_cases hv : v = omega
          · subst hv
            rw [if_pos ⟨rfl, rfl⟩,
              if_pos ⟨List.mem_cons_self u L, hq.1, hq.2, rfl, by simp [htf]⟩]
            rfl
          · rw [if_neg (by simp [hv]), if_neg (by rintro ⟨-, -, -, hv', -⟩; exact hv hv')]
        | none =>
          show m u v = _
          rw [if_neg (by rintro ⟨-, -, -, -, hs⟩; simp [htf] at hs)]
      · rw [if_neg hq]
        rw [if_neg (by rintro ⟨-, h1, h2, -⟩; exact hq ⟨h1, h2⟩)]
    · have hrowu : ∀ j, m1 u j = m u j := fun j => hrow u j hui
      have hcond : (∀ j ∈ List.range size, m1 u j = none) ↔
          (∀ j ∈ List.range size, m u j = none) := by
        constructor
        · intro hh j hj
          rw [← hrowu j]
          exact hh j hj
        · intro hh j hj
          rw [hrowu j]
          exact hh j hj
      by_cases hc : u ∈ L ∧ u ≠ omega ∧ (∀ j ∈ List.range size, m u j = none) ∧
          v = omega ∧ (tfind t u).isSome
      · rw [if_pos ⟨hc.1, hc.2.1, hcond.mpr hc.2.2.1, hc.2.2.2⟩,
          if_pos ⟨List.mem_cons_of_mem _ hc.1, hc.2⟩]
      · rw [if_neg ?_, if_neg ?_]
        · exact hrowu v
        · rintro ⟨h1, h2⟩
          rcases List.mem_cons.mp h1 with rfl | h1'
          · exact hui rfl
          · exact hc ⟨h1', h2⟩
        · rintro ⟨h1, h2, h3, h4⟩
          exact hc ⟨h1, h2, hcond.mp h3, h4⟩

theorem phaseC_spec (size omega : Nat) (t : TaskTable) (m : Nat → Nat → Option Int) :
    ∀ u v, phaseC size omega t m u v =
      if u < size ∧ u ≠ omega ∧ (∀ j ∈ List.range size, m u j = none) ∧
          v = omega ∧ (tfind t u).isSome
      then (tfind t u).map (·.1) else m u v := by
  intro u v
  have := phaseCGo_spec size omega t (List.range size) m (List.nodup_range size) u v
  rw [show phaseC size omega t m = (List.range size).foldl (fun m i =>
      if i ≠ omega ∧ (∀ j ∈ List.range size, m i j = none) then
        match tfind t i with
        | some d => mupd m i omega (some d.1)
        | none => m
      else m) m from rfl]
  rw [this]
  congr 1
  apply propext
  constructor
  · rintro ⟨h1, h2⟩
    exact ⟨List.mem_range.mp h1, h2⟩
  · rintro ⟨h1, h2⟩
    exact ⟨List.mem_range.mpr h1, h2⟩

end Ordo

namespace Ordo

theorem tfind_isSome_iff {t : TaskTable} {p : Nat} :
    (tfind t p).isSome = true ↔ p ∈ keys t := by
  constructor
  · intro h
    cases hf : tfind t p with
    | none => rw [hf] at h; exact Bool.noConfusion h
    | some x => exact mem_keys_of_tfind hf
  · intro h
    cases hf : tfind t p with
    | none =>
      by_contra
      obtain ⟨e, he, hek⟩ := List.mem_map.mp h
      have : t.find? (fun x => x.1 == p) ≠ none := by
        intro hn
        have := List.find?_eq_none.mp hn e he
        simp [hek] at this
      unfold tfind at hf
      cases hfind : t.find? (fun x => x.1 == p) with
      | none => exact this hfind
      | some x => rw [hfind] at hf; exact Option.noConfusion hf
    | some x => simp

theorem tfind_of_mem {t : TaskTable} {e : Nat × (Int × List Nat)} (he : e ∈ t) :
    (tfind t e.1).isSome = true :=
  tfind_isSome_iff.mpr (List.mem_map.mpr ⟨e, he, rfl⟩)

theorem tfind_of_mem_nodup {t : TaskTable} {e : Nat × (Int × List Nat)}
    (hnd : (keys t).Nodup) (he : e ∈ t) : tfind t e.1 = some e.2 := by
  cases hf : tfind t e.1 with
  | none =>
    have := tfind_of_mem he
    rw [hf] at this
    exact Bool.noConfusion this
  | some x =>
    unfold tfind at hf
    cases hfind : t.find? (fun y => y.1 == e.1) with
    | none => rw [hfind] at hf; exact Option.noConfusion hf
    | some f =>
      rw [hfind] at hf
      have hfm : f ∈ t := List.mem_of_find?_eq_some hfind
      have hfk : f.1 = e.1 := by simpa using List.find?_some hfind
      have hfe : f = e := List.inj_on_of_nodup_map hnd hfm he hfk
      subst hfe
      injection hf with hf
      rw [← hf]

/-- Decomposition of a successful graph construction. -/
theorem built_elim {t : TaskTable} {G : Graph} (h : construireGraphe t = .ok G) :
    ∃ m1 m2, phaseA (t.length + 2) t (fun _ _ => none) = .ok m1 ∧
      phaseB (t.length + 2) t m1 = .ok m2 ∧
      G.size = t.length + 2 ∧
      G.w = phaseC (t.length + 2) (t.length + 1) t m2 := by
  revert h
  unfold construireGraphe
  match hA : phaseA (t.length + 2) t (fun _ _ => none) with
  | .error e =>
    intro h
    have h1 : Except.error (α := Graph) e = Except.ok G := h
    exact absurd h1 (fun hc => Except.noConfusion hc)
  | .ok m1 =>
    intro h
    have h1 : (match phaseB (t.length + 2) t m1 with
      | Except.error e => Except.error e
      | Except.ok m2 => Except.ok (Graph.mk (t.length + 2)
          (phaseC (t.length + 2) (t.length + 1) t m2))) = Except.ok G := h
    clear h
    revert h1
    match hB : phaseB (t.length + 2) t m1 with
    | .error e =>
      intro h1
      have h2 : Except.error (α := Graph) e = Except.ok G := h1
      exact absurd h2 (fun hc => Except.noConfusion hc)
    | .ok m2 =>
      intro h1
      have h2 : Except.ok (Graph.mk (t.length + 2)
          (phaseC (t.length + 2) (t.length + 1) t m2)) = Except.ok G := h1
      have hG := Except.ok.inj h2
      exact ⟨m1, m2, rfl, hB, by rw [← hG], by rw [← hG]⟩

theorem builtG_eq {t : TaskTable} {G : Graph} (h : construireGraphe t = .ok G) :
    builtG t = G := by
  unfold builtG
  rw [h]

section BuiltFacts

variable {t : TaskTable} {G : Graph}

/-- Every arc of the built graph is one of: a phase-3 arc into ω, a phase-2
predecessor arc, or a phase-1 arc out of α. -/
theorem built_w_cases (h : construireGraphe t = .ok G) (u v : Nat)
    (he : G.w u v ≠ none) :
    (u < t.length + 2 ∧ u ≠ t.length + 1 ∧ v = t.length + 1 ∧
      (tfind t u).isSome = true ∧ G.w u v = (tfind t u).map (·.1)) ∨
    ((∃ e ∈ t, e.1 = v ∧ u ∈ e.2.2) ∧ G.w u v = (tfind t u).map (·.1)) ∨
    (u = 0 ∧ (∃ e ∈ t, e.1 = v ∧ e.2.2 = []) ∧ G.w u v = some 0) := by
  obtain ⟨m1, m2, hA, hB, hsz, hw⟩ := built_elim h
  rw [hw] at he ⊢
  rw [phaseC_spec] at he ⊢
  by_cases hc : u < t.length + 2 ∧ u ≠ t.length + 1 ∧
      (∀ j ∈ List.range (t.length + 2), m2 u j = none) ∧
      v = t.length + 1 ∧ (tfind t u).isSome
  · exact Or.inl ⟨hc.1, hc.2.1, hc.2.2.2.1, hc.2.2.2.2, by rw [if_pos hc]⟩
  · rw [if_neg hc] at he ⊢
    rw [phaseBGo_spec (t.length + 2) t t m1 m2 hB] at he ⊢
    by_cases hb : ∃ e ∈ t, e.1 = v ∧ u ∈ e.2.2
    · exact Or.inr (Or.inl ⟨hb, by rw [if_pos hb]⟩)
    · rw [if_neg hb] at he ⊢
      rw [phaseA_spec (t.length + 2) t _ m1 hA] at he ⊢
      by_cases ha : u = 0 ∧ ∃ e ∈ t, e.1 = v ∧ e.2.2 = []
      · exact Or.inr (Or.inr ⟨ha.1, ha.2, by rw [if_pos ha]⟩)
      · rw [if_neg ha] at he
        exact absurd rfl he

theorem built_id_lt (h : construireGraphe t = .ok G) :
    ∀ e ∈ t, e.1 < t.length + 2 := by
  obtain ⟨m1, m2, hA, hB, hsz, hw⟩ := built_elim h
  intro e he
  cases hp : e.2.2 with
  | nil => exact phaseA_ok_conditions _ t _ m1 hA e he hp
  | cons p ps =>
    have := phaseBGo_ok_conditions _ t t m1 m2 hB e he p (by rw [hp]; exact List.mem_cons_self p ps)
    exact this.2.2

theorem built_edge_lt (h : construireGraphe t = .ok G) : EdgesBounded G := by
  obtain ⟨m1, m2, hA, hB, hsz, hw⟩ := built_elim h
  intro u v he
  have he' : G.w u v ≠ none := by
    intro hn
    rw [edgeP, isEdge, hn] at he
    exact Bool.noConfusion he
  rw [hsz]
  rcases built_w_cases h u v he' with ⟨h1, h2, h3, h4, h5⟩ | ⟨⟨e, he1, he2, he3⟩, h5⟩ |
      ⟨h1, ⟨e, he1, he2⟩, h5⟩
  · exact ⟨h1, by omega⟩
  · have hcond := phaseBGo_ok_conditions _ t t m1 m2 hB e he1 u he3
    have hv : v < t.length + 2 := he2 ▸ hcond.2.2
    exact ⟨hcond.2.1, hv⟩
  · have hu : u < t.length + 2 := by omega
    have hv : v < t.length + 2 := he2.1 ▸ phaseA_ok_conditions _ t _ m1 hA e he1 he2.2
    exact ⟨hu, hv⟩

theorem built_src (h : construireGraphe t = .ok G) (u v : Nat)
    (he : edgeP G u v) : u = 0 ∨ u ∈ keys t := by
  have he' : G.w u v ≠ none := by
    intro hn
    rw [edgeP, isEdge, hn] at he
    exact Bool.noConfusion he
  rcases built_w_cases h u v he' with ⟨-, -, -, h4, -⟩ | ⟨⟨e, he1, he2, he3⟩, -⟩ | ⟨h1, -, -⟩
  · exact Or.inr (tfind_isSome_iff.mp h4)
  · obtain ⟨m1, m2, hA, hB, hsz, hw⟩ := built_elim h
    have hcond := phaseBGo_ok_conditions _ t t m1 m2 hB e he1 u he3
    cases hf : tfind t u with
    | none => exact absurd hf hcond.1
    | some x => exact Or.inr (mem_keys_of_tfind hf)
  · exact Or.inl h1

theorem built_tgt (h : construireGraphe t = .ok G) (u v : Nat)
    (he : edgeP G u v) : v ∈ keys t ∨ v = t.length + 1 := by
  have he' : G.w u v ≠ none := by
    intro hn
    rw [edgeP, isEdge, hn] at he
    exact Bool.noConfusion he
  rcases built_w_cases h u v he' with ⟨-, -, h3, -⟩ | ⟨⟨e, he1, he2, -⟩, -⟩ | ⟨-, ⟨e, he1, he2⟩, -⟩
  · exact Or.inr h3
  · exact Or.inl (he2 ▸ List.mem_map.mpr ⟨e, he1, rfl⟩)
  · exact Or.inl (he2.1 ▸ List.mem_map.mpr ⟨e, he1, rfl⟩)

end BuiltFacts

end Ordo

namespace Ordo

/-- The size of a successfully built graph. -/
theorem hsz_of {t : TaskTable} {G : Graph} (h : construireGraphe t = .ok G) :
    G.size = t.length + 2 := by
  obtain ⟨m1, m2, hA, hB, hsz, hw⟩ := built_elim h
  exact hsz

section BuiltFacts2

variable {t : TaskTable} {G : Graph}

theorem tfind_entry {p : Nat} {x : Int × List Nat} (h : tfind t p = some x) :
    ∃ ep ∈ t, ep.1 = p ∧ ep.2 = x := by
  unfold tfind at h
  cases hf : t.find? (fun e => e.1 == p) with
  | none => rw [hf] at h; exact Option.noConfusion h
  | some f =>
    rw [hf] at h
    injection h with h
    exact ⟨f, List.mem_of_find?_eq_some hf, by simpa using List.find?_some hf, h⟩

/-- Phase 2 and 3 never erase an arc. -/
theorem built_w_mono (h : construireGraphe t = .ok G) (u v : Nat) :
    ∀ m1 m2, phaseA (t.length + 2) t (fun _ _ => none) = .ok m1 →
      phaseB (t.length + 2) t m1 = .ok m2 →
      G.w = phaseC (t.length + 2) (t.length + 1) t m2 →
      m2 u v ≠ none → G.w u v ≠ none := by
  intro m1 m2 hA hB hw hm2
  rw [hw, phaseC_spec]
  split
  · rename_i hc
    intro hn
    rw [Option.map_eq_none'] at hn
    rw [hn] at hc
    exact Bool.noConfusion hc.2.2.2.2
  · exact hm2

theorem built_pred_edge (h : construireGraphe t = .ok G) :
    ∀ e ∈ t, ∀ p ∈ e.2.2, edgeP G p e.1 := by
  obtain ⟨m1, m2, hA, hB, hsz, hw⟩ := built_elim h
  intro e he p hp
  have hcond := phaseBGo_ok_conditions _ t t m1 m2 hB e he p hp
  have hm2 : m2 p e.1 ≠ none := by
    rw [phaseBGo_spec _ t t m1 m2 hB, if_pos ⟨e, he, rfl, hp⟩]
    intro hn
    rw [Option.map_eq_none'] at hn
    exact hcond.1 hn
  have := built_w_mono h p e.1 m1 m2 hA hB hw hm2
  rw [edgeP, isEdge, Option.isSome_iff_ne_none]
  exact this

theorem built_alpha_edge (h : construireGraphe t = .ok G) :
    ∀ e ∈ t, e.2.2 = [] → edgeP G 0 e.1 := by
  obtain ⟨m1, m2, hA, hB, hsz, hw⟩ := built_elim h
  intro e he hp
  have hm2 : m2 0 e.1 ≠ none := by
    rw [phaseBGo_spec _ t t m1 m2 hB]
    split
    · rename_i hc
      obtain ⟨e', he', -, hp'⟩ := hc
      have hcond := phaseBGo_ok_conditions _ t t m1 m2 hB e' he' 0 hp'
      intro hn
      rw [Option.map_eq_none'] at hn
      exact hcond.1 hn
    · rw [phaseA_spec _ t _ m1 hA, if_pos ⟨rfl, e, he, rfl, hp⟩]
      simp
  have := built_w_mono h 0 e.1 m1 m2 hA hB hw hm2
  rw [edgeP, isEdge, Option.isSome_iff_ne_none]
  exact this

theorem built_task_in_edge (h : construireGraphe t = .ok G) :
    ∀ e ∈ t, ∃ u, edgeP G u e.1 := by
  intro e he
  cases hp : e.2.2 with
  | nil => exact ⟨0, built_alpha_edge h e he hp⟩
  | cons p ps =>
    exact ⟨p, built_pred_edge h e he p (by rw [hp]; exact List.mem_cons_self p ps)⟩

theorem built_task_out_edge (h : construireGraphe t = .ok G) :
    ∀ e ∈ t, e.1 ≠ t.length + 1 → ∃ v, edgeP G e.1 v := by
  obtain ⟨m1, m2, hA, hB, hsz, hw⟩ := built_elim h
  intro e he hne
  by_cases hrow : ∀ j ∈ List.range (t.length + 2), m2 e.1 j = none
  · refine ⟨t.length + 1, ?_⟩
    rw [edgeP, isEdge, Option.isSome_iff_ne_none, hw, phaseC_spec,
      if_pos ⟨built_id_lt h e he, hne, hrow, rfl, tfind_of_mem he⟩]
    intro hn
    rw [Option.map_eq_none'] at hn
    have := tfind_of_mem he
    rw [hn] at this
    exact Bool.noConfusion this
  · push_neg at hrow
    obtain ⟨j, hj, hj2⟩ := hrow
    refine ⟨j, ?_⟩
    rw [edgeP, isEdge, Option.isSome_iff_ne_none]
    exact built_w_mono h e.1 j m1 m2 hA hB hw hj2

/-- Every task vertex is reachable from α in an acyclic built graph. -/
theorem built_task_reachable (h : construireGraphe t = .ok G) (hac : AcyclicG G) :
    ∀ e ∈ t, Reach (edgeP G) 0 e.1 := by
  have hG := built_edge_lt h
  have key : ∀ n, ∀ e ∈ t,
      (∀ a (l : List Nat), WalkFrom (edgeP G) a e.1 l → l.length ≤ n) →
      Reach (edgeP G) 0 e.1 := by
    intro n
    induction n with
    | zero =>
      intro e he hb
      have := hb e.1 [e.1] (walkFrom_singleton e.1)
      simp at this
    | succ n ih =>
      intro e he hb
      cases hp : e.2.2 with
      | nil => exact ⟨[0, e.1], walkFrom_pair (built_alpha_edge h e he hp)⟩
      | cons p ps =>
        have hpe : edgeP G p e.1 :=
          built_pred_edge h e he p (by rw [hp]; exact List.mem_cons_self p ps)
        obtain ⟨m1, m2, hA, hB, hsz, hw⟩ := built_elim h
        have hcond := phaseBGo_ok_conditions _ t t m1 m2 hB e he p
          (by rw [hp]; exact List.mem_cons_self p ps)
        cases hf : tfind t p with
        | none => exact absurd hf hcond.1
        | some x =>
          obtain ⟨ep, hep, hep1, -⟩ := tfind_entry hf
          have hbnd : ∀ a (l : List Nat), WalkFrom (edgeP G) a ep.1 l → l.length ≤ n := by
            intro a l hwk
            have := hb a (l ++ [e.1]) (walkFrom_snoc (hep1 ▸ hwk) hpe)
            rw [List.length_append, List.length_singleton] at this
            omega
          obtain ⟨l, hl⟩ := ih ep hep hbnd
          refine ⟨l ++ [e.1], walkFrom_snoc ?_ hpe⟩
          rw [← hep1]
          exact hl
  intro e he
  refine key G.size e he ?_
  intro a l hwk
  exact walk_len_le_size hG hac (by rw [hsz_of h]; exact built_id_lt h e he) hwk

end BuiltFacts2

end Ordo

namespace Ordo

theorem walkFrom_single_elim {r : Nat → Nat → Prop} {a b x : Nat}
    (h : WalkFrom r a b [x]) : x = a ∧ a = b := by
  obtain ⟨h1, h2, -⟩ := h
  have hx : x = a := by simpa using h1
  subst hx
  exact ⟨rfl, by simpa using h2⟩

theorem walkFrom_cons_cons_elim {r : Nat → Nat → Prop} {a b x y : Nat} {l : List Nat}
    (h : WalkFrom r a b (x :: y :: l)) :
    x = a ∧ r a y ∧ WalkFrom r y b (y :: l) := by
  obtain ⟨h1, h2, h3⟩ := h
  have hx : x = a := by simpa using h1
  subst hx
  refine ⟨rfl, (List.chain'_cons.mp h3).1, rfl, ?_, (List.chain'_cons.mp h3).2⟩
  rw [← h2, List.getLast?_cons_cons]

section RankChains

variable {G : Graph}

theorem rank_chain (hG : EdgesBounded G) (hac : AcyclicG G) :
    ∀ (l : List Nat) (a b : Nat), WalkFrom (edgeP G) a b l →
      rangArray G a + ((l.length : Int) - 1) ≤ rangArray G b
  | [], _, _, hw => absurd rfl hw.ne_nil
  | [x], a, b, hw => by
    obtain ⟨hx, hab⟩ := walkFrom_single_elim hw
    subst hab
    simp
  | x :: y :: l, a, b, hw => by
    obtain ⟨hx, hxy, hw'⟩ := walkFrom_cons_cons_elim hw
    have h1 := rank_post_all hG hac a y (hG a y hxy).1 hxy
    have h2 := rank_chain hG hac (y :: l) y b hw'
    simp only [List.length_cons] at h2 ⊢
    push_cast at h2 ⊢
    omega

theorem rank_ach_chain (hG : EdgesBounded G) :
    ∀ (n : Nat) (v : Nat), v < G.size → (rangArray G v).toNat ≤ n →
      ∃ z l, WalkFrom (edgeP G) z v l ∧ rangArray G z = 0 ∧
        (l.length : Int) - 1 = rangArray G v := by
  intro n
  induction n with
  | zero =>
    intro v hv hb
    rcases rank_ach_all hG v with h0 | ⟨u, hu, hue, heq⟩
    · exact ⟨v, [v], walkFrom_singleton v, h0, by simp [h0]⟩
    · exfalso
      have := rank_nonneg (G := G) u
      omega
  | succ n ih =>
    intro v hv hb
    rcases rank_ach_all hG v with h0 | ⟨u, hu, hue, heq⟩
    · exact ⟨v, [v], walkFrom_singleton v, h0, by simp [h0]⟩
    · have hnn := rank_nonneg (G := G) u
      obtain ⟨z, l, hwz, hz0, hlen⟩ := ih u hu (by omega)
      refine ⟨z, l ++ [v], walkFrom_snoc hwz hue, hz0, ?_⟩
      rw [List.length_append, List.length_singleton]
      push_cast
      omega

end RankChains

section BuiltRanks

variable {t : TaskTable} {G : Graph}

/-- No arc enters α in an acyclic built graph. -/
theorem built_no_edge_into_alpha (hok : construireGraphe t = .ok G)
    (hac : AcyclicG G) : ∀ u, ¬ edgeP G u 0 := by
  intro u hu
  rcases built_tgt hok u 0 hu with h0 | h0
  · obtain ⟨e, he, he0⟩ := List.mem_map.mp h0
    cases hp : e.2.2 with
    | nil =>
      have hself : edgeP G 0 0 := by
        have := built_alpha_edge hok e he hp
        rw [he0] at this
        exact this
      exact hac ⟨0, [0, 0], walkFrom_pair hself, by simp⟩
    | cons p ps =>
      have hpe : edgeP G p 0 := by
        have := built_pred_edge hok e he p (by rw [hp]; exact List.mem_cons_self p ps)
        rw [he0] at this
        exact this
      obtain ⟨m1, m2, hA, hB, hsz, hw⟩ := built_elim hok
      have hcond := phaseBGo_ok_conditions _ t t m1 m2 hB e he p
        (by rw [hp]; exact List.mem_cons_self p ps)
      cases hf : tfind t p with
      | none => exact absurd hf hcond.1
      | some x =>
        obtain ⟨ep, hep, hep1, -⟩ := tfind_entry hf
        obtain ⟨l, hl⟩ := built_task_reachable hok hac ep hep
        rw [hep1] at hl
        have hcyc : WalkFrom (edgeP G) 0 0 (l ++ [0]) := walkFrom_snoc hl hpe
        refine hac ⟨0, l ++ [0], hcyc, ?_⟩
        have := hl.ne_nil
        rw [List.length_append, List.length_singleton]
        cases l with
        | nil => exact absurd rfl this
        | cons a l' => simp
  · omega

end BuiltRanks

end Ordo

namespace Claims

open Ordo

/-- C6: on every acyclic built graph, the rank array of `calculer_rangs`
satisfies: rank 0 for vertices without incoming arcs and
`1 + max (rank of predecessors)` for the others; strict monotonicity along
every arc; `rank α = 0`; and `rank ω` is the length in arcs of the longest
path from α to ω (0 when no such path exists). -/
theorem c6_rank_properties (t : TaskTable) (G : Graph)
    (hok : construireGraphe t = .ok G) (hac : AcyclicG G) :
    (∀ v, (∀ u, ¬ edgeP G u v) → rangArray G v = 0) ∧
    (∀ v, (∃ u, edgeP G u v) →
      (∀ u, edgeP G u v → rangArray G u + 1 ≤ rangArray G v) ∧
      (∃ u, edgeP G u v ∧ rangArray G v = rangArray G u + 1)) ∧
    (∀ u v, edgeP G u v → rangArray G u < rangArray G v) ∧
    rangArray G 0 = 0 ∧
    ((∀ l, WalkFrom (edgeP G) 0 (omegaOf G) l →
        (l.length : Int) - 1 ≤ rangArray G (omegaOf G)) ∧
     (rangArray G (omegaOf G) = 0 ∨
      ∃ l, WalkFrom (edgeP G) 0 (omegaOf G) l ∧
        (l.length : Int) - 1 = rangArray G (omegaOf G))) := by
  have hG := built_edge_lt hok
  have hsrc0 : ∀ v, (∀ u, ¬ edgeP G u v) → rangArray G v = 0 := by
    intro v hv
    rcases rank_ach_all hG v with h0 | ⟨u, -, hue, -⟩
    · exact h0
    · exact absurd hue (hv u)
  refine ⟨hsrc0, ?_, ?_, ?_, ?_, ?_⟩
  · -- rank v = 1 + max of predecessor ranks
    intro v ⟨u0, hu0⟩
    refine ⟨fun u hu => rank_post_all hG hac u v (hG u v hu).1 hu, ?_⟩
    rcases rank_ach_all hG v with h0 | ⟨u, -, hue, heq⟩
    · exfalso
      have h1 := rank_post_all hG hac u0 v (hG u0 v hu0).1 hu0
      have h2 := rank_nonneg (G := G) u0
      omega
    · exact ⟨u, hue, heq⟩
  · -- strict monotonicity
    intro u v hu
    have := rank_post_all hG hac u v (hG u v hu).1 hu
    omega
  · -- rank of alpha
    exact hsrc0 0 (built_no_edge_into_alpha hok hac)
  · -- upper bound along any path
    intro l hl
    have := rank_chain hG hac l 0 (omegaOf G) hl
    have h0 : rangArray G 0 = 0 := hsrc0 0 (built_no_edge_into_alpha hok hac)
    omega
  · -- attainment
    by_cases hsz : omegaOf G < G.size
    · obtain ⟨z, l, hw, hz0, hlen⟩ :=
        rank_ach_chain hG (rangArray G (omegaOf G)).toNat (omegaOf G) hsz (le_refl _)
      match l, hw with
      | [x], hw =>
        obtain ⟨hx, hzo⟩ := walkFrom_single_elim hw
        refine Or.inl ?_
        rw [← hzo]
        exact hz0
      | x :: y :: l', hw =>
        obtain ⟨hx, hzy, hw'⟩ := walkFrom_cons_cons_elim hw
        rcases built_src hok z y hzy with rfl | hz
        · exact Or.inr ⟨x :: y :: l', by rw [← hx] at hw ⊢; exact hw, hlen⟩
        · exfalso
          obtain ⟨e, he, hek⟩ := List.mem_map.mp hz
          obtain ⟨u, hu⟩ := built_task_in_edge hok e he
          rw [hek] at hu
          have h1 := rank_post_all hG hac u z (hG u z hu).1 hu
          have h2 := rank_nonneg (G := G) u
          omega
    · -- degenerate size-0 graph: no vertices at all (cannot happen when built)
      exfalso
      have := hsz_of hok
      unfold omegaOf at hsz
      omega

end Claims

namespace Ordo

section WeightWalks

variable {G : Graph}

theorem wval_nonneg (hw : ∀ u v x, G.w u v = some x → 0 ≤ x) (u v : Nat) :
    0 ≤ wval G u v := by
  unfold wval
  cases h : G.w u v with
  | none => exact le_refl 0
  | some x => exact hw u v x h

theorem walkW_nonneg (hw : ∀ u v x, G.w u v = some x → 0 ≤ x) :
    ∀ l : List Nat, 0 ≤ walkW G l
  | [] => le_refl 0
  | [_] => le_refl 0
  | u :: v :: l => by
    have h1 := wval_nonneg hw u v
    have h2 := walkW_nonneg hw (v :: l)
    show 0 ≤ wval G u v + walkW G (v :: l)
    omega

theorem walkW_snoc {r : Nat → Nat → Prop} :
    ∀ (l : List Nat) (a b y : Nat), WalkFrom r a b l →
      walkW G (l ++ [y]) = walkW G l + wval G b y
  | [], _, _, _, hw => absurd rfl hw.ne_nil
  | [x], a, b, y, hw => by
    obtain ⟨hx, hab⟩ := walkFrom_single_elim hw
    have hxb : x = b := hx.trans hab
    show wval G x y + 0 = 0 + wval G b y
    rw [hxb]
    omega
  | x :: z :: l, a, b, y, hw => by
    obtain ⟨hx, -, hw'⟩ := walkFrom_cons_cons_elim hw
    show wval G x z + walkW G ((z :: l) ++ [y]) =
      wval G x z + walkW G (z :: l) + wval G b y
    rw [walkW_snoc (z :: l) z b y hw']
    omega

/-- Concatenation of walks, with the total weight. -/
theorem walkFrom_append_weight {r : Nat → Nat → Prop} :
    ∀ (l2 : List Nat) (b c : Nat), WalkFrom r b c l2 →
      ∀ (a : Nat) (l1 : List Nat), WalkFrom r a b l1 →
        WalkFrom r a c (l1 ++ l2.tail) ∧
          walkW G (l1 ++ l2.tail) = walkW G l1 + walkW G l2
  | [], _, _, hw, _, _, _ => absurd rfl hw.ne_nil
  | [x], b, c, hw, a, l1, hw1 => by
    obtain ⟨hx, hbc⟩ := walkFrom_single_elim hw
    constructor
    · rw [show ([x] : List Nat).tail = [] from rfl, List.append_nil, ← hbc]
      exact hw1
    · rw [show ([x] : List Nat).tail = [] from rfl, List.append_nil]
      show walkW G l1 = walkW G l1 + 0
      omega
  | x :: y :: l2, b, c, hw, a, l1, hw1 => by
    obtain ⟨hx, hxy, hw'⟩ := walkFrom_cons_cons_elim hw
    have hsn : WalkFrom r a y (l1 ++ [y]) := walkFrom_snoc hw1 hxy
    obtain ⟨hwk, hwt⟩ := walkFrom_append_weight (y :: l2) y c hw' a (l1 ++ [y]) hsn
    have hws := walkW_snoc (G := G) (r := r) l1 a b y hw1
    have heq : l1 ++ [y] ++ (y :: l2).tail = l1 ++ (x :: y :: l2).tail := by simp
    constructor
    · rw [← heq]
      exact hwk
    · rw [heq] at hwt
      rw [hwt, hws]
      have hxy2 : walkW G (x :: y :: l2) = wval G x y + walkW G (y :: l2) := rfl
      rw [hxy2, hx]
      omega

theorem chain_mem_lt_head (hG : EdgesBounded G) :
    ∀ l : List Nat, l.Chain' (edgeP G) →
      (∀ x ∈ l.head?, x < G.size) → ∀ x ∈ l, x < G.size
  | [], _, _, x, hx => absurd hx (List.not_mem_nil x)
  | [a], _, hhead, x, hx => by
    rcases List.mem_singleton.mp hx with rfl
    exact hhead _ rfl
  | a :: b :: l, hc, hhead, x, hx => by
    rcases List.mem_cons.mp hx with rfl | hx'
    · exact hhead _ rfl
    · refine chain_mem_lt_head hG (b :: l) (List.chain'_cons.mp hc).2 ?_ x hx'
      intro y hy
      rcases (by simpa using hy : b = y) with rfl
      exact (hG a b (List.chain'_cons.mp hc).1).2

theorem walk_from_len_le_size (hG : EdgesBounded G) (hac : AcyclicG G)
    {a b : Nat} {l : List Nat} (ha : a < G.size) (hw : WalkFrom (edgeP G) a b l) :
    l.length ≤ G.size := by
  have hmem : ∀ x ∈ l, x < G.size := by
    refine chain_mem_lt_head hG l hw.2.2 ?_
    intro x hx
    rw [hw.1] at hx
    cases hx
    exact ha
  have hnd : l.Nodup := by
    by_contra hnd
    exact hac (cycle_of_chain_dup l hw.2.2 hnd)
  calc l.length = l.toFinset.card := (List.toFinset_card_of_nodup hnd).symm
    _ ≤ (Finset.range G.size).card := Finset.card_le_card (fun x hx =>
        Finset.mem_range.mpr (hmem x (List.mem_toFinset.mp hx)))
    _ = G.size := Finset.card_range G.size

/-- Chaining the earliest-date post-condition along a walk. -/
theorem early_chain (hG : EdgesBounded G) (hac : AcyclicG G) :
    ∀ (l : List Nat) (a b : Nat), WalkFrom (edgeP G) a b l →
      earlyArray G a + walkW G l ≤ earlyArray G b
  | [], _, _, hw => absurd rfl hw.ne_nil
  | [x], a, b, hw => by
    obtain ⟨hx, hab⟩ := walkFrom_single_elim hw
    subst hab
    show earlyArray G a + 0 ≤ earlyArray G a
    omega
  | x :: y :: l, a, b, hw => by
    obtain ⟨hx, hxy, hw'⟩ := walkFrom_cons_cons_elim hw
    subst hx
    have h1 := early_post_all hG hac x y (hG x y hxy).1 hxy
    have h2 := early_chain hG hac (y :: l) y b hw'
    show earlyArray G x + (wval G x y + walkW G (y :: l)) ≤ earlyArray G b
    omega

/-- The earliest date is realised by a walk from a vertex still at its initial
date 0. -/
theorem early_ach_chain (hG : EdgesBounded G) (hac : AcyclicG G) :
    ∀ v, v < G.size →
      ∃ z l, WalkFrom (edgeP G) z v l ∧ earlyArray G z = 0 ∧
        walkW G l = earlyArray G v := by
  have key : ∀ n v, v < G.size →
      (∀ a (l : List Nat), WalkFrom (edgeP G) a v l → l.length ≤ n) →
      ∃ z l, WalkFrom (edgeP G) z v l ∧ earlyArray G z = 0 ∧
        walkW G l = earlyArray G v := by
    intro n
    induction n with
    | zero =>
      intro v hv hb
      have := hb v [v] (walkFrom_singleton v)
      simp at this
    | succ n ih =>
      intro v hv hb
      rcases early_ach_all hG v with h0 | ⟨u, hu, hue, heq⟩
      · refine ⟨v, [v], walkFrom_singleton v, h0, ?_⟩
        rw [h0]
        rfl
      · obtain ⟨z, l, hwz, hz0, hlen⟩ := ih u hu (fun a l hwk => by
          have := hb a (l ++ [v]) (walkFrom_snoc hwk hue)
          rw [List.length_append, List.length_singleton] at this
          omega)
        refine ⟨z, l ++ [v], walkFrom_snoc hwz hue, hz0, ?_⟩
        rw [walkW_snoc l z u v hwz, hlen, heq]
  intro v hv
  exact key G.size v hv (fun a l hw => walk_len_le_size hG hac hv hw)

end WeightWalks

end Ordo

/-! ## The latest dates as walk minima -/

namespace Ordo

section RevWalks

variable {G : Graph}

theorem walkFrom_reverse {r : Nat → Nat → Prop} {a b : Nat} {l : List Nat}
    (h : WalkFrom r a b l) : WalkFrom (fun x y => r y x) b a l.reverse := by
  obtain ⟨h1, h2, h3⟩ := h
  refine ⟨?_, ?_, ?_⟩
  · rw [List.head?_reverse]
    exact h2
  · rw [List.getLast?_reverse]
    exact h1
  · exact List.chain'_reverse.mpr h3

theorem edgesBounded_rev (hG : EdgesBounded G) : EdgesBounded (rev G) := by
  intro u v he
  have := hG v u (edgeP_rev.mp he)
  exact ⟨this.2, this.1⟩

theorem acyclicG_rev (hac : AcyclicG G) : AcyclicG (rev G) := by
  rintro ⟨v, l, hw, hlen⟩
  refine hac ⟨v, l.reverse, ?_, by rw [List.length_reverse]; exact hlen⟩
  exact walkFrom_reverse (r := fun x y => edgeP G y x) hw

end RevWalks

section FixedValues

variable {β : Type} {G : Graph} {relax : (Nat → β) → Nat → Nat → Nat → β}

/-- A property of the value array preserved by relaxations along actual arcs
survives the run. -/
theorem kahn_val_pred_edge (hG : EdgesBounded G) (P : (Nat → β) → Prop)
    (HP : ∀ (val : Nat → β) (u v : Nat), edgeP G u v → P val → P (relax val u v))
    (v0 : Nat → β) (h0 : P v0) : P (kahn G relax v0).val := by
  have hloop : ∀ (L : List Nat) (u0 : Nat) (val : Nat → β),
      (∀ v ∈ L, edgeP G u0 v) → P val →
      P (L.foldl (fun val v => relax val u0 v) val) := by
    intro L
    induction L with
    | nil => intro _ _ _ h; exact h
    | cons y L ih =>
      intro u0 val hE h
      rw [List.foldl_cons]
      exact ih u0 _ (fun v hv => hE v (List.mem_cons_of_mem _ hv))
        (HP val u0 y (hE y (List.mem_cons_self y L)) h)
  have hrun : ∀ (fuel : Nat) (s : KSt β), P s.val → P (runK G relax fuel s).val := by
    intro fuel
    induction fuel with
    | zero => intro _ h; exact h
    | succ fuel ih =>
      intro s h
      refine ih _ ?_
      unfold loopStep
      cases s.queue with
      | nil => exact h
      | cons u0 q =>
        rw [popStep_val]
        exact hloop _ u0 _ (fun v hv => (mem_adjL hG).mp hv) h
  exact hrun G.size _ h0

/-- A vertex with no incoming arc keeps its initial value through the run. -/
theorem kahn_val_fixed (hG : EdgesBounded G) (Hoff : OffTarget relax)
    (v0 : Nat → β) (x : Nat) (hnoin : ∀ u, ¬ edgeP G u x) :
    (kahn G relax v0).val x = v0 x := by
  refine kahn_val_pred_edge hG (fun val => val x = v0 x) ?_ v0 rfl
  intro val u v he hval
  have hxv : x ≠ v := by
    intro h
    exact hnoin u (h ▸ he)
  rw [Hoff val u v x hxv]
  exact hval

end FixedValues

end Ordo

namespace Ordo

section LateWalks

variable {t : TaskTable} {G : Graph}

/-- When the task ids are exactly `1..n`, the ω vertex has no outgoing arc. -/
theorem built_omega_no_out (hok : construireGraphe t = .ok G)
    (hids : ∀ id, id ∈ keys t → 1 ≤ id ∧ id ≤ t.length) :
    ∀ v, ¬ edgeP G (t.length + 1) v := by
  intro v he
  rcases built_src hok _ v he with h0 | hk
  · omega
  · have := hids _ hk
    omega

/-- The latest date of ω is pinned at the total duration. -/
theorem late_omega_fixed (hok : construireGraphe t = .ok G)
    (hids : ∀ id, id ∈ keys t → 1 ≤ id ∧ id ≤ t.length) :
    lateArray G (omegaOf G) = .fin (totalDuration G) := by
  have hG := built_edge_lt hok
  have hsz := hsz_of hok
  have hω : omegaOf G = t.length + 1 := by
    rw [omegaOf, hsz]
    omega
  have hnoin : ∀ u, ¬ edgeP (rev G) u (omegaOf G) := by
    intro u he
    rw [hω] at he
    exact built_omega_no_out hok hids u (edgeP_rev.mp he)
  have h : lateArray G (omegaOf G) =
      updF (fun _ => LateVal.inf) (omegaOf G) (.fin (totalDuration G)) (omegaOf G) :=
    kahn_val_fixed (edgesBounded_rev hG) relaxLate_off
      (updF (fun _ => .inf) (omegaOf G) (.fin (totalDuration G))) (omegaOf G) hnoin
  rw [h]
  simp [updF]

/-- The earliest date of α is pinned at 0 on an acyclic built graph. -/
theorem early_alpha_zero (hok : construireGraphe t = .ok G) (hac : AcyclicG G) :
    earlyArray G 0 = 0 := by
  exact kahn_val_fixed (built_edge_lt hok) relaxEarly_off (fun _ => 0) 0
    (built_no_edge_into_alpha hok hac)

end LateWalks

end Ordo

namespace Ordo

section LateWalks2

variable {G : Graph}

/-- Chaining the latest-date post-condition along a walk into ω: every vertex
with a walk to ω gets a finite latest date bounded by the total duration minus
the walk's weight. -/
theorem late_walk_bound (hG : EdgesBounded G) (hac : AcyclicG G)
    (hfix : lateArray G (omegaOf G) = .fin (totalDuration G)) :
    ∀ (l : List Nat) (v : Nat), WalkFrom (edgeP G) v (omegaOf G) l →
      ∃ z, lateArray G v = .fin z ∧ z ≤ totalDuration G - walkW G l
  | [], _, hw => absurd rfl hw.ne_nil
  | [x], v, hw => by
    obtain ⟨hx, hvω⟩ := walkFrom_single_elim hw
    refine ⟨totalDuration G, ?_, ?_⟩
    · rw [hvω]
      exact hfix
    · show totalDuration G ≤ totalDuration G - 0
      omega
  | x :: y :: l, v, hw => by
    obtain ⟨hx, hxy, hw'⟩ := walkFrom_cons_cons_elim hw
    obtain ⟨z', hz', hb'⟩ := late_walk_bound hG hac hfix (y :: l) y hw'
    have hy : y < G.size := (hG v y hxy).2
    have hpost := late_post_all (edgesBounded_rev hG) (acyclicG_rev hac)
      (updF (fun _ => .inf) (omegaOf G) (.fin (totalDuration G))) y v hy
      (edgeP_rev.mpr hxy)
    rw [show (kahn (rev G) (relaxLate (rev G))
        (updF (fun _ => .inf) (omegaOf G) (.fin (totalDuration G)))).val =
      lateArray G from rfl] at hpost
    rw [hz'] at hpost
    have hwrev : wval (rev G) y v = wval G v y := rfl
    rw [hwrev] at hpost
    cases hve : lateArray G v with
    | inf =>
      rw [hve] at hpost
      exact Bool.noConfusion hpost
    | fin z =>
      rw [hve] at hpost
      have hzz : ¬ (z' - wval G v y < z) := by
        intro hcon
        rw [show (LateVal.fin z').sub (wval G v y) = .fin (z' - wval G v y) from rfl,
          show (LateVal.fin (z' - wval G v y)).lt (.fin z) = decide (z' - wval G v y < z)
            from rfl, decide_eq_true hcon] at hpost
        exact Bool.noConfusion hpost
      refine ⟨z, rfl, ?_⟩
      have hwweq : walkW G (x :: y :: l) = wval G x y + walkW G (y :: l) := rfl
      rw [hwweq, hx]
      omega

end LateWalks2

end Ordo

namespace Ordo

section LateWalks3

variable {G : Graph}

theorem walkFrom_edge_into {r : Nat → Nat → Prop} :
    ∀ (l : List Nat) (a b : Nat), WalkFrom r a b l → 2 ≤ l.length → ∃ u, r u b
  | [], _, _, hw, _ => absurd rfl hw.ne_nil
  | [_], _, _, _, hlen => by simp at hlen
  | x :: y :: l, a, b, hw, _ => by
    obtain ⟨hx, hxy, hw2⟩ := walkFrom_cons_cons_elim hw
    cases l with
    | nil =>
      obtain ⟨-, hyb⟩ := walkFrom_single_elim hw2
      exact ⟨a, hyb ▸ hxy⟩
    | cons w l2 =>
      exact walkFrom_edge_into (y :: w :: l2) y b hw2 (by simp)

/-- Any finite latest date is realised: it equals the total duration minus the
weight of some walk from the vertex to ω. -/
theorem late_ach_walk (hG : EdgesBounded G) (hac : AcyclicG G) :
    ∀ v z, lateArray G v = .fin z →
      ∃ l, WalkFrom (edgeP G) v (omegaOf G) l ∧ z = totalDuration G - walkW G l := by
  have hGr : EdgesBounded (rev G) := edgesBounded_rev hG
  have hacr : AcyclicG (rev G) := acyclicG_rev hac
  have hach := late_ach_all hGr (updF (fun _ => .inf) (omegaOf G) (.fin (totalDuration G)))
  have key : ∀ n v z, lateArray G v = .fin z →
      (∀ a (l : List Nat), WalkFrom (edgeP (rev G)) a v l → l.length ≤ n) →
      ∃ l, WalkFrom (edgeP G) v (omegaOf G) l ∧ z = totalDuration G - walkW G l := by
    intro n
    induction n with
    | zero =>
      intro v z hz hb
      have := hb v [v] (walkFrom_singleton v)
      simp at this
    | succ n ih =>
      intro v z hz hb
      rcases hach v with h0 | ⟨u, hu, hue, heq⟩
      · rw [show (kahn (rev G) (relaxLate (rev G))
            (updF (fun _ => .inf) (omegaOf G) (.fin (totalDuration G)))).val v =
          lateArray G v from rfl] at h0
        rw [hz] at h0
        by_cases hvω : v = omegaOf G
        · rw [updF, if_pos hvω] at h0
          have hzT := LateVal.fin.inj h0
          refine ⟨[v], ?_, ?_⟩
          · rw [hvω]
            exact walkFrom_singleton _
          · show z = totalDuration G - 0
            omega
        · rw [updF, if_neg hvω] at h0
          exact absurd h0 (fun h => LateVal.noConfusion h)
      · rw [show (kahn (rev G) (relaxLate (rev G))
            (updF (fun _ => .inf) (omegaOf G) (.fin (totalDuration G)))).val =
          lateArray G from rfl] at heq
        rw [hz] at heq
        cases hu' : lateArray G u with
        | inf =>
          rw [hu'] at heq
          exact absurd heq (fun h => LateVal.noConfusion h)
        | fin z' =>
          rw [hu'] at heq
          have hzz : z = z' - wval (rev G) u v := LateVal.fin.inj heq
          obtain ⟨l, hl, hlz⟩ := ih u z' hu' (fun a l hwk => by
            have := hb a (l ++ [v]) (walkFrom_snoc hwk hue)
            rw [List.length_append, List.length_singleton] at this
            omega)
          have hvu : edgeP G v u := edgeP_rev.mp hue
          refine ⟨v :: l, walkFrom_cons hvu hl, ?_⟩
          cases l with
          | nil => exact absurd rfl hl.ne_nil
          | cons x l2 =>
            have hx : x = u := by simpa using hl.1
            rw [hx] at hlz
            rw [show walkW G (v :: x :: l2) = wval G v x + walkW G (x :: l2) from rfl, hx]
            have hwrev : wval (rev G) u v = wval G v u := rfl
            rw [hwrev] at hzz
            omega
  intro v z hz
  refine key (G.size + 1) v z hz ?_
  intro a l hwk
  by_cases hv : v < G.size
  · exact le_trans (walk_len_le_size hGr hacr hv hwk) (Nat.le_succ _)
  · by_cases h2 : 2 ≤ l.length
    · obtain ⟨u, hu⟩ := walkFrom_edge_into l a v hwk h2
      exact absurd ((hGr u v hu).2) hv
    · omega

end LateWalks3

end Ordo

namespace Ordo

section ReachOmega

variable {t : TaskTable} {G : Graph}

/-- With ids exactly `1..n`, every task vertex reaches ω in an acyclic built
graph. -/
theorem built_reach_omega (hok : construireGraphe t = .ok G) (hac : AcyclicG G)
    (hids : ∀ id, id ∈ keys t → 1 ≤ id ∧ id ≤ t.length) :
    ∀ e ∈ t, Reach (edgeP G) e.1 (t.length + 1) := by
  have hG := built_edge_lt hok
  have key : ∀ n, ∀ e ∈ t,
      (∀ b (l : List Nat), WalkFrom (edgeP G) e.1 b l → l.length ≤ n) →
      Reach (edgeP G) e.1 (t.length + 1) := by
    intro n
    induction n with
    | zero =>
      intro e he hb
      have := hb e.1 [e.1] (walkFrom_singleton e.1)
      simp at this
    | succ n ih =>
      intro e he hb
      have hne : e.1 ≠ t.length + 1 := by
        have := hids e.1 (List.mem_map.mpr ⟨e, he, rfl⟩)
        omega
      obtain ⟨v, hv⟩ := built_task_out_edge hok e he hne
      rcases built_tgt hok e.1 v hv with hk | hω
      · obtain ⟨e2, he2, he2v⟩ := List.mem_map.mp hk
        have hbnd : ∀ b (l : List Nat), WalkFrom (edgeP G) e2.1 b l → l.length ≤ n := by
          intro b l hwk
          have := hb b (e.1 :: l) (walkFrom_cons (he2v ▸ hv) (he2v ▸ hwk))
          rw [List.length_cons] at this
          omega
        obtain ⟨l, hl⟩ := ih e2 he2 hbnd
        exact ⟨e.1 :: l, walkFrom_cons (he2v ▸ hv) (he2v ▸ hl)⟩
      · exact ⟨[e.1, v], hω ▸ walkFrom_pair hv⟩
  intro e he
  refine key G.size e he ?_
  intro b l hwk
  exact walk_from_len_le_size hG hac (by rw [hsz_of hok]; exact built_id_lt hok e he) hwk

/-- There is a walk from α to ω whose weight is exactly the total duration. -/
theorem exists_crit_walk (hok : construireGraphe t = .ok G) (hne : t ≠ [])
    (hids : ∀ id, id ∈ keys t → 1 ≤ id ∧ id ≤ t.length)
    (hw : ∀ u v x, G.w u v = some x → 0 ≤ x) (hac : AcyclicG G) :
    ∃ l, WalkFrom (edgeP G) 0 (omegaOf G) l ∧
      walkW G l = totalDuration G := by
  have hG := built_edge_lt hok
  have hsz := hsz_of hok
  have hω : omegaOf G = t.length + 1 := by
    rw [omegaOf, hsz]
    omega
  have hωlt : omegaOf G < G.size := by
    rw [hω, hsz]
    omega
  have hα0 : earlyArray G 0 = 0 := early_alpha_zero hok hac
  -- every walk from α to ω weighs at most the total duration
  have hbound : ∀ l, WalkFrom (edgeP G) 0 (omegaOf G) l →
      walkW G l ≤ totalDuration G := by
    intro l hl
    have := early_chain hG hac l 0 (omegaOf G) hl
    rw [hα0] at this
    rw [totalDuration]
    omega
  obtain ⟨z0, l0, hwk, hz0, hW⟩ := early_ach_chain hG hac (omegaOf G) hωlt
  by_cases hz00 : z0 = 0
  · subst hz00
    exact ⟨l0, hwk, hW⟩
  · -- `z0` is a task vertex (or ω itself on a trivial walk): prepend a walk α→z0
    cases hl0 : l0 with
    | nil => exact absurd hl0 hwk.ne_nil
    | cons x l' =>
      cases hl' : l' with
      | nil =>
        -- trivial walk: z0 = ω and the total duration is 0
        rw [hl0, hl'] at hwk hW
        obtain ⟨hx, hzω⟩ := walkFrom_single_elim hwk
        obtain ⟨e, he⟩ := List.exists_mem_of_ne_nil t hne
        obtain ⟨l1, hl1⟩ := built_task_reachable hok hac e he
        obtain ⟨l2, hl2⟩ := built_reach_omega hok hac hids e he
        obtain ⟨hcat, hcatw⟩ := walkFrom_append_weight (G := G) l2 e.1 (t.length + 1)
          hl2 0 l1 hl1
        rw [← hω] at hcat
        refine ⟨l1 ++ l2.tail, hcat, ?_⟩
        have hb := hbound _ hcat
        have h1 := walkW_nonneg hw l1
        have h2 := walkW_nonneg hw l2
        have hT0 : totalDuration G = 0 := by
          rw [totalDuration, ← hW]
          rfl
        rw [hcatw, hT0]
        have : walkW G l1 + walkW G l2 ≤ 0 := by
          rw [← hT0]
          rw [hcatw] at hb
          exact hb
        omega
      | cons y l'' =>
        rw [hl0, hl'] at hwk
        obtain ⟨hx, hxy, -⟩ := walkFrom_cons_cons_elim hwk
        rcases built_src hok z0 y hxy with h0 | hk
        · exact absurd h0 hz00
        · obtain ⟨e, he, hez⟩ := List.mem_map.mp hk
          obtain ⟨l1, hl1⟩ := built_task_reachable hok hac e he
          rw [hez] at hl1
          rw [hl0, hl'] at hW
          obtain ⟨hcat, hcatw⟩ := walkFrom_append_weight (G := G) (x :: y :: l'') z0
            (omegaOf G) hwk 0 l1 hl1
          refine ⟨l1 ++ (x :: y :: l'').tail, hcat, ?_⟩
          have hb := hbound _ hcat
          rw [hcatw] at hb ⊢
          have h1 := walkW_nonneg hw l1
          rw [hW]
          rw [totalDuration] at *
          omega

end ReachOmega

end Ordo

namespace Ordo

/-- Non-negative durations give a matrix with no negative entry (each stored
weight is a task duration or 0). -/
theorem built_w_nonneg {t : TaskTable} {G : Graph} (hok : construireGraphe t = .ok G)
    (hd : ∀ e ∈ t, 0 ≤ e.2.1) : ∀ u v x, G.w u v = some x → 0 ≤ x := by
  intro u v x hx
  have hne : G.w u v ≠ none := by
    rw [hx]
    exact fun h => Option.noConfusion h
  have hmap : G.w u v = (tfind t u).map (·.1) → 0 ≤ x := by
    intro h5
    rw [hx] at h5
    cases hf : tfind t u with
    | none =>
      rw [hf] at h5
      exact absurd h5 (fun h => Option.noConfusion h)
    | some p =>
      rw [hf] at h5
      simp at h5
      obtain ⟨e, he, -, hep⟩ := tfind_entry hf
      have h0 : 0 ≤ e.2.1 := hd e he
      rw [hep] at h0
      omega
  rcases built_w_cases hok u v hne with ⟨-, -, -, -, h5⟩ | ⟨-, h5⟩ | ⟨-, -, h5⟩
  · exact hmap h5
  · exact hmap h5
  · rw [hx] at h5
    have := Option.some.inj h5
    omega

end Ordo

namespace Claims

open Ordo

/-- C3 (counterexample): on the empty task table (n = 0) the graph builds, yet
`margin[α]` is the `float('inf')` sentinel, not 0: the backward pass anchors
only ω, and α (unconnected to ω when there are no tasks) keeps `late = inf`.
The claim's inclusion of the n = 0 case is therefore false. -/
theorem c3_empty_table_margin_alpha :
    (construireGraphe ([] : TaskTable)).isOk = true ∧
    marginArray (builtG ([] : TaskTable)) 0 = .inf := by decide

/-- C3 (amended): for every non-empty task table with ids exactly `1..n` whose
built graph has no negative weight and no circuit, `calculer_calendriers`
satisfies the claimed bounds: `0 ≤ earliest[i]` and
`earliest[i] ≤ latest[i] ≤ duration` (all latest dates finite) for every
vertex, every margin is the finite value `latest[i] - earliest[i] ≥ 0`, and
`margin[α] = margin[ω] = 0`. -/
theorem c3_calendar_bounds (t : TaskTable) (G : Graph)
    (hok : construireGraphe t = .ok G) (hne : t ≠ [])
    (hids : ∀ id, id ∈ keys t ↔ 1 ≤ id ∧ id ≤ t.length)
    (hw : ∀ u v x, G.w u v = some x → 0 ≤ x)
    (hac : AcyclicG G) :
    (∀ i, i < G.size → 0 ≤ earlyArray G i ∧
      ∃ z, lateArray G i = .fin z ∧ earlyArray G i ≤ z ∧ z ≤ totalDuration G ∧
        marginArray G i = .fin (z - earlyArray G i)) ∧
    marginArray G 0 = .fin 0 ∧ marginArray G (omegaOf G) = .fin 0 := by
  have hG := built_edge_lt hok
  have hsz := hsz_of hok
  have hω : omegaOf G = t.length + 1 := by
    rw [omegaOf, hsz]
    omega
  have hωlt : omegaOf G < G.size := by
    rw [hω, hsz]
    omega
  have hidsf : ∀ id, id ∈ keys t → 1 ≤ id ∧ id ≤ t.length := fun id h => (hids id).mp h
  have hfix := late_omega_fixed hok hidsf
  have hα0 := early_alpha_zero hok hac
  have hbound : ∀ v l, WalkFrom (edgeP G) v (omegaOf G) l →
      earlyArray G v + walkW G l ≤ totalDuration G := by
    intro v l hl
    have := early_chain hG hac l v (omegaOf G) hl
    rw [totalDuration]
    omega
  have hwalk : ∀ i, i < G.size → ∃ l, WalkFrom (edgeP G) i (omegaOf G) l := by
    intro i hi
    by_cases hiω : i = omegaOf G
    · refine ⟨[i], ?_⟩
      rw [hiω]
      exact walkFrom_singleton _
    by_cases hi0 : i = 0
    · obtain ⟨l, hl, -⟩ := exists_crit_walk hok hne hidsf hw hac
      refine ⟨l, ?_⟩
      rw [hi0]
      exact hl
    · rw [hω] at hiω
      rw [hsz] at hi
      have hik : i ∈ keys t := (hids i).mpr (by omega)
      obtain ⟨e, he, hei⟩ := List.mem_map.mp hik
      obtain ⟨l, hl⟩ := built_reach_omega hok hac hidsf e he
      rw [hei] at hl
      refine ⟨l, ?_⟩
      rw [hω]
      exact hl
  refine ⟨?_, ?_, ?_⟩
  · intro i hi
    refine ⟨early_nonneg i, ?_⟩
    obtain ⟨l, hl⟩ := hwalk i hi
    obtain ⟨z, hz, hzb⟩ := late_walk_bound hG hac hfix l i hl
    obtain ⟨l1, hl1, hz1⟩ := late_ach_walk hG hac i z hz
    have hb1 := hbound i l1 hl1
    have hnn := walkW_nonneg hw l1
    have hnn0 := early_nonneg (G := G) i
    refine ⟨z, hz, by omega, by omega, ?_⟩
    show (lateArray G i).sub (earlyArray G i) = .fin (z - earlyArray G i)
    rw [hz]
    rfl
  · obtain ⟨lc, hlc, hlcw⟩ := exists_crit_walk hok hne hidsf hw hac
    obtain ⟨z, hz, hzb⟩ := late_walk_bound hG hac hfix lc 0 hlc
    rw [hlcw] at hzb
    obtain ⟨l1, hl1, hz1⟩ := late_ach_walk hG hac 0 z hz
    have hb1 := hbound 0 l1 hl1
    rw [hα0] at hb1
    have hz0 : z = 0 := by omega
    show (lateArray G 0).sub (earlyArray G 0) = .fin 0
    rw [hz, hα0, hz0]
    decide
  · show (lateArray G (omegaOf G)).sub (earlyArray G (omegaOf G)) = .fin 0
    rw [hfix]
    show LateVal.fin (totalDuration G - earlyArray G (omegaOf G)) = .fin 0
    rw [show totalDuration G = earlyArray G (omegaOf G) from rfl]
    rw [sub_self]

/-- C3 (witness): the amended bounds hold on the nominal four-task scenario. -/
theorem c3_calendar_bounds_witness :
    marginArray (builtG exTasks) 0 = .fin 0 ∧
    marginArray (builtG exTasks) (omegaOf (builtG exTasks)) = .fin 0 :=
  (c3_calendar_bounds exTasks (builtG exTasks)
    (rfl : construireGraphe exTasks = .ok (builtG exTasks))
    (by decide)
    (by intro id; simp [keys, exTasks]; omega)
    (built_w_nonneg (rfl : construireGraphe exTasks = .ok (builtG exTasks))
      (by decide))
    ((@kahn_order_length Int (builtG exTasks) relaxRank
      (built_edge_lt (rfl : construireGraphe exTasks = .ok (builtG exTasks)))
      (fun _ => 0)).mp (by decide))).2

/-- C6 (witness): the rank properties hold on the nominal four-task scenario,
in particular `rank[α] = 0`. -/
theorem c6_rank_properties_witness :
    rangArray (builtG exTasks) 0 = 0 :=
  (c6_rank_properties exTasks (builtG exTasks)
    (rfl : construireGraphe exTasks = .ok (builtG exTasks))
    ((@kahn_order_length Int (builtG exTasks) relaxRank
      (built_edge_lt (rfl : construireGraphe exTasks = .ok (builtG exTasks)))
      (fun _ => 0)).mp (by decide))).2.2.2.1

end Claims

/-! ## Completeness of the circuit-detection DFS -/

namespace Ordo

section DfsComplete

variable {G : Graph}

/-- A popped ("black") vertex: visited and no longer on the recursion stack. -/
def FinV (s : DfsSt) (x : Nat) : Prop := s.visited x = true ∧ s.onStack x = false

/-- The DFS invariant: on-stack vertices are visited, and the popped set is
closed under successors. -/
def DfsInv (G : Graph) (s : DfsSt) : Prop :=
  (∀ x, s.onStack x = true → s.visited x = true) ∧
  (∀ x, FinV s x → ∀ y, edgeP G x y → FinV s y)

/-- A vertex lying on a circuit. -/
def OnCycle (G : Graph) (x : Nat) : Prop :=
  ∃ l, WalkFrom (edgeP G) x x l ∧ 2 ≤ l.length

/-- Number of unvisited vertices (the fuel measure of the recursion). -/
def UV (G : Graph) (s : DfsSt) : Nat :=
  (List.range G.size).countP (fun x => !s.visited x)

theorem bool_true_of_not_false {b : Bool} (h : ¬ b = false) : b = true := by
  cases b
  · exact absurd rfl h
  · rfl

theorem fin_chain {s : DfsSt} (hinv : DfsInv G s) :
    ∀ (l : List Nat) (a b : Nat), WalkFrom (edgeP G) a b l → FinV s a → FinV s b
  | [], _, _, hw, _ => absurd rfl hw.ne_nil
  | [_], a, b, hw, hfa => by
    obtain ⟨-, hab⟩ := walkFrom_single_elim hw
    rw [← hab]
    exact hfa
  | _ :: y :: l, a, b, hw, hfa => by
    obtain ⟨-, hxy, hw2⟩ := walkFrom_cons_cons_elim hw
    exact fin_chain hinv (y :: l) y b hw2 (hinv.2 a hfa y hxy)

theorem countP_le_of_imp {l : List Nat} {p q : Nat → Bool}
    (h : ∀ x ∈ l, q x = true → p x = true) : l.countP q ≤ l.countP p := by
  induction l with
  | nil => exact Nat.le_refl _
  | cons a l ih =>
    rw [List.countP_cons, List.countP_cons]
    have hm := ih (fun x hx => h x (List.mem_cons_of_mem a hx))
    by_cases hqa : q a = true
    · rw [if_pos hqa, if_pos (h a (List.mem_cons_self a l) hqa)]
      omega
    · rw [if_neg hqa]
      split <;> omega

theorem countP_lt_of_flip {l : List Nat} {p q : Nat → Bool}
    (h : ∀ x ∈ l, q x = true → p x = true) {u : Nat} (hu : u ∈ l)
    (hpu : p u = true) (hqu : q u = false) :
    l.countP q < l.countP p := by
  induction l with
  | nil => exact absurd hu (List.not_mem_nil u)
  | cons a l ih =>
    rw [List.countP_cons, List.countP_cons]
    rcases List.mem_cons.mp hu with rfl | hu2
    · rw [if_pos hpu, if_neg (by rw [hqu]; exact Bool.false_ne_true)]
      have := countP_le_of_imp (fun x hx => h x (List.mem_cons_of_mem _ hx))
      omega
    · have hm := ih (fun x hx => h x (List.mem_cons_of_mem a hx)) hu2
      by_cases hqa : q a = true
      · rw [if_pos hqa, if_pos (h a (List.mem_cons_self a l) hqa)]
        omega
      · rw [if_neg hqa]
        split <;> omega

theorem uv_le_of_mono {s s' : DfsSt}
    (h : ∀ x, s.visited x = true → s'.visited x = true) : UV G s' ≤ UV G s := by
  refine countP_le_of_imp ?_
  intro x _ hq
  rw [Bool.not_eq_true'] at hq ⊢
  cases hsx : s.visited x with
  | false => rfl
  | true =>
    rw [h x hsx] at hq
    exact Bool.noConfusion hq

theorem uv_update_lt {s1 s : DfsSt} {u : Nat} (hu : u < G.size)
    (hv : s.visited u = false) (h1 : ∀ x, s1.visited x = updF s.visited u true x) :
    UV G s1 < UV G s := by
  refine countP_lt_of_flip ?_ (List.mem_range.mpr hu) ?_ ?_
  · intro x _ hq
    rw [Bool.not_eq_true'] at hq ⊢
    rw [h1 x, updF] at hq
    by_cases hxu : x = u
    · rw [if_pos hxu] at hq
      exact Bool.noConfusion hq
    · rw [if_neg hxu] at hq
      exact hq
  · rw [hv]
    rfl
  · rw [h1 u, updF, if_pos rfl]
    rfl

end DfsComplete

end Ordo

namespace Ordo

section DfsComplete2

variable {G : Graph}

theorem bool_false_of_not_true {b : Bool} (h : ¬ b = true) : b = false := by
  cases b
  · rfl
  · exact absurd rfl h

/-- The `rfalse` post-condition of a completed `dfs(u)` call: stack and path
restored, visited set grown, `u` popped, invariant kept, and no newly visited
vertex lies on a circuit. -/
def APost (G : Graph) (s : DfsSt) (u : Nat) (s' : DfsSt) : Prop :=
  (∀ x, s'.onStack x = s.onStack x) ∧ s'.path = s.path ∧
  (∀ x, s.visited x = true → s'.visited x = true) ∧ s'.visited u = true ∧
  DfsInv G s' ∧ (∀ x, s'.visited x = true → s.visited x = true ∨ ¬ OnCycle G x)

/-- Partial-correctness statement for `dfs` at a given fuel. -/
def GoA (G : Graph) (fuel : Nat) : Prop :=
  ∀ u s, DfsInv G s → s.visited u = false → u < G.size → UV G s ≤ fuel →
    (dfsGo G fuel u s).1.truthy = true ∨
    ((dfsGo G fuel u s).1 = .rfalse ∧ APost G s u (dfsGo G fuel u s).2)

/-- Completeness statement: a vertex that can walk (through at least one arc)
to a grey vertex, or back to itself, is detected. -/
def GoB (G : Graph) (fuel : Nat) : Prop :=
  ∀ u s, DfsInv G s → s.visited u = false → u < G.size → UV G s ≤ fuel →
    (∃ g l, WalkFrom (edgeP G) u g l ∧ 2 ≤ l.length ∧ (s.onStack g = true ∨ g = u)) →
    (dfsGo G fuel u s).1.truthy = true

/-- The state after the entry bookkeeping of `dfs(u)`. -/
def markSt (s : DfsSt) (u : Nat) : DfsSt :=
  { visited := updF s.visited u true
    onStack := updF s.onStack u true
    path := s.path ++ [u] }

theorem mark_inv {s : DfsSt} {u : Nat} (hinv : DfsInv G s) (hvu : s.visited u = false) :
    DfsInv G (markSt s u) := by
  constructor
  · intro x hx
    show updF s.visited u true x = true
    rw [updF]
    by_cases hxu : x = u
    · rw [if_pos hxu]
    · rw [if_neg hxu]
      have hx2 : updF s.onStack u true x = true := hx
      rw [updF, if_neg hxu] at hx2
      exact hinv.1 x hx2
  · intro x hfx y he
    have hxu : x ≠ u := by
      intro h
      have h2 : updF s.onStack u true x = false := hfx.2
      rw [h, updF, if_pos rfl] at h2
      exact Bool.noConfusion h2
    have hfx0 : FinV s x := by
      have h1 : updF s.visited u true x = true := hfx.1
      have h2 : updF s.onStack u true x = false := hfx.2
      rw [updF, if_neg hxu] at h1 h2
      exact ⟨h1, h2⟩
    have hfy : FinV s y := hinv.2 x hfx0 y he
    have hyu : y ≠ u := by
      intro h
      rw [h] at hfy
      rw [hfy.1] at hvu
      exact Bool.noConfusion hvu
    constructor
    · show updF s.visited u true y = true
      rw [updF, if_neg hyu]
      exact hfy.1
    · show updF s.onStack u true y = false
      rw [updF, if_neg hyu]
      exact hfy.2

theorem dfsLoop_nil (dfs : Nat → DfsSt → DfsRes × DfsSt) (node : Nat) (s : DfsSt) :
    dfsLoop dfs node [] s =
      (.rfalse, { s with onStack := updF s.onStack node false,
                         path := s.path.dropLast }) := rfl

theorem dfsLoop_cons_unvis {dfs : Nat → DfsSt → DfsRes × DfsSt} {node nb : Nat}
    {rest : List Nat} {s : DfsSt} (h : s.visited nb = false) {r0 : DfsRes}
    {s0 : DfsSt} (hgo : dfs nb s = (r0, s0)) :
    dfsLoop dfs node (nb :: rest) s =
      if r0.truthy = true then (.rtrue, s0) else dfsLoop dfs node rest s0 := by
  show (if s.visited nb = false then
      match dfs nb s with
      | (r, s') => if r.truthy = true then (.rtrue, s') else dfsLoop dfs node rest s'
    else if s.onStack nb = true then
      (.rlist (s.path.drop (s.path.indexOf nb) ++ [nb]), s)
    else dfsLoop dfs node rest s) = _
  rw [if_pos h, hgo]

theorem dfsLoop_cons_grey {dfs : Nat → DfsSt → DfsRes × DfsSt} {node nb : Nat}
    {rest : List Nat} {s : DfsSt} (h1 : ¬ s.visited nb = false)
    (h2 : s.onStack nb = true) :
    dfsLoop dfs node (nb :: rest) s =
      (.rlist (s.path.drop (s.path.indexOf nb) ++ [nb]), s) := by
  show (if s.visited nb = false then
      match dfs nb s with
      | (r, s') => if r.truthy = true then (.rtrue, s') else dfsLoop dfs node rest s'
    else if s.onStack nb = true then
      (.rlist (s.path.drop (s.path.indexOf nb) ++ [nb]), s)
    else dfsLoop dfs node rest s) = _
  rw [if_neg h1, if_pos h2]

theorem dfsLoop_cons_fin {dfs : Nat → DfsSt → DfsRes × DfsSt} {node nb : Nat}
    {rest : List Nat} {s : DfsSt} (h1 : ¬ s.visited nb = false)
    (h2 : ¬ s.onStack nb = true) :
    dfsLoop dfs node (nb :: rest) s = dfsLoop dfs node rest s := by
  show (if s.visited nb = false then
      match dfs nb s with
      | (r, s') => if r.truthy = true then (.rtrue, s') else dfsLoop dfs node rest s'
    else if s.onStack nb = true then
      (.rlist (s.path.drop (s.path.indexOf nb) ++ [nb]), s)
    else dfsLoop dfs node rest s) = _
  rw [if_neg h1, if_neg h2]

end DfsComplete2

end Ordo

namespace Ordo

section DfsComplete3

variable {G : Graph}

/-- Invariant preservation through one neighbour scan: either a truthy result
escapes, or the scan completes with the node popped and everything restored. -/
theorem dfsLoop_post (hG : EdgesBounded G) (fuel : Nat) (hA : GoA G fuel)
    (node : Nat) (P : List Nat) :
    ∀ (rest : List Nat) (s : DfsSt),
      DfsInv G s → s.visited node = true → s.onStack node = true →
      UV G s ≤ fuel →
      (∀ y ∈ rest, edgeP G node y) →
      (∀ y, edgeP G node y → y ∈ rest ∨ FinV s y) →
      s.path = P ++ [node] →
      ∀ r s', dfsLoop (dfsGo G fuel) node rest s = (r, s') →
        r.truthy = true ∨
        (r = .rfalse ∧ (∀ x, s'.onStack x = updF s.onStack node false x) ∧
          s'.path = P ∧ (∀ x, s.visited x = true → s'.visited x = true) ∧
          (∀ x, s'.visited x = true → s.visited x = true ∨ ¬ OnCycle G x) ∧
          DfsInv G s') := by
  intro rest
  induction rest with
  | nil =>
    intro s hinv hvn hsn hUV hE hdone hpath r s' hL
    rw [dfsLoop_nil] at hL
    injection hL with h1 h2
    subst h1
    subst h2
    refine Or.inr ⟨rfl, fun x => rfl, ?_, fun x hx => hx, fun x hx => Or.inl hx, ?_⟩
    · show s.path.dropLast = P
      rw [hpath, List.dropLast_concat]
    · constructor
      · intro x hx
        have hx2 : updF s.onStack node false x = true := hx
        by_cases hxn : x = node
        · rw [updF, if_pos hxn] at hx2
          exact Bool.noConfusion hx2
        · rw [updF, if_neg hxn] at hx2
          exact hinv.1 x hx2
      · intro x hfx y he
        have htrans : ∀ z, FinV s z →
            FinV { s with onStack := updF s.onStack node false,
                          path := s.path.dropLast } z := by
          intro z hz
          refine ⟨hz.1, ?_⟩
          show updF s.onStack node false z = false
          rw [updF]
          by_cases hzn : z = node
          · rw [if_pos hzn]
          · rw [if_neg hzn]
            exact hz.2
        by_cases hxn : x = node
        · subst hxn
          rcases hdone y he with hy | hy
          · exact absurd hy (List.not_mem_nil y)
          · exact htrans y hy
        · have hfx0 : FinV s x := by
            refine ⟨hfx.1, ?_⟩
            have h2 : updF s.onStack node false x = false := hfx.2
            rw [updF, if_neg hxn] at h2
            exact h2
          exact htrans y (hinv.2 x hfx0 y he)
  | cons nb rest ih =>
    intro s hinv hvn hsn hUV hE hdone hpath r s' hL
    by_cases hvnb : s.visited nb = false
    · rcases hgo : dfsGo G fuel nb s with ⟨r0, s0⟩
      rw [dfsLoop_cons_unvis hvnb hgo] at hL
      rcases hA nb s hinv hvnb (hG node nb (hE nb (List.mem_cons_self nb rest))).2 hUV
        with htr | ⟨hrf, hpost⟩
      · have htr0 : r0.truthy = true := by
          rw [hgo] at htr
          exact htr
        rw [if_pos htr0] at hL
        injection hL with h1 h2
        subst h1
        exact Or.inl rfl
      · have hrf0 : r0 = .rfalse := by
          rw [hgo] at hrf
          exact hrf
        have hpost0 : APost G s nb s0 := by
          rw [hgo] at hpost
          exact hpost
        subst hrf0
        rw [if_neg (by decide : ¬ (DfsRes.rfalse.truthy = true))] at hL
        obtain ⟨hos, hpath0, hmono, hvnb0, hinv0, honc⟩ := hpost0
        have hsnb : s.onStack nb = false := by
          cases h : s.onStack nb with
          | false => rfl
          | true =>
            rw [hinv.1 nb h] at hvnb
            exact Bool.noConfusion hvnb
        have hdone0 : ∀ y, edgeP G node y → y ∈ rest ∨ FinV s0 y := by
          intro y he
          rcases hdone y he with hy | hy
          · rcases List.mem_cons.mp hy with hy1 | hy2
            · refine Or.inr ?_
              rw [hy1]
              exact ⟨hvnb0, by rw [hos nb]; exact hsnb⟩
            · exact Or.inl hy2
          · exact Or.inr ⟨hmono y hy.1, by rw [hos y]; exact hy.2⟩
        have hres := ih s0 hinv0 (hmono node hvn) (by rw [hos node]; exact hsn)
          (le_trans (uv_le_of_mono hmono) hUV)
          (fun y hy => hE y (List.mem_cons_of_mem nb hy)) hdone0
          (by rw [hpath0]; exact hpath) r s' hL
        rcases hres with h | ⟨hr, hos1, hpath1, hmono1, honc1, hinv1⟩
        · exact Or.inl h
        · refine Or.inr ⟨hr, ?_, hpath1, ?_, ?_, hinv1⟩
          · intro x
            rw [hos1 x, updF, updF]
            by_cases hxn : x = node
            · rw [if_pos hxn, if_pos hxn]
            · rw [if_neg hxn, if_neg hxn]
              exact hos x
          · intro x hx
            exact hmono1 x (hmono x hx)
          · intro x hx
            rcases honc1 x hx with hx0 | hx0
            · exact honc x hx0
            · exact Or.inr hx0
    · by_cases hsnb : s.onStack nb = true
      · rw [dfsLoop_cons_grey hvnb hsnb] at hL
        injection hL with h1 h2
        subst h1
        refine Or.inl ?_
        show (DfsRes.rlist (s.path.drop (s.path.indexOf nb) ++ [nb])).truthy = true
        simp [DfsRes.truthy]
      · rw [dfsLoop_cons_fin hvnb hsnb] at hL
        have hdone2 : ∀ y, edgeP G node y → y ∈ rest ∨ FinV s y := by
          intro y he
          rcases hdone y he with hy | hy
          · rcases List.mem_cons.mp hy with rfl | hy2
            · exact Or.inr ⟨bool_true_of_not_false hvnb, bool_false_of_not_true hsnb⟩
            · exact Or.inl hy2
          · exact Or.inr hy
        exact ih s hinv hvn hsn hUV (fun y hy => hE y (List.mem_cons_of_mem nb hy))
          hdone2 hpath r s' hL

end DfsComplete3

end Ordo

namespace Ordo

section DfsComplete4

variable {G : Graph}

/-- Detection through one neighbour scan: if some remaining neighbour can walk
to a grey vertex, the scan result is truthy. -/
theorem dfsLoop_complete (hG : EdgesBounded G) (fuel : Nat) (hA : GoA G fuel)
    (hB : GoB G fuel) (node : Nat) :
    ∀ (rest : List Nat) (s : DfsSt),
      DfsInv G s → UV G s ≤ fuel →
      (∀ y ∈ rest, edgeP G node y) →
      (∃ x1, x1 ∈ rest ∧ ∃ g l, WalkFrom (edgeP G) x1 g l ∧ s.onStack g = true) →
      (dfsLoop (dfsGo G fuel) node rest s).1.truthy = true := by
  intro rest
  induction rest with
  | nil =>
    intro s _ _ _ hwit
    obtain ⟨x1, hx1, -⟩ := hwit
    exact absurd hx1 (List.not_mem_nil x1)
  | cons nb rest ih =>
    intro s hinv hUV hE hwit
    obtain ⟨x1, hx1mem, g, l, hwgl, hg⟩ := hwit
    by_cases hvnb : s.visited nb = false
    · rcases hgo : dfsGo G fuel nb s with ⟨r0, s0⟩
      by_cases hx1nb : x1 = nb
      · -- the witness neighbour itself: the recursive call must be truthy
        have hlen2 : 2 ≤ l.length := by
          cases l with
          | nil => exact absurd rfl hwgl.ne_nil
          | cons a l2 =>
            cases l2 with
            | nil =>
              obtain ⟨ha, hab⟩ := walkFrom_single_elim hwgl
              exfalso
              have hgvis : s.visited g = true := hinv.1 g hg
              rw [← hab, hx1nb] at hgvis
              rw [hgvis] at hvnb
              exact Bool.noConfusion hvnb
            | cons b l3 => simp
        have htr := hB nb s hinv hvnb (hG node nb (hE nb (List.mem_cons_self nb rest))).2
          hUV ⟨g, l, hx1nb ▸ hwgl, hlen2, Or.inl hg⟩
        have htr0 : r0.truthy = true := by
          rw [hgo] at htr
          exact htr
        rw [dfsLoop_cons_unvis hvnb hgo, if_pos htr0]
        rfl
      · rcases hA nb s hinv hvnb (hG node nb (hE nb (List.mem_cons_self nb rest))).2 hUV
          with htr | ⟨hrf, hpost⟩
        · have htr0 : r0.truthy = true := by
            rw [hgo] at htr
            exact htr
          rw [dfsLoop_cons_unvis hvnb hgo, if_pos htr0]
          rfl
        · have hrf0 : r0 = .rfalse := by
            rw [hgo] at hrf
            exact hrf
          have hpost0 : APost G s nb s0 := by
            rw [hgo] at hpost
            exact hpost
          subst hrf0
          rw [dfsLoop_cons_unvis hvnb hgo,
            if_neg (by decide : ¬ (DfsRes.rfalse.truthy = true))]
          obtain ⟨hos, -, hmono, -, hinv0, -⟩ := hpost0
          refine ih s0 hinv0 (le_trans (uv_le_of_mono hmono) hUV)
            (fun y hy => hE y (List.mem_cons_of_mem nb hy)) ?_
          refine ⟨x1, ?_, g, l, hwgl, by rw [hos g]; exact hg⟩
          rcases List.mem_cons.mp hx1mem with h | h
          · exact absurd h hx1nb
          · exact h
    · by_cases hsnb : s.onStack nb = true
      · rw [dfsLoop_cons_grey hvnb hsnb]
        show (DfsRes.rlist (s.path.drop (s.path.indexOf nb) ++ [nb])).truthy = true
        simp [DfsRes.truthy]
      · rw [dfsLoop_cons_fin hvnb hsnb]
        by_cases hx1nb : x1 = nb
        · exfalso
          have hfnb : FinV s nb :=
            ⟨bool_true_of_not_false hvnb, bool_false_of_not_true hsnb⟩
          have hfg : FinV s g := fin_chain hinv l x1 g hwgl (hx1nb ▸ hfnb)
          rw [hfg.2] at hg
          exact Bool.noConfusion hg
        · refine ih s hinv hUV (fun y hy => hE y (List.mem_cons_of_mem nb hy)) ?_
          refine ⟨x1, ?_, g, l, hwgl, hg⟩
          rcases List.mem_cons.mp hx1mem with h | h
          · exact absurd h hx1nb
          · exact h

end DfsComplete4

end Ordo

namespace Ordo

section DfsComplete5

variable {G : Graph}

theorem dfsGo_succ (fuel u : Nat) (s : DfsSt) :
    dfsGo G (fuel + 1) u s = dfsLoop (dfsGo G fuel) u (adjL G u) (markSt s u) := rfl

/-- The two `dfs` specifications, by induction on the fuel. -/
theorem dfsGo_spec (hG : EdgesBounded G) : ∀ fuel, GoA G fuel ∧ GoB G fuel := by
  intro fuel
  induction fuel with
  | zero =>
    have hfalse : ∀ u s, DfsInv G s → s.visited u = false → u < G.size →
        UV G s ≤ 0 → False := by
      intro u s _ hvu hu hUV
      have : 0 < UV G s :=
        List.countP_pos.mpr ⟨u, List.mem_range.mpr hu, by rw [hvu]; rfl⟩
      omega
    constructor
    · intro u s hinv hvu hu hUV
      exact (hfalse u s hinv hvu hu hUV).elim
    · intro u s hinv hvu hu hUV _
      exact (hfalse u s hinv hvu hu hUV).elim
  | succ fuel ih =>
    obtain ⟨ihA, ihB⟩ := ih
    have hmarkfacts : ∀ u s, DfsInv G s → s.visited u = false → u < G.size →
        UV G s ≤ fuel + 1 → DfsInv G (markSt s u) ∧ UV G (markSt s u) ≤ fuel := by
      intro u s hinv hvu hu hUV
      refine ⟨mark_inv hinv hvu, ?_⟩
      have := @uv_update_lt G (markSt s u) s u hu hvu (fun x => rfl)
      omega
    have hBs : GoB G (fuel + 1) := by
      intro u s hinv hvu hu hUV hwit
      obtain ⟨g, l, hwgl, hlen, hg⟩ := hwit
      obtain ⟨hinv1, hUV1⟩ := hmarkfacts u s hinv hvu hu hUV
      rw [dfsGo_succ]
      cases l with
      | nil => exact absurd rfl hwgl.ne_nil
      | cons a l2 =>
        cases l2 with
        | nil => simp at hlen
        | cons b l3 =>
          obtain ⟨ha, hub, hwtail⟩ := walkFrom_cons_cons_elim hwgl
          refine dfsLoop_complete hG fuel ihA ihB u (adjL G u) (markSt s u) hinv1 hUV1
            (fun y hy => (mem_adjL hG).mp hy) ?_
          refine ⟨b, (mem_adjL hG).mpr hub, g, b :: l3, hwtail, ?_⟩
          show updF s.onStack u true g = true
          rw [updF]
          by_cases hgu : g = u
          · rw [if_pos hgu]
          · rw [if_neg hgu]
            rcases hg with h | h
            · exact h
            · exact absurd h hgu
    have hAs : GoA G (fuel + 1) := by
      intro u s hinv hvu hu hUV
      by_cases hcyc : OnCycle G u
      · obtain ⟨l, hwl, hlen⟩ := hcyc
        exact Or.inl (hBs u s hinv hvu hu hUV ⟨u, l, hwl, hlen, Or.inr rfl⟩)
      · obtain ⟨hinv1, hUV1⟩ := hmarkfacts u s hinv hvu hu hUV
        have hsu : s.onStack u = false := by
          cases h : s.onStack u with
          | false => rfl
          | true =>
            rw [hinv.1 u h] at hvu
            exact Bool.noConfusion hvu
        rcases hres : dfsLoop (dfsGo G fuel) u (adjL G u) (markSt s u) with ⟨r, s'⟩
        have hpost := dfsLoop_post hG fuel ihA u s.path (adjL G u) (markSt s u) hinv1
          (by show updF s.visited u true u = true; rw [updF, if_pos rfl])
          (by show updF s.onStack u true u = true; rw [updF, if_pos rfl])
          hUV1 (fun y hy => (mem_adjL hG).mp hy)
          (fun y he => Or.inl ((mem_adjL hG).mpr he)) rfl r s' hres
        rw [dfsGo_succ, hres]
        rcases hpost with h | ⟨hr, hos, hpath, hmono, honc, hinv2⟩
        · exact Or.inl h
        · refine Or.inr ⟨hr, ?_, hpath, ?_, ?_, hinv2, ?_⟩
          · intro x
            rw [hos x, updF]
            by_cases hxu : x = u
            · rw [if_pos hxu, hxu]
              exact hsu.symm
            · rw [if_neg hxu]
              show updF s.onStack u true x = s.onStack x
              rw [updF, if_neg hxu]
          · intro x hx
            refine hmono x ?_
            show updF s.visited u true x = true
            rw [updF]
            by_cases hxu : x = u
            · rw [if_pos hxu]
            · rw [if_neg hxu]
              exact hx
          · exact hmono u (by show updF s.visited u true u = true; rw [updF, if_pos rfl])
          · intro x hx
            rcases honc x hx with h1 | h1
            · have h2 : updF s.visited u true x = true := h1
              by_cases hxu : x = u
              · rw [hxu]
                exact Or.inr hcyc
              · rw [updF, if_neg hxu] at h2
                exact Or.inl h2
            · exact Or.inr h1
    exact ⟨hAs, hBs⟩

end DfsComplete5

end Ordo

namespace Ordo

section DfsDriver

variable {G : Graph}

theorem dfsRoots_cons_unvis_false {node : Nat} {rest : List Nat} {s s0 : DfsSt}
    (h : s.visited node = false)
    (hgo : dfsGo G (G.size + 1) node s = (.rfalse, s0)) :
    dfsRoots G (node :: rest) s = dfsRoots G rest s0 := by
  show (if s.visited node = false then
      match dfsGo G (G.size + 1) node s with
      | (.rfalse, s') => dfsRoots G rest s'
      | (r, _) => r
    else dfsRoots G rest s) = _
  rw [if_pos h, hgo]

theorem dfsRoots_cons_unvis_res {node : Nat} {rest : List Nat} {s s0 : DfsSt}
    {r0 : DfsRes} (h : s.visited node = false)
    (hgo : dfsGo G (G.size + 1) node s = (r0, s0)) (hr : r0 ≠ .rfalse) :
    dfsRoots G (node :: rest) s = r0 := by
  show (if s.visited node = false then
      match dfsGo G (G.size + 1) node s with
      | (.rfalse, s') => dfsRoots G rest s'
      | (r, _) => r
    else dfsRoots G rest s) = _
  rw [if_pos h, hgo]
  cases r0 with
  | rtrue => rfl
  | rfalse => exact absurd rfl hr
  | rlist l => rfl

theorem dfsRoots_cons_vis {node : Nat} {rest : List Nat} {s : DfsSt}
    (h : ¬ s.visited node = false) :
    dfsRoots G (node :: rest) s = dfsRoots G rest s := by
  show (if s.visited node = false then
      match dfsGo G (G.size + 1) node s with
      | (.rfalse, s') => dfsRoots G rest s'
      | (r, _) => r
    else dfsRoots G rest s) = _
  rw [if_neg h]

/-- The root loop detects any circuit vertex among its roots. -/
theorem dfsRoots_complete (hG : EdgesBounded G) :
    ∀ (L : List Nat) (s : DfsSt),
      DfsInv G s → (∀ x, s.onStack x = false) →
      (∀ x, s.visited x = true → ¬ OnCycle G x) →
      (∀ x ∈ L, x < G.size) →
      ∀ c, c ∈ L → OnCycle G c →
      (dfsRoots G L s).truthy = true := by
  intro L
  induction L with
  | nil =>
    intro s _ _ _ _ c hc _
    exact absurd hc (List.not_mem_nil c)
  | cons node rest ih =>
    intro s hinv hstack hnoc hLlt c hc hcyc
    have hUV : UV G s ≤ G.size + 1 :=
      le_trans (List.countP_le_length _) (by rw [List.length_range]; omega)
    rcases List.mem_cons.mp hc with hceq | hcrest
    · have hvc : s.visited node = false := by
        cases h : s.visited node with
        | false => rfl
        | true => exact absurd (hceq ▸ hcyc) (hnoc node h)
      obtain ⟨l, hwl, hlen⟩ := hcyc
      have htr := (dfsGo_spec hG (G.size + 1)).2 node s hinv hvc
        (hLlt node (List.mem_cons_self node rest)) hUV
        ⟨node, l, hceq ▸ hwl, hlen, Or.inr rfl⟩
      rcases hgo : dfsGo G (G.size + 1) node s with ⟨r0, s0⟩
      have htr0 : r0.truthy = true := by
        rw [hgo] at htr
        exact htr
      have hr0 : r0 ≠ .rfalse := by
        intro h
        rw [h] at htr0
        exact Bool.noConfusion htr0
      rw [dfsRoots_cons_unvis_res hvc hgo hr0]
      exact htr0
    · by_cases hvn : s.visited node = false
      · rcases hgo : dfsGo G (G.size + 1) node s with ⟨r0, s0⟩
        rcases (dfsGo_spec hG (G.size + 1)).1 node s hinv hvn
          (hLlt node (List.mem_cons_self node rest)) hUV with htr | ⟨hrf, hpost⟩
        · have htr0 : r0.truthy = true := by
            rw [hgo] at htr
            exact htr
          have hr0 : r0 ≠ .rfalse := by
            intro h
            rw [h] at htr0
            exact Bool.noConfusion htr0
          rw [dfsRoots_cons_unvis_res hvn hgo hr0]
          exact htr0
        · have hrf0 : r0 = .rfalse := by
            rw [hgo] at hrf
            exact hrf
          have hpost0 : APost G s node s0 := by
            rw [hgo] at hpost
            exact hpost
          subst hrf0
          rw [dfsRoots_cons_unvis_false hvn hgo]
          obtain ⟨hos, -, -, -, hinv0, honc⟩ := hpost0
          refine ih s0 hinv0 (fun x => by rw [hos x]; exact hstack x) ?_
            (fun x hx => hLlt x (List.mem_cons_of_mem node hx)) c hcrest hcyc
          intro x hx
          rcases honc x hx with h1 | h1
          · exact hnoc x h1
          · exact h1
      · rw [dfsRoots_cons_vis hvn]
        exact ih s hinv hstack hnoc (fun x hx => hLlt x (List.mem_cons_of_mem node hx))
          c hcrest hcyc

/-- `detecter_circuit` reports falsy exactly on acyclic graphs. -/
theorem detecterCircuit_truthy (hG : EdgesBounded G) :
    (detecterCircuit G).truthy = false ↔ AcyclicG G := by
  constructor
  · intro h
    by_contra hac
    have hcyc := not_not.mp hac
    obtain ⟨v, l, hw, hlen⟩ := hcyc
    have hvlt : v < G.size := by
      cases l with
      | nil => exact absurd rfl hw.ne_nil
      | cons a l2 =>
        cases l2 with
        | nil => simp at hlen
        | cons b l3 =>
          obtain ⟨-, hub, -⟩ := walkFrom_cons_cons_elim hw
          exact (hG v b hub).1
    have hneq : ¬ ((kahn G (fun val _ _ => val) (fun _ => ())).order.length = G.size) := by
      intro heq
      exact hac ((kahn_order_length hG _).mp heq)
    have hroot := dfsRoots_complete hG (List.range G.size)
      ⟨fun _ => false, fun _ => false, []⟩
      ⟨fun x hx => Bool.noConfusion hx, fun x hfx _ _ => absurd hfx.1 (by simp)⟩
      (fun _ => rfl) (fun x hx => Bool.noConfusion hx)
      (fun x hx => List.mem_range.mp hx) v (List.mem_range.mpr hvlt) ⟨l, hw, hlen⟩
    cases hres : dfsRoots G (List.range G.size) ⟨fun _ => false, fun _ => false, []⟩ with
    | rtrue =>
      have hd : detecterCircuit G = .pytrue := by
        show (if (kahn G (fun val _ _ => val) (fun _ => ())).order.length = G.size
            then CircuitRes.none
            else match dfsRoots G (List.range G.size)
              ⟨fun _ => false, fun _ => false, []⟩ with
              | .rtrue => .pytrue
              | .rfalse => .pylist []
              | .rlist l => .pylist l) = .pytrue
        rw [if_neg hneq, hres]
      rw [hd] at h
      exact Bool.noConfusion h
    | rfalse =>
      rw [hres] at hroot
      exact Bool.noConfusion hroot
    | rlist l2 =>
      have hd : detecterCircuit G = .pylist l2 := by
        show (if (kahn G (fun val _ _ => val) (fun _ => ())).order.length = G.size
            then CircuitRes.none
            else match dfsRoots G (List.range G.size)
              ⟨fun _ => false, fun _ => false, []⟩ with
              | .rtrue => .pytrue
              | .rfalse => .pylist []
              | .rlist l => .pylist l) = .pylist l2
        rw [if_neg hneq, hres]
      rw [hd] at h
      rw [hres] at hroot
      have h2 : (!l2.isEmpty) = false := h
      have h3 : (!l2.isEmpty) = true := hroot
      rw [h2] at h3
      exact Bool.noConfusion h3
  · intro hac
    have heq : (kahn G (fun val _ _ => val) (fun _ => ())).order.length = G.size :=
      (kahn_order_length hG _).mpr hac
    have hd : detecterCircuit G = .none := by
      show (if (kahn G (fun val _ _ => val) (fun _ => ())).order.length = G.size
          then CircuitRes.none
          else match dfsRoots G (List.range G.size)
            ⟨fun _ => false, fun _ => false, []⟩ with
            | .rtrue => .pytrue
            | .rfalse => .pylist []
            | .rlist l => .pylist l) = .none
      rw [if_pos heq]
    rw [hd]
    rfl

end DfsDriver

end Ordo

namespace Claims

open Ordo

/-- C5: on every built graph `verifier_proprietes` answers `True` exactly when
no matrix entry is negative and the graph has no circuit; a negative weight
only flips the verdict to `False` (the embedding is total — no exception). -/
theorem c5_verifier_iff (t : TaskTable) (G : Graph)
    (hok : construireGraphe t = .ok G) :
    verifierProprietes G = true ↔
      ((∀ i j x, G.w i j = some x → 0 ≤ x) ∧ AcyclicG G) := by
  have hG := built_edge_lt hok
  have hsz := hsz_of hok
  have hs0 : ¬ (G.size = 0) := by
    rw [hsz]
    omega
  have hneg : (decide (∃ i ∈ List.range G.size, ∃ j ∈ List.range G.size,
      ∃ x, G.w i j = some x ∧ x < 0) : Bool) = false ↔
      (∀ i j x, G.w i j = some x → 0 ≤ x) := by
    rw [decide_eq_false_iff_not]
    constructor
    · intro h i j x hx
      by_contra hlt
      push_neg at hlt
      have hij : edgeP G i j := by
        rw [edgeP, isEdge, hx]
        rfl
      exact h ⟨i, List.mem_range.mpr (hG i j hij).1, j,
        List.mem_range.mpr (hG i j hij).2, x, hx, hlt⟩
    · rintro h ⟨i, -, j, -, x, hx, hlt⟩
      have := h i j x hx
      omega
  have hunf : verifierProprietes G =
      (!(decide (∃ i ∈ List.range G.size, ∃ j ∈ List.range G.size,
        ∃ x, G.w i j = some x ∧ x < 0)) && !(detecterCircuit G).truthy) := by
    show (if G.size = 0 then false
      else !(decide (∃ i ∈ List.range G.size, ∃ j ∈ List.range G.size,
        ∃ x, G.w i j = some x ∧ x < 0)) && !(detecterCircuit G).truthy) = _
    rw [if_neg hs0]
  rw [hunf, Bool.and_eq_true, Bool.not_eq_true', Bool.not_eq_true']
  constructor
  · rintro ⟨h1, h2⟩
    exact ⟨hneg.mp h1, (detecterCircuit_truthy hG).mp h2⟩
  · rintro ⟨h1, h2⟩
    exact ⟨hneg.mpr h1, (detecterCircuit_truthy hG).mpr h2⟩

/-- C5 (witness): on the nominal scenario the verdict is `True`, by the two
sides of the contract. -/
theorem c5_verifier_iff_witness :
    verifierProprietes (builtG exTasks) = true :=
  (c5_verifier_iff exTasks (builtG exTasks)
    (rfl : construireGraphe exTasks = .ok (builtG exTasks))).mpr
    ⟨built_w_nonneg (rfl : construireGraphe exTasks = .ok (builtG exTasks))
      (by decide),
     (@kahn_order_length Int (builtG exTasks) relaxRank
      (built_edge_lt (rfl : construireGraphe exTasks = .ok (builtG exTasks)))
      (fun _ => 0)).mp (by decide)⟩

end Claims

namespace Ordo

section CritPaths

/-- Soundness invariant of the path-enumeration `dfs`: every accumulated path
is a critical-arc walk from α to ω. -/
theorem cpDfs_sound (G : Graph) (early : Nat → Int) (late : Nat → LateVal)
    (omega : Nat) :
    ∀ (fuel node : Nat) (path : List Nat) (paths : List (List Nat)),
      (∀ p ∈ paths,
        WalkFrom (fun i j => critEdge G early late i j = true) 0 omega p) →
      WalkFrom (fun i j => critEdge G early late i j = true) 0 node
        (path ++ [node]) →
      ∀ p ∈ cpDfs G early late omega fuel node path paths,
        WalkFrom (fun i j => critEdge G early late i j = true) 0 omega p := by
  intro fuel
  induction fuel with
  | zero =>
    intro node path paths hps _ p hp
    exact hps p hp
  | succ fuel ih =>
    intro node path paths hps hpath p hp
    rw [show cpDfs G early late omega (fuel + 1) node path paths =
      (if node = omega then paths ++ [path ++ [node]]
       else cpFold (cpDfs G early late omega fuel) (path ++ [node])
         (critAdj G early late node) paths) from rfl] at hp
    by_cases hno : node = omega
    · rw [if_pos hno] at hp
      rcases List.mem_append.mp hp with h | h
      · exact hps p h
      · rcases List.mem_singleton.mp h with rfl
        rw [← hno]
        exact hpath
    · rw [if_neg hno] at hp
      have hfold : ∀ (L : List Nat) (ps : List (List Nat)),
          (∀ q ∈ ps,
            WalkFrom (fun i j => critEdge G early late i j = true) 0 omega q) →
          (∀ nb ∈ L, critEdge G early late node nb = true) →
          ∀ q ∈ cpFold (cpDfs G early late omega fuel) (path ++ [node]) L ps,
            WalkFrom (fun i j => critEdge G early late i j = true) 0 omega q := by
        intro L
        induction L with
        | nil =>
          intro ps hq _ q hqm
          exact hq q hqm
        | cons nb L ihL =>
          intro ps hq hL q hqm
          rw [show cpFold (cpDfs G early late omega fuel) (path ++ [node])
              (nb :: L) ps =
            cpFold (cpDfs G early late omega fuel) (path ++ [node]) L
              (cpDfs G early late omega fuel nb (path ++ [node]) ps) from rfl] at hqm
          refine ihL _ ?_ (fun x hx => hL x (List.mem_cons_of_mem nb hx)) q hqm
          intro q2 hq2
          exact ih nb (path ++ [node]) ps hq
            (walkFrom_snoc hpath (hL nb (List.mem_cons_self nb L))) q2 hq2
      refine hfold (critAdj G early late node) paths hps ?_ p hp
      intro nb hnb
      exact (List.mem_filter.mp hnb).2

end CritPaths

end Ordo

namespace Claims

open Ordo

/-- C7: every path returned by `trouver_chemins_critiques` starts at α, ends
at ω, and follows only arcs with `late[j] - early[i] - w(i,j) = 0`; when α
cannot reach ω in the zero-slack subgraph the returned list is empty. -/
theorem c7_critical_paths (G : Graph) (early : Nat → Int) (late : Nat → LateVal) :
    (∀ p ∈ trouverCheminsCritiques G early late,
      WalkFrom (fun i j => critEdge G early late i j = true) 0 (omegaOf G) p) ∧
    (¬ Reach (fun i j => critEdge G early late i j = true) 0 (omegaOf G) →
      trouverCheminsCritiques G early late = []) := by
  have hsound := cpDfs_sound G early late (omegaOf G) (G.size + 1) 0 [] []
    (fun p hp => absurd hp (List.not_mem_nil p))
    (walkFrom_singleton 0)
  constructor
  · intro p hp
    exact hsound p hp
  · intro hnr
    cases hres : trouverCheminsCritiques G early late with
    | nil => rfl
    | cons p ps =>
      exfalso
      have hp : p ∈ trouverCheminsCritiques G early late := by
        rw [hres]
        exact List.mem_cons_self p ps
      exact hnr ⟨p, hsound p hp⟩

/-- C7 (witness): on the nominal scenario the returned path `0→1→3→4→5` is a
zero-slack walk from α to ω. -/
theorem c7_critical_paths_witness :
    WalkFrom (fun i j => critEdge (builtG exTasks) (earlyArray (builtG exTasks))
        (lateArray (builtG exTasks)) i j = true) 0 (omegaOf (builtG exTasks))
      [0, 1, 3, 4, 5] :=
  (c7_critical_paths (builtG exTasks) (earlyArray (builtG exTasks))
    (lateArray (builtG exTasks))).1 [0, 1, 3, 4, 5] (by decide)

end Claims

namespace Claims

open Ordo

/-- C10: with ids exactly the dict keys `1..n`, every task vertex keeps at
least one outgoing arc (a task that is nobody's predecessor gets the arc
`task → ω` weighted by its own duration), α never gets an arc to ω, and on a
table where every task has predecessors α has out-degree 0 and ω is
unreachable from α. -/
theorem c10_outgoing (t : TaskTable) (G : Graph)
    (hok : construireGraphe t = .ok G)
    (hids : ∀ id, id ∈ keys t → 1 ≤ id ∧ id ≤ t.length)
    (hnd : (keys t).Nodup) :
    (∀ e ∈ t, ∃ v, edgeP G e.1 v) ∧
    (∀ e ∈ t, (∀ e2 ∈ t, e.1 ∉ e2.2.2) →
      G.w e.1 (t.length + 1) = some e.2.1) ∧
    ¬ edgeP G 0 (t.length + 1) ∧
    ((∀ e ∈ t, e.2.2 ≠ []) →
      (∀ v, ¬ edgeP G 0 v) ∧ ¬ Reach (edgeP G) 0 (t.length + 1)) := by
  have h0k : (0 : Nat) ∉ keys t := by
    intro h
    have := hids 0 h
    omega
  have hωk : t.length + 1 ∉ keys t := by
    intro h
    have := hids (t.length + 1) h
    omega
  have htf0 : tfind t 0 = none := by
    cases hf : tfind t 0 with
    | none => rfl
    | some x => exact absurd (mem_keys_of_tfind hf) h0k
  refine ⟨?_, ?_, ?_, ?_⟩
  · intro e he
    refine built_task_out_edge hok e he ?_
    intro h
    have := hids e.1 (List.mem_map.mpr ⟨e, he, rfl⟩)
    omega
  · intro e he hnosucc
    obtain ⟨m1, m2, hA, hB, hsz, hw⟩ := built_elim hok
    have hid := hids e.1 (List.mem_map.mpr ⟨e, he, rfl⟩)
    have hrow : ∀ j ∈ List.range (t.length + 2), m2 e.1 j = none := by
      intro j hj
      rw [phaseBGo_spec (t.length + 2) t t m1 m2 hB]
      rw [if_neg ?_]
      · rw [phaseA_spec (t.length + 2) t _ m1 hA]
        rw [if_neg ?_]
        intro hcon
        omega
      · rintro ⟨e2, he2, -, hmem⟩
        exact hnosucc e2 he2 hmem
    rw [hw, phaseC_spec, if_pos ⟨built_id_lt hok e he, by omega, hrow, rfl,
      tfind_of_mem he⟩, tfind_of_mem_nodup hnd he]
    rfl
  · intro he
    have he2 : G.w 0 (t.length + 1) ≠ none := by
      intro hn
      rw [edgeP, isEdge, hn] at he
      exact Bool.noConfusion he
    rcases built_w_cases hok 0 (t.length + 1) he2 with ⟨-, -, -, h4, -⟩ |
        ⟨⟨e2, he2m, hek, -⟩, -⟩ | ⟨-, ⟨e2, he2m, hek, -⟩, -⟩
    · exact h0k (tfind_isSome_iff.mp h4)
    · exact hωk (hek ▸ List.mem_map.mpr ⟨e2, he2m, rfl⟩)
    · exact hωk (hek ▸ List.mem_map.mpr ⟨e2, he2m, rfl⟩)
  · intro hpreds
    have hnoout : ∀ v, ¬ edgeP G 0 v := by
      intro v he
      have he2 : G.w 0 v ≠ none := by
        intro hn
        rw [edgeP, isEdge, hn] at he
        exact Bool.noConfusion he
      rcases built_w_cases hok 0 v he2 with ⟨-, -, -, h4, -⟩ |
          ⟨⟨e2, he2m, -, -⟩, h5⟩ | ⟨-, ⟨e2, he2m, -, hemp⟩, -⟩
      · exact h0k (tfind_isSome_iff.mp h4)
      · rw [edgeP, isEdge, h5, htf0] at he
        exact Bool.noConfusion he
      · exact hpreds e2 he2m hemp
    refine ⟨hnoout, ?_⟩
    rintro ⟨l, hl⟩
    cases l with
    | nil => exact absurd rfl hl.ne_nil
    | cons a l2 =>
      cases l2 with
      | nil =>
        obtain ⟨-, hab⟩ := walkFrom_single_elim hl
        omega
      | cons b l3 =>
        obtain ⟨-, hub, -⟩ := walkFrom_cons_cons_elim hl
        exact hnoout b hub

/-- C10 (witness): on the all-predecessors cyclic table `{1:(1,[2]),
2:(1,[1])}` α has no outgoing arc and ω is unreachable from α. -/
theorem c10_outgoing_witness :
    (∀ v, ¬ edgeP (builtG cycTasks) 0 v) ∧
    ¬ Reach (edgeP (builtG cycTasks)) 0 (cycTasks.length + 1) :=
  (c10_outgoing cycTasks (builtG cycTasks)
    (rfl : construireGraphe cycTasks = .ok (builtG cycTasks))
    (by
      intro id h
      simp [keys, cycTasks] at h
      rcases h with rfl | rfl <;> decide)
    (by decide)).2.2.2 (by decide)

end Claims
